import Mathlib

/-!
# Streaming Merkle tree (`crypto/merkletree`)

A shallow embedding of `tree.go`, `verify.go`, `cachedtree.go` and
`readers.go`, followed by the properties proved about it.

Conventions of the embedding.

* A `[]byte` is the list of its bytes.  Only a Merkle root is told apart from
  `nil` (that is the one place where the source tests a slice against `nil`),
  so a root is an `Option Bytes`, `none` standing for `nil`.
* A `hash.Hash` is used by the source only through `sum`, which resets it,
  writes the pieces and takes `Sum(nil)`: it is a function from the written
  bytes to the digest.
* The `next` chain of `subTree` nodes hanging off `Tree.head` is a list whose
  first element is `head`; `nil` is the empty list.
* `uint64` values are natural numbers, every operation reduced modulo `2^64`.
* Where an argument of the caller alone can make a function panic (`VerifyProof`,
  `CachedTree.SetIndex`, `ReadAll`), the panic is a result of its own (`none`,
  `ReadAllResult.panic`).  The division in `Push` has a zero divisor only when a
  subtree of height 64 or more is merged, which takes more than `2^64` leaves; it is
  left as the total division of `Nat`, and `push_mid` shows the divisor to be `2^c`
  in every tree that holds fewer than `2^64` leaves.
-/

namespace Merkletree

/-! ## Machine arithmetic -/

/-- Modulus of `uint64` arithmetic. -/
def U64 : Nat := 2 ^ 64

/-- Go `x << s` on `uint64`: bits shifted out are lost; a count of 64 or more gives 0. -/
def shl64 (x s : Nat) : Nat := (x * 2 ^ s) % U64

/-- Go `x + y` on `uint64`. -/
def add64 (x y : Nat) : Nat := (x + y) % U64

/-- Go `x - y` on `uint64` (wraps below zero). -/
def sub64 (x y : Nat) : Nat := (x % U64 + U64 - y % U64) % U64

/-- Go `x * y` on `uint64`. -/
def mul64 (x y : Nat) : Nat := (x * y) % U64

/-! ## Digests (`tree.go`, lines 25-51) -/

abbrev Bytes := List UInt8

/-- The digest primitive: the bytes written since the last reset, to the digest. -/
abbrev Hash := Bytes → Bytes

/-- Go `sum(h, data...)`: reset, write every piece, `Sum(nil)`. -/
def sum (h : Hash) (data : List Bytes) : Bytes := h data.flatten

/-- Go `leafSum`: `Hash(0x00 || data)`. -/
def leafSum (h : Hash) (data : Bytes) : Bytes := sum h [[0], data]

/-- Go `nodeSum`: `Hash(0x01 || a || b)`. -/
def nodeSum (h : Hash) (a b : Bytes) : Bytes := sum h [[1], a, b]

/-- One node of the `subTree` chain; its `next` pointer is the tail of the list it sits in. -/
structure subTree where
  height : Nat
  sum : Bytes
deriving DecidableEq, Repr

/-- Go `joinSubTrees(h, a, b)`; the caller links the result in front of `a.next`. -/
def joinSubTrees (h : Hash) (a b : subTree) : subTree :=
  { height := a.height + 1, sum := nodeSum h a.sum b.sum }

/-! ## Tree (`tree.go`) -/

/-- Go `Tree`: the forest of pending subtrees, the digest, the number of leaves pushed, the
target index with the proof entries gathered for it, and the raw-leaf flag. -/
structure Tree where
  head : List subTree
  hash : Hash
  currentIndex : Nat
  proofIndex : Nat
  proofSet : List Bytes
  cachedTree : Bool

/-- Go `New(h)`: every other field has its zero value. -/
def New (h : Hash) : Tree :=
  { head := [], hash := h, currentIndex := 0, proofIndex := 0, proofSet := [], cachedTree := false }

/-- The loop of `Tree.Root` and the first loop of `Tree.Prove` share this step:
`current = joinSubTrees(t.hash, current.next, current)`. -/
def rootLoop (h : Hash) : subTree → List subTree → subTree
  | current, [] => current
  | current, next :: rest => rootLoop h (joinSubTrees h next current) rest

/-- Go `Tree.Root`. -/
def Tree.Root (t : Tree) : Option Bytes :=
  match t.head with
  | [] => none
  | current :: rest => some (rootLoop t.hash current rest).sum

/-- The merge loop of `Tree.Push` (lines 103-114), run on `t.head = head :: rest`
with the proof set `proofSet`; `len(t.proofSet)-1` is computed on `int`, so it is `-1`
for an empty proof set.  The result is the forest and the proof set after the loop. -/
def pushLoop (h : Hash) (currentIndex proofIndex : Nat) :
    subTree → List subTree → List Bytes → List subTree × List Bytes
  | head, [], proofSet => ([head], proofSet)
  | head, next :: rest, proofSet =>
    if head.height = next.height then
      let proofSet1 :=
        if (head.height : Int) = (proofSet.length : Int) - 1 then
          let leaves := shl64 1 head.height
          let mid := mul64 (currentIndex / leaves) leaves
          if proofIndex < mid then proofSet ++ [head.sum] else proofSet ++ [next.sum]
        else proofSet
      pushLoop h currentIndex proofIndex (joinSubTrees h next head) rest proofSet1
    else (head :: next :: rest, proofSet)

/-- Go `Tree.Push`. -/
def Tree.Push (t : Tree) (data : Bytes) : Tree :=
  let proofSet0 := if t.currentIndex = t.proofIndex then t.proofSet ++ [data] else t.proofSet
  let leaf : subTree :=
    { height := 0, sum := if t.cachedTree then data else leafSum t.hash data }
  let r := pushLoop t.hash t.currentIndex t.proofIndex leaf t.head proofSet0
  { t with head := r.1, proofSet := r.2, currentIndex := add64 t.currentIndex 1 }

/-- Outcome of `Tree.SetIndex`: the tree afterwards and whether an error was returned. -/
structure SetIndexResult (α : Type) where
  tree : α
  err : Bool

/-- Go `Tree.SetIndex`. -/
def Tree.SetIndex (t : Tree) (i : Nat) : SetIndexResult Tree :=
  match t.head with
  | _ :: _ => { tree := t, err := true }
  | [] => { tree := { t with proofIndex := i }, err := false }

/-- First loop of `Tree.Prove` (lines 69-71). -/
def proveLoop (h : Hash) (proofSetLen : Nat) : subTree → List subTree → subTree × List subTree
  | current, [] => (current, [])
  | current, next :: rest =>
    if (next.height : Int) < (proofSetLen : Int) - 1 then
      proveLoop h proofSetLen (joinSubTrees h next current) rest
    else (current, next :: rest)

/-- What `Tree.Prove` returns. -/
structure Proof where
  merkleRoot : Option Bytes
  proofSet : List Bytes
  proofIndex : Nat
  numLeaves : Nat
deriving DecidableEq, Repr

/-- Go `Tree.Prove`. -/
def Tree.Prove (t : Tree) : Proof :=
  match t.head with
  | [] => ⟨t.Root, [], t.proofIndex, t.currentIndex⟩
  | head :: rest =>
    if t.proofSet.length = 0 then ⟨t.Root, [], t.proofIndex, t.currentIndex⟩
    else
      let r := proveLoop t.hash t.proofSet.length head rest
      let proofSet :=
        match r.2 with
        | [] => t.proofSet
        | next :: rest1 =>
          if (next.height : Int) = (t.proofSet.length : Int) - 1 then
            t.proofSet ++ [r.1.sum] ++ rest1.map subTree.sum
          else
            t.proofSet ++ (next :: rest1).map subTree.sum
      ⟨t.Root, proofSet, t.proofIndex, t.currentIndex⟩

/-- Push a sequence of segments, in order. -/
def Tree.pushAll (t : Tree) (segments : List Bytes) : Tree :=
  segments.foldl Tree.Push t

/-! ## Verifier (`verify.go`) -/

/-- How the `for` loop of `VerifyProof` (lines 24-41) ends. -/
inductive LoopExit where
  | panic
  | retFalse
  | brk (height : Nat) (sum : Bytes) (stableEnd : Nat) (rest : List Bytes)
deriving DecidableEq, Repr

/-- The `for` loop of `VerifyProof`.  `rest` is `proofSet[height:]`, so
`len(proofSet) <= height` is `rest = []` and `proofSet[height]` is its first entry. -/
def verifyLoop (h : Hash) (proofIndex numLeaves : Nat) :
    List Bytes → Nat → Bytes → Nat → LoopExit
  | rest, height, sum, stableEnd =>
    if shl64 1 height = 0 then LoopExit.panic
    else
      let subTreeStartIndex := mul64 (proofIndex / shl64 1 height) (shl64 1 height)
      let subTreeEndIndex := sub64 (add64 subTreeStartIndex (shl64 1 height)) 1
      if subTreeEndIndex ≥ numLeaves then LoopExit.brk height sum stableEnd rest
      else
        match rest with
        | [] => LoopExit.retFalse
        | p :: rest1 =>
          let sum1 :=
            if sub64 proofIndex subTreeStartIndex < shl64 1 (height - 1) then nodeSum h sum p
            else nodeSum h p sum
          verifyLoop h proofIndex numLeaves rest1 (height + 1) sum1 subTreeEndIndex

/-- The last loop of `VerifyProof` (lines 50-53). -/
def verifyTail (h : Hash) : List Bytes → Bytes → Bytes
  | [], sum => sum
  | p :: rest, sum => verifyTail h rest (nodeSum h p sum)

/-- Go `VerifyProof`; `none` is a run-time panic. -/
def VerifyProof (h : Hash) (merkleRoot : Option Bytes) (proofSet : List Bytes)
    (proofIndex numLeaves : Nat) : Option Bool :=
  match merkleRoot with
  | none => some false
  | some root =>
    if proofIndex ≥ numLeaves then some false
    else
      match proofSet with
      | [] => some false
      | p0 :: rest0 =>
        match verifyLoop h proofIndex numLeaves rest0 1 (leafSum h p0) proofIndex with
        | LoopExit.panic => none
        | LoopExit.retFalse => some false
        | LoopExit.brk _ sum stableEnd rest =>
          if stableEnd ≠ sub64 numLeaves 1 then
            match rest with
            | [] => some false
            | p :: rest1 => some (decide (verifyTail h rest1 (nodeSum h sum p) = root))
          else some (decide (verifyTail h rest sum = root))

/-! ## Cached tree (`cachedtree.go`) -/

/-- Go `CachedTree`: a `Tree` embedded next to the two fields of its own. -/
structure CachedTree extends Tree where
  cachedNodeHeight : Nat
  trueProofIndex : Nat

/-- Go `NewCachedTree`. -/
def NewCachedTree (h : Hash) (cachedNodeHeight : Nat) : CachedTree :=
  { head := [], hash := h, currentIndex := 0, proofIndex := 0, proofSet := [], cachedTree := true,
    cachedNodeHeight := cachedNodeHeight, trueProofIndex := 0 }

/-- The promoted method `Push` of the embedded `Tree`. -/
def CachedTree.Push (ct : CachedTree) (data : Bytes) : CachedTree :=
  { ct with toTree := ct.toTree.Push data }

/-- Push a sequence of cached node roots, in order. -/
def CachedTree.pushAll (ct : CachedTree) (roots : List Bytes) : CachedTree :=
  roots.foldl CachedTree.Push ct

/-- Go `CachedTree.Prove`. -/
def CachedTree.Prove (ct : CachedTree) (cachedProofSet : List Bytes) : Proof :=
  let leavesPerCachedNode := shl64 1 ct.cachedNodeHeight
  let numLeaves := mul64 leavesPerCachedNode ct.currentIndex
  let p := ct.toTree.Prove
  if p.proofSet.length < 1 then ⟨p.merkleRoot, [], ct.trueProofIndex, numLeaves⟩
  else ⟨p.merkleRoot, cachedProofSet ++ p.proofSet.tail, ct.trueProofIndex, numLeaves⟩

/-- Go `CachedTree.SetIndex`; `none` is the run-time panic of the division
`i / (1 << ct.cachedNodeHeight)` when the shift gives 0. -/
def CachedTree.SetIndex (ct : CachedTree) (i : Nat) : Option (SetIndexResult CachedTree) :=
  match ct.head with
  | _ :: _ => some { tree := ct, err := true }
  | [] =>
    let ct1 := { ct with trueProofIndex := i }
    if shl64 1 ct.cachedNodeHeight = 0 then none
    else
      let r := ct1.toTree.SetIndex (i / shl64 1 ct.cachedNodeHeight)
      some { tree := { ct1 with toTree := r.tree }, err := r.err }

/-! ## Stream ingestion (`readers.go`) -/

/-- Error values `io.ReadFull` hands to `ReadAll` on a source that does not fail. -/
inductive ReadErr where
  | nil
  | EOF
  | ErrUnexpectedEOF
deriving DecidableEq, Repr

/-- The call `io.ReadFull(r, buf)` of the Go library on a source with the bytes `r` left and
`len(buf) = n`: the bytes copied, the error, and what is left of the source.  A buffer
of length 0 is full at once (no read, no error); otherwise the error is `EOF` when no
byte could be read and `ErrUnexpectedEOF` when the source ended before the buffer was full. -/
def readFull (r : Bytes) (n : Nat) : Bytes × ReadErr × Bytes :=
  if n = 0 then ([], ReadErr.nil, r)
  else if r.length = 0 then ([], ReadErr.EOF, r)
  else if r.length < n then (r, ReadErr.ErrUnexpectedEOF, [])
  else (r.take n, ReadErr.nil, r.drop n)

/-- How a call of `ReadAll` ends: it returns `nil` leaving the tree `t`, it panics
(`make` with a length that is negative or above the allocation limit), or the iterations
allowed are used up. -/
inductive ReadAllResult where
  | done (t : Tree)
  | panic
  | outOfFuel

/-- Go `Tree.ReadAll` on a source holding the bytes `r`, run for at most `fuel` iterations.
`maxAlloc` is the largest length that `make([]byte, n)` allocates: the Go runtime panics
(`makeslice: len out of range`) when `n` is negative or above its allocation limit, a
constant of the platform (`2^48` bytes on linux/amd64). -/
def Tree.ReadAll (t : Tree) (maxAlloc : Nat) (r : Bytes) (segmentSize : Int) :
    Nat → ReadAllResult
  | 0 => ReadAllResult.outOfFuel
  | fuel + 1 =>
    if segmentSize < 0 ∨ (maxAlloc : Int) < segmentSize then ReadAllResult.panic
    else
      match readFull r segmentSize.toNat with
      | (_, ReadErr.EOF, _) => ReadAllResult.done t
      | (segment, _, r1) => Tree.ReadAll (t.Push segment) maxAlloc r1 segmentSize fuel

/-! ## Sequences of calls, and a small digest for the concrete instances -/

/-- A call on a `Tree`. -/
inductive Op where
  | setIndex (i : Nat)
  | push (data : Bytes)

/-- Perform one call; the error value of `SetIndex` is dropped, as a caller ignoring it would. -/
def Tree.apply (t : Tree) : Op → Tree
  | Op.setIndex i => (t.SetIndex i).tree
  | Op.push data => t.Push data

/-- Perform a sequence of calls, in order. -/
def Tree.run (t : Tree) (ops : List Op) : Tree :=
  ops.foldl Tree.apply t

/-- A two-byte digest, used where a concrete `hash.Hash` is needed. -/
def demoHash : Hash := fun b =>
  [b.foldl (fun a x => a * 31 + x) 7, b.foldl (fun a x => a * 17 + x + 3) 5]

/-! ## Definitions used to state and prove the properties -/

/-- The consecutive `s`-byte segments of `d`, the last one shorter when `len(d)` is not a
multiple of `s` (stated from the specification; `fuel` bounds the number of segments). -/
def segmentsOf (s : Nat) : Nat → Bytes → List Bytes
  | 0, _ => []
  | fuel + 1, d => if d.length = 0 then [] else d.take s :: segmentsOf s fuel (d.drop s)

/-- Number of leaves under the subtrees of a chain. -/
def leavesOf (F : List subTree) : Nat := (F.map (fun e => 2 ^ e.height)).sum

/-- Heights strictly increase along a chain, from its head on. -/
def Increasing (F : List subTree) : Prop := F.Pairwise (fun a b => a.height < b.height)

/-- One step of the climb of `VerifyProof` at `height`, in unbounded arithmetic: the
running sum is the left operand when the target lies in the first half of its block. -/
def climbStep (h : Hash) (k height : Nat) (sum p : Bytes) : Bytes :=
  if k - k / 2 ^ height * 2 ^ height < 2 ^ (height - 1) then nodeSum h sum p
  else nodeSum h p sum

/-- The climb of `VerifyProof` through the path entries `sibs`, the first of them at `height`. -/
def climb (h : Hash) (k : Nat) : List Bytes → Nat → Bytes → Bytes
  | [], _, sum => sum
  | p :: rest, height, sum => climb h k rest (height + 1) (climbStep h k height sum p)

/-- The proof set `ps` follows leaf `k` in the chain `F`: `F` holds a subtree `E` over a
block of leaves containing `k`, `ps` is the staged value `p0` followed by one sibling digest
for each level below the height of `E`, and climbing from `lf p0` through them gives the
digest of `E`.  (`lf` is what `Push` stores for a leaf: `leafSum`, or the value itself in
a cached tree.) -/
def Tracks (h : Hash) (lf : Bytes → Bytes) (k : Nat) (F : List subTree) (ps : List Bytes) :
    Prop :=
  ∃ newer E older p0 sibs, F = newer ++ E :: older ∧ ps = p0 :: sibs ∧ sibs.length = E.height ∧
    leavesOf older ≤ k ∧ k < leavesOf older + 2 ^ E.height ∧ E.sum = climb h k sibs 1 (lf p0)

/-- State of a tree after `n` leaves: increasing heights, `n` leaves in all, and the proof
set follows the target `k` once it has been pushed and is empty before. -/
structure Inv (h : Hash) (lf : Bytes → Bytes) (k n : Nat) (F : List subTree)
    (ps : List Bytes) : Prop where
  inc : Increasing F
  count : leavesOf F = n
  track : k < n → Tracks h lf k F ps
  empty : n ≤ k → ps = []

/-- State inside the merge loop of `Push` while leaf `n` is being pushed. -/
structure LoopInv (h : Hash) (lf : Bytes → Bytes) (k n : Nat) (cur : subTree)
    (rest : List subTree) (ps : List Bytes) : Prop where
  inc : Increasing rest
  low : ∀ e ∈ rest, cur.height ≤ e.height
  count : 2 ^ cur.height + leavesOf rest = n + 1
  track : k ≤ n → Tracks h lf k (cur :: rest) ps
  empty : n < k → ps = []

/-- What `Push` stores as the digest of a leaf. -/
def Tree.leafOf (t : Tree) (data : Bytes) : Bytes :=
  if t.cachedTree then data else leafSum t.hash data

/-- The invariant of a tree that holds `n` leaves. -/
structure TreeInv (t : Tree) (n : Nat) : Prop where
  inv : Inv t.hash t.leafOf t.proofIndex n t.head t.proofSet
  idx : t.currentIndex = n

/-- The link between a tree `T` onto which the leaves of one block of `2^ht` leaves are
being pushed, on top of the forest `G` holding `off` leaves, and a tree `B` that receives
the leaves of that block only: after `m` leaves of the block the forest of `T` is that of
`B` followed by `G`; the proof set of `T` is that of `B` when the target `i` lies in the
block (at `rB` inside it), and stays what it was (`P`) when it does not. -/
structure BlockRel (h : Hash) (ht off i rB : Nat) (G : List subTree) (P : List Bytes)
    (m : Nat) (T B : Tree) : Prop where
  head : T.head = B.head ++ G
  tidx : T.currentIndex = off + m
  thash : T.hash = h
  bhash : B.hash = h
  tct : T.cachedTree = false
  bct : B.cachedTree = false
  tpi : T.proofIndex = i
  bpi : B.proofIndex = rB
  binv : TreeInv B m
  ps : (i = off + rB ∧ T.proofSet = B.proofSet) ∨
    ((∀ j, j < 2 ^ ht → i ≠ off + j) ∧ T.proofSet = P)

/-- A subtree over cached nodes of height `ht`, seen as a subtree over raw leaves. -/
def liftTree (ht : Nat) (e : subTree) : subTree := ⟨e.height + ht, e.sum⟩

/-- The link between the flat tree `T` over raw leaves and the inner tree `C` of a cached
tree of node height `ht`, after `c` blocks of `2^ht` leaves went into `T` and their `c`
roots into `C`: the forest of `T` is that of `C` lifted by `ht`, and once the block with
the target `i` is in, the proof set of `T` is the path `intra` inside that block followed
by what the proof set of `C` holds after its first entry. -/
structure CachedRel (h : Hash) (ht i : Nat) (intra : List Bytes) (c : Nat) (T C : Tree) :
    Prop where
  head : T.head = C.head.map (liftTree ht)
  tidx : T.currentIndex = c * 2 ^ ht
  cidx : C.currentIndex = c
  thash : T.hash = h
  chash : C.hash = h
  tct : T.cachedTree = false
  cct : C.cachedTree = true
  tpi : T.proofIndex = i
  cpi : C.proofIndex = i / 2 ^ ht
  before : c ≤ i / 2 ^ ht → C.proofSet = [] ∧ T.proofSet = []
  after : i / 2 ^ ht < c → ∃ p tail, C.proofSet = p :: tail ∧ T.proofSet = intra ++ tail
  tinv : TreeInv T (c * 2 ^ ht)

/-- The root of the flat tree over one block, as the caller of a cached tree computes it. -/
def blockRoot (h : Hash) (block : List Bytes) : Bytes := (((New h).pushAll block).Root).getD []

/-- The path inside one block for the leaf at `r` in it, as the caller of a cached tree
computes it. -/
def blockProof (h : Hash) (r : Nat) (block : List Bytes) : List Bytes :=
  (((New h).SetIndex r).tree.pushAll block).Prove.proofSet

/-- The first `count` consecutive blocks of `size` segments of a sequence of segments. -/
def blocksOf (size : Nat) : Nat → List Bytes → List (List Bytes)
  | 0, _ => []
  | count + 1, segments => segments.take size :: blocksOf size count (segments.drop size)

/-- Number of bits that are 1 among the 64 bits of a `uint64` value `n`. -/
def popcount (n : Nat) : Nat := ((List.range 64).filter (fun j => n.testBit j)).length

/-- The states `(head, rest, proofSet)` that the merge loop of `t.Push data` goes through
(lines 103-114): the state on entry, with the new leaf in front of the chain of `t` and the
proof set after the staging of lines 89-91, and the state after each iteration whose guard
`head.height == head.next.height` holds. -/
inductive MergeState (t : Tree) (data : Bytes) : subTree → List subTree → List Bytes → Prop
  | enter : MergeState t data
      { height := 0, sum := if t.cachedTree then data else leafSum t.hash data } t.head
      (if t.currentIndex = t.proofIndex then t.proofSet ++ [data] else t.proofSet)
  | merge (head next : subTree) (rest : List subTree) (proofSet : List Bytes) :
      MergeState t data head (next :: rest) proofSet → head.height = next.height →
      MergeState t data (joinSubTrees t.hash next head) rest
        (if (head.height : Int) = (proofSet.length : Int) - 1 then
          (if t.proofIndex <
              mul64 (t.currentIndex / shl64 1 head.height) (shl64 1 head.height) then
            proofSet ++ [head.sum]
          else proofSet ++ [next.sum])
        else proofSet)

/-! ## Reference Merkle tree hash -/

/-- The largest power of two strictly less than `n`, for `n >= 2`. -/
def splitPoint (n : Nat) : Nat := 2 ^ Nat.log2 (n - 1)

/-- The reference Merkle tree hash `MTH` of a sequence of segments, stated from the
specification: `MTH([x]) = H(0x00 || x)` and, for two segments or more,
`MTH(l) = H(0x01 || MTH(l[0:k]) || MTH(l[k:]))` with `k` the largest power of two strictly
less than `len(l)`.  (The value chosen for the empty sequence is not used.) -/
def MTH (h : Hash) (l : List Bytes) : Bytes :=
  match l with
  | [] => []
  | [x] => leafSum h x
  | x :: y :: rest =>
    nodeSum h (MTH h ((x :: y :: rest).take (splitPoint (rest.length + 2))))
      (MTH h ((x :: y :: rest).drop (splitPoint (rest.length + 2))))
termination_by l.length
decreasing_by
  · have := Nat.log2_self_le (n := rest.length + 2 - 1) (by omega)
    simp only [List.length_take, List.length_cons, splitPoint]
    omega
  · have : 0 < 2 ^ Nat.log2 (rest.length + 2 - 1) := Nat.pow_pos (by decide)
    simp only [List.length_drop, List.length_cons, splitPoint]
    omega

/-- The chain `F` covers the leaves `l`: every entry carries the reference hash of a block
of `2^height` consecutive leaves, the last entry of the chain (the oldest) holding the first
leaves and the head the last ones. -/
def Covers (h : Hash) : List Bytes → List subTree → Prop
  | l, [] => l = []
  | l, e :: F => ∃ l1 blk, l = l1 ++ blk ∧ Covers h l1 F ∧ blk.length = 2 ^ e.height ∧
      e.sum = MTH h blk

/-! ## Collision-free digests -/

/-- The value `x` is a digest: a value of the hash. -/
def IsDigest (h : Hash) (x : Bytes) : Prop := ∃ y, x = h y

/-- The digest has no collision on the inputs of the tree: `leafSum` is injective, no leaf
digest is a node digest, and `nodeSum` is injective on the pairs whose left components, or
whose right components, are digests (in a tree created with `New` and in `VerifyProof`,
every call of `nodeSum` has a digest on one side). -/
structure CollisionFree (h : Hash) : Prop where
  leaf : ∀ a b, leafSum h a = leafSum h b → a = b
  disjoint : ∀ a b c, leafSum h a ≠ nodeSum h b c
  node : ∀ a b c d, nodeSum h a b = nodeSum h c d →
    (IsDigest h a ∧ IsDigest h c) ∨ (IsDigest h b ∧ IsDigest h d) → a = c ∧ b = d

/-- Every byte of the input between two zero bytes. -/
def frame : Bytes → Bytes
  | [] => []
  | b :: x => 0 :: b :: 0 :: frame x

/-- A collision-free digest for examples: the framed input between two bytes `1`.  No value
is a proper prefix or a proper suffix of another one. -/
def frameHash : Hash := fun x => 1 :: (frame x ++ [1])

end Merkletree

/-! # Encoding (`encoding/integers.go`, `encoding/prefix.go`, `encoding/marshal.go`) -/

namespace Encoding

/-! ## Integers (`integers.go`) -/

abbrev Bytes := List UInt8

/-- Modulus of `uint64` arithmetic. -/
def U64 : Nat := 2 ^ 64

/-- `binary.LittleEndian.PutUint64(b, v)` of the Go library on a buffer of 8 bytes:
`b[j] = byte(v >> (8*j))`. -/
def putUint64 (v : Nat) : Bytes :=
  (List.range 8).map (fun j => UInt8.ofNat (v / 2 ^ (8 * j)))

/-- `binary.LittleEndian.Uint64(b)` of the Go library: `b[0] | b[1]<<8 | ... | b[7]<<56`,
read from the first 8 bytes. -/
def getUint64 (b : Bytes) : Nat :=
  (b.take 8).foldr (fun x acc => x.toNat + 256 * acc) 0

/-- Go `b2 := make([]byte, 8); copy(b2, b)`: the first 8 bytes of `b`, zero bytes after
them when `b` is shorter. -/
def copy8 (b : Bytes) : Bytes :=
  b.take 8 ++ List.replicate (8 - (b.take 8).length) 0

/-- Go conversion `uint64(i)` of an `int64`. -/
def toUint64 (i : Int) : Nat := (i % (U64 : Int)).toNat

/-- Go conversion `int64(u)` of a `uint64`. -/
def toInt64 (u : Nat) : Int := if u % U64 < 2 ^ 63 then ((u % U64 : Nat) : Int) else ((u % U64 : Nat) : Int) - (U64 : Int)

/-- Go `EncInt64`. -/
def EncInt64 (i : Int) : Bytes := putUint64 (toUint64 i)

/-- Go `DecInt64`. -/
def DecInt64 (b : Bytes) : Int := toInt64 (getUint64 (copy8 b))

/-- Go `EncUint64`. -/
def EncUint64 (u : Nat) : Bytes := putUint64 u

/-- Go `DecUint64`. -/
def DecUint64 (b : Bytes) : Nat := getUint64 (copy8 b)

/-! ## Length prefixes (`prefix.go`)

The `io.Writer` is a buffer that takes every byte it is given (`bytes.Buffer`): it is the
list of the bytes written so far, and no write fails.  The `io.Reader` is the list of the
bytes still to be read, read through `io.ReadFull` as in `Merkletree.readFull`. -/

/-- Go `WriteUint64` on a writer that holds `w`: the writer afterwards; the error is `nil`. -/
def WriteUint64 (w : Bytes) (u : Nat) : Bytes := w ++ EncUint64 u

/-- Go `WriteInt`: the `int` is converted with `uint64(i)`. -/
def WriteInt (w : Bytes) (i : Int) : Bytes := WriteUint64 w (toUint64 i)

/-- Go `WritePrefix` on a writer that holds `w`: the writer afterwards, and whether an
error is returned (never, on this writer: both writes succeed and `n == len(data)`). -/
def WritePrefix (w : Bytes) (data : Bytes) : Bytes × Bool :=
  let w1 := WriteInt w (data.length : Int)
  (w1 ++ data, false)

/-- Errors `ReadPrefix` returns: those of `io.ReadFull`, and its own. -/
inductive PrefixErr where
  | EOF
  | ErrUnexpectedEOF
  | exceedsMaxLen
deriving DecidableEq, Repr

/-- What `ReadPrefix` returns (`data` is `none` for `nil`), and what is left of the reader. -/
structure ReadPrefixResult where
  data : Option Bytes
  err : Option PrefixErr
  rest : Bytes
deriving DecidableEq, Repr

/-- The error of `io.ReadFull` as `ReadPrefix` hands it on. -/
def ofReadErr : Merkletree.ReadErr → Option PrefixErr
  | Merkletree.ReadErr.nil => none
  | Merkletree.ReadErr.EOF => some PrefixErr.EOF
  | Merkletree.ReadErr.ErrUnexpectedEOF => some PrefixErr.ErrUnexpectedEOF

/-- Go `ReadPrefix` on a reader with the bytes `r` left; `none` is the run-time panic of
`make([]byte, dataLen)` for a length that does not fit an `int`. -/
def ReadPrefix (r : Bytes) (maxLen : Nat) : Option ReadPrefixResult :=
  match Merkletree.readFull r 8 with
  | (pre, Merkletree.ReadErr.nil, r1) =>
    let dataLen := DecUint64 pre
    if dataLen > maxLen then some { data := none, err := some PrefixErr.exceedsMaxLen, rest := r1 }
    else if dataLen ≥ 2 ^ 63 then none
    else
      match Merkletree.readFull r1 dataLen with
      | (got, e, r2) =>
        some { data := some (got ++ List.replicate (dataLen - got.length) 0),
               err := ofReadErr e, rest := r2 }
  | (_, e, r1) => some { data := none, err := ofReadErr e, rest := r1 }

/-! ## The reflective encoder (`marshal.go`)

A `reflect.Value` is represented by its kind and contents.  The values are those whose
types have no `MarshalSUM` method, so the interface test at the head of `encode` fails. -/

/-- A `reflect.Value`, by kind. -/
inductive Value where
  /-- A pointer: `nil`, or the value it points to. -/
  | ptr (elem : Option Value)
  | bool (b : Bool)
  /-- Kinds `Int`, `Int8`, ..., `Int64`, with `val.Int()`. -/
  | int (i : Int)
  /-- Kinds `Uint`, `Uint8`, ..., `Uint64`, with `val.Uint()`. -/
  | uint (u : Nat)
  | string (s : Bytes)
  /-- A slice whose elements are of kind `Uint8`. -/
  | byteSlice (b : Bytes)
  /-- A slice of elements of any other kind. -/
  | slice (elems : List Value)
  /-- An array whose elements are of kind `Uint8`. -/
  | byteArray (b : Bytes)
  /-- An array of elements of any other kind. -/
  | array (elems : List Value)
  | struct (fields : List Value)
  /-- Any kind the `switch` has no case for (map, chan, func, interface, float, ...). -/
  | other

/-- How `encode` ends on a writer that never fails: it returns `nil`, or it panics. -/
inductive Outcome where
  | ok
  | panic
deriving DecidableEq, Repr

mutual
/-- Go `Encoder.encode` on a writer that holds `w`: the writer afterwards, and how the
call ends.  After the `switch`, which a `case` leaves when its body ends without a
`return`, stands `panic("could not marshal type" + ...)`. -/
def encode : Value → Bytes → Bytes × Outcome
  | Value.ptr none, w =>
    -- e.Encode(!val.IsNil()) writes the flag; the `if` is skipped and the case ends
    (w ++ [0], Outcome.panic)
  | Value.ptr (some v), w => encode v (w ++ [1])
  | Value.bool b, w => (w ++ [if b then 1 else 0], Outcome.ok)
  | Value.int i, w => (w ++ EncInt64 i, Outcome.ok)
  | Value.uint u, w => (WriteUint64 w u, Outcome.ok)
  | Value.string s, w => ((WritePrefix w s).1, Outcome.ok)
  | Value.byteSlice b, w =>
    if b.length = 0 then (WriteInt w (b.length : Int), Outcome.ok)
    else (WriteInt w (b.length : Int) ++ b, Outcome.ok)
  | Value.slice elems, w =>
    if elems.length = 0 then (WriteInt w (elems.length : Int), Outcome.ok)
    else encodeAll elems (WriteInt w (elems.length : Int))
  | Value.byteArray b, w => (w ++ b, Outcome.ok)
  | Value.array elems, w => encodeAll elems w
  | Value.struct fields, w => encodeAll fields w
  | Value.other, w => (w, Outcome.panic)
/-- The loops `for i := 0; i < val.Len(); i++` and `for i := 0; i < val.NumField(); i++`
of `encode`, which stop at the first element that does not return `nil`. -/
def encodeAll : List Value → Bytes → Bytes × Outcome
  | [], w => (w, Outcome.ok)
  | v :: vs, w =>
    match encode v w with
    | (w1, Outcome.ok) => encodeAll vs w1
    | (w1, Outcome.panic) => (w1, Outcome.panic)
end

/-- Go `Marshal`: the bytes of the buffer when `Encode` returns; `none` when it panics. -/
def Marshal (v : Value) : Option Bytes :=
  match encode v [] with
  | (w, Outcome.ok) => some w
  | (_, Outcome.panic) => none

end Encoding

/-! # Random permutations (`fastrand/fastrand.go`) -/

namespace Fastrand

/-- How a call that draws random numbers ends. -/
inductive Draw (α : Type) where
  | value (a : α) (rest : List Nat)
  | panic
  /-- The words supplied are used up (the loop of `Uint64n` is still asking). -/
  | exhausted

/-- Go `Uint64n(n)`.  The random source is the list of the 64-bit words that the
successive reads `Bytes(8)`, `Read(b)` deliver (each below `2^64`); words at or above
`max` are rejected. -/
def Uint64n (n : Nat) : List Nat → Draw Nat
  | [] => if n = 0 then Draw.panic else Draw.exhausted
  | r :: words =>
    if n = 0 then Draw.panic
    else if r ≥ (2 ^ 64 - 1) - (2 ^ 64 - 1) % n then Uint64n n words
    else Draw.value (r % n) words

/-- Go `Intn(n)`. -/
def Intn (n : Int) (words : List Nat) : Draw Nat :=
  if n ≤ 0 then Draw.panic else Uint64n n.toNat words

/-- The loop of `Perm`, with `k` iterations to go, at index `i`, on the slice `m`;
`draw i` is the value that `Intn(i + 1)` returns at index `i`.  The result is `none`
when an index is out of range (a run-time panic). -/
def permLoop (draw : Nat → Nat) : Nat → Nat → List Nat → Option (List Nat)
  | 0, _, m => some m
  | k + 1, i, m =>
    match m[draw i]? with
    | none => none
    | some x =>
      if i < m.length then permLoop draw k (i + 1) ((m.set i x).set (draw i) i)
      else none

/-- Go `Perm(n)` for `n >= 0`: `m := make([]int, n)`, then the loop from `i = 1` to `n - 1`. -/
def Perm (n : Nat) (draw : Nat → Nat) : Option (List Nat) :=
  permLoop draw (n - 1) 1 (List.replicate n 0)

end Fastrand

/-! # Properties -/

namespace Merkletree

/-! ## Arithmetic without wrap-around -/

theorem U64_eq : U64 = 2 ^ 64 := rfl

theorem shl64_one_lt {s : Nat} (hs : s < 64) : shl64 1 s = 2 ^ s := by
  unfold shl64
  rw [Nat.one_mul, Nat.mod_eq_of_lt]
  exact Nat.pow_lt_pow_right (by decide) hs

theorem shl64_one_ge {s : Nat} (hs : 64 ≤ s) : shl64 1 s = 0 := by
  unfold shl64
  rw [Nat.one_mul, U64_eq]
  exact Nat.mod_eq_zero_of_dvd (Nat.pow_dvd_pow 2 hs)

theorem mul64_of_lt {x y : Nat} (h : x * y < 2 ^ 64) : mul64 x y = x * y := by
  unfold mul64; exact Nat.mod_eq_of_lt h

theorem add64_of_lt {x y : Nat} (h : x + y < 2 ^ 64) : add64 x y = x + y := by
  unfold add64; exact Nat.mod_eq_of_lt h

theorem sub64_of_le {x y : Nat} (hx : x < 2 ^ 64) (hy : y ≤ x) : sub64 x y = x - y := by
  unfold sub64
  have hy2 : y < 2 ^ 64 := lt_of_le_of_lt hy hx
  rw [U64_eq, Nat.mod_eq_of_lt hx, Nat.mod_eq_of_lt hy2]
  omega

/-- Rounding `k` down to a multiple of `p` stays at or above any multiple of `p` below `k`. -/
theorem le_roundDown {p s k : Nat} (hp : 0 < p) (hd : p ∣ s) (hsk : s ≤ k) : s ≤ k / p * p := by
  obtain ⟨c, rfl⟩ := hd
  have : c ≤ k / p := (Nat.le_div_iff_mul_le hp).2 (by rw [Nat.mul_comm]; exact hsk)
  calc p * c = c * p := Nat.mul_comm _ _
    _ ≤ k / p * p := Nat.mul_le_mul_right p this

/-- The block of size `p` that holds `k` ends at or below any multiple of `p` above `k`. -/
theorem roundDown_add_le {p b k : Nat} (hp : 0 < p) (hd : p ∣ b) (hkb : k < b) :
    k / p * p + p ≤ b := by
  obtain ⟨c, rfl⟩ := hd
  have : k / p < c := (Nat.div_lt_iff_lt_mul hp).2 (by rw [Nat.mul_comm] at hkb; exact hkb)
  calc k / p * p + p = (k / p + 1) * p := by ring
    _ ≤ c * p := Nat.mul_le_mul_right p this
    _ = p * c := Nat.mul_comm _ _

theorem roundDown_le (k p : Nat) : k / p * p ≤ k := Nat.div_mul_le_self k p

/-! ## C3: the shift of `VerifyProof` overflows at height 64 -/

theorem verifyLoop_panic (h : Hash) (pi n : Nat) (hpi : pi < 2 ^ 63) (hn : 2 ^ 63 ≤ n) :
    ∀ (rest : List Bytes) (lvl : Nat) (s : Bytes) (se : Nat), lvl ≤ 64 → 64 ≤ rest.length + lvl →
      verifyLoop h pi n rest lvl s se = LoopExit.panic := by
  intro rest
  induction rest with
  | nil =>
    intro lvl s se h1 h2
    have : lvl = 64 := by simp at h2; omega
    subst this
    rfl
  | cons p rest ih =>
    intro lvl s se h1 h2
    rcases Nat.eq_or_lt_of_le h1 with h64 | hlt
    · subst h64; rfl
    · rw [verifyLoop]
      have hs := shl64_one_lt hlt
      have hpos : 0 < 2 ^ lvl := Nat.pow_pos (by decide)
      have hle := roundDown_le pi (2 ^ lvl)
      have hup : pi / 2 ^ lvl * 2 ^ lvl + 2 ^ lvl ≤ 2 ^ 63 :=
        roundDown_add_le hpos (Nat.pow_dvd_pow 2 (by omega)) hpi
      have hm : mul64 (pi / 2 ^ lvl) (2 ^ lvl) = pi / 2 ^ lvl * 2 ^ lvl :=
        mul64_of_lt (by omega)
      have ha : add64 (pi / 2 ^ lvl * 2 ^ lvl) (2 ^ lvl) = pi / 2 ^ lvl * 2 ^ lvl + 2 ^ lvl :=
        add64_of_lt (by omega)
      have hsb : sub64 (pi / 2 ^ lvl * 2 ^ lvl + 2 ^ lvl) 1 = pi / 2 ^ lvl * 2 ^ lvl + 2 ^ lvl - 1 :=
        sub64_of_le (by omega) (by omega)
      simp only [hs, hm, ha, hsb]
      rw [if_neg (by omega), if_neg (by omega)]
      exact ih _ _ _ (by omega) (by simp at h2 ⊢; omega)

theorem VerifyProof_panic (h : Hash) (root : Bytes) (path : List Bytes) (pi n : Nat)
    (hpi : pi < 2 ^ 63) (hn : 2 ^ 63 ≤ n) (hlen : 64 ≤ path.length) :
    VerifyProof h (some root) path pi n = none := by
  unfold VerifyProof
  simp only []
  rw [if_neg (by omega)]
  cases path with
  | nil => simp at hlen
  | cons p0 rest0 =>
    simp only []
    rw [verifyLoop_panic h pi n hpi hn rest0 1 _ _ (by omega) (by simp at hlen ⊢; omega)]

/-- C3 (fails on the code): `VerifyProof` does raise.  For any digest and any non-nil root,
a path of 64 entries with `proofIndex = 0` and `numLeaves = 2^63` takes the loop to
`height = 64`, where `1 << uint(height)` is 0 in `uint64` and the division by it panics. -/
theorem VerifyProof_panics_at_height_64 (h : Hash) (root : Bytes) :
    VerifyProof h (some root) (List.replicate 64 []) 0 (2 ^ 63) = none :=
  VerifyProof_panic h root _ 0 _ (by decide) (le_refl _) (by simp)

/-! ## C4: range rejection -/

/-- C4: `VerifyProof` returns false whenever the root is nil, or
`proofIndex >= numLeaves`, or the path is empty, whatever the other arguments are. -/
theorem VerifyProof_rejects_bad_range (h : Hash) (merkleRoot : Option Bytes)
    (proofSet : List Bytes) (proofIndex numLeaves : Nat)
    (hbad : merkleRoot = none ∨ numLeaves ≤ proofIndex ∨ proofSet = []) :
    VerifyProof h merkleRoot proofSet proofIndex numLeaves = some false := by
  unfold VerifyProof
  rcases merkleRoot with _ | root
  · rfl
  · rcases hbad with h1 | h1 | h1
    · cases h1
    · simp [h1]
    · subst h1; simp

theorem VerifyProof_rejects_bad_range_witness :
    ((some [1] : Option Bytes) = none ∨ 4 ≤ 7 ∨ [([2] : Bytes)] = []) ∧
      VerifyProof demoHash (some [1]) [[2]] 7 4 = some false :=
  ⟨Or.inr (Or.inl (by decide)),
    VerifyProof_rejects_bad_range demoHash (some [1]) [[2]] 7 4 (Or.inr (Or.inl (by decide)))⟩

/-! ## C5: the forest does not depend on the proof index -/

theorem pushLoop_fst_indep (h : Hash) (ci pi ci1 pi1 : Nat) :
    ∀ (rest : List subTree) (head : subTree) (ps ps1 : List Bytes),
      (pushLoop h ci pi head rest ps).1 = (pushLoop h ci1 pi1 head rest ps1).1 := by
  intro rest
  induction rest with
  | nil => intro head ps ps1; rfl
  | cons next rest ih =>
    intro head ps ps1
    simp only [pushLoop]
    by_cases hh : head.height = next.height
    · rw [if_pos hh, if_pos hh]
      exact ih _ _ _
    · rw [if_neg hh, if_neg hh]

theorem Push_head_indep (t t1 : Tree) (data : Bytes) (hh : t.head = t1.head)
    (hhash : t.hash = t1.hash) (hc : t.cachedTree = t1.cachedTree) :
    (t.Push data).head = (t1.Push data).head ∧ (t.Push data).hash = (t1.Push data).hash ∧
      (t.Push data).cachedTree = (t1.Push data).cachedTree := by
  refine ⟨?_, hhash, hc⟩
  simp only [Tree.Push, hh, hhash, hc]
  exact pushLoop_fst_indep _ _ _ _ _ _ _ _ _

theorem pushAll_head_indep (segments : List Bytes) :
    ∀ (t t1 : Tree), t.head = t1.head → t.hash = t1.hash → t.cachedTree = t1.cachedTree →
      (t.pushAll segments).head = (t1.pushAll segments).head ∧
        (t.pushAll segments).hash = (t1.pushAll segments).hash := by
  induction segments with
  | nil => intro t t1 hh hhash _; exact ⟨hh, hhash⟩
  | cons d ds ih =>
    intro t t1 hh hhash hc
    obtain ⟨a, b, c⟩ := Push_head_indep t t1 d hh hhash hc
    exact ih _ _ a b c

theorem Root_congr (t t1 : Tree) (hh : t.head = t1.head) (hhash : t.hash = t1.hash) :
    t.Root = t1.Root := by
  unfold Tree.Root
  rw [hh, hhash]

/-- C5: after pushing a sequence of segments, the forest (heights and digests) and
`Root()` are the same whether `SetIndex` was never called or was called with any index
`i` before the first `Push`. -/
theorem Root_independent_of_SetIndex (h : Hash) (segments : List Bytes) (i : Nat) :
    (((New h).SetIndex i).tree.pushAll segments).head = ((New h).pushAll segments).head ∧
      (((New h).SetIndex i).tree.pushAll segments).Root = ((New h).pushAll segments).Root := by
  have := pushAll_head_indep segments ((New h).SetIndex i).tree (New h) rfl rfl rfl
  exact ⟨this.1, Root_congr _ _ this.1 this.2⟩

/-! ## C6: `SetIndex` -/

theorem pushLoop_fst_ne_nil (h : Hash) (ci pi : Nat) :
    ∀ (rest : List subTree) (head : subTree) (ps : List Bytes),
      (pushLoop h ci pi head rest ps).1 ≠ [] := by
  intro rest
  induction rest with
  | nil => intro head ps; simp [pushLoop]
  | cons next rest ih =>
    intro head ps
    simp only [pushLoop]
    by_cases hh : head.height = next.height
    · rw [if_pos hh]; exact ih _ _
    · rw [if_neg hh]; simp

theorem Push_head_ne_nil (t : Tree) (data : Bytes) : (t.Push data).head ≠ [] := by
  simp only [Tree.Push]
  exact pushLoop_fst_ne_nil _ _ _ _ _ _

theorem SetIndex_tree_head (t : Tree) (i : Nat) : (t.SetIndex i).tree.head = t.head := by
  unfold Tree.SetIndex
  cases hd : t.head <;> simp [hd]

theorem Push_proofIndex (t : Tree) (data : Bytes) : (t.Push data).proofIndex = t.proofIndex := rfl

/-- After a sequence of calls on a new tree the forest is non-empty exactly when the sequence
holds a `Push`, and without any `SetIndex` in it the proof index is still 0. -/
theorem run_head (h : Hash) (ops : List Op) :
    (((New h).run ops).head ≠ [] ↔ ∃ data, Op.push data ∈ ops) ∧
      ((∀ j, Op.setIndex j ∉ ops) → ((New h).run ops).proofIndex = 0) := by
  induction ops using List.reverseRecOn with
  | nil => simp [Tree.run, New]
  | append_singleton ops op ih =>
    have hrun : (New h).run (ops ++ [op]) = ((New h).run ops).apply op := by
      simp [Tree.run, List.foldl_append]
    rw [hrun]
    cases op with
    | setIndex i =>
      constructor
      · simp only [Tree.apply, SetIndex_tree_head, ih.1]
        simp
      · intro hno
        exact absurd (List.mem_append_right ops (List.mem_singleton.2 rfl)) (hno i)
    | push data =>
      constructor
      · simp only [Tree.apply]
        constructor
        · intro _; exact ⟨data, by simp⟩
        · intro _; exact Push_head_ne_nil _ _
      · intro hno
        simp only [Tree.apply, Push_proofIndex]
        exact ih.2 (fun j hj => hno j (List.mem_append_left _ hj))

/-- C6: on a tree reached from `New` by any sequence of calls, `SetIndex(i)` returns an
error if and only if a `Push` has occurred; on an error the tree is unchanged, otherwise
`proofIndex` becomes `i` and nothing else changes; and a tree on which `SetIndex` was never
called has `proofIndex` 0. -/
theorem SetIndex_error_iff_pushed (h : Hash) (ops : List Op) (i : Nat) :
    ((((New h).run ops).SetIndex i).err = true ↔ (∃ data, Op.push data ∈ ops)) ∧
      ((((New h).run ops).SetIndex i).err = true →
        (((New h).run ops).SetIndex i).tree = (New h).run ops) ∧
      ((((New h).run ops).SetIndex i).err = false →
        (((New h).run ops).SetIndex i).tree = { (New h).run ops with proofIndex := i }) ∧
      ((∀ j, Op.setIndex j ∉ ops) → ((New h).run ops).proofIndex = 0) := by
  have hr := run_head h ops
  refine ⟨?_, ?_, ?_, hr.2⟩
  · rw [← hr.1]
    unfold Tree.SetIndex
    cases hd : ((New h).run ops).head <;> simp [hd]
  · unfold Tree.SetIndex
    cases hd : ((New h).run ops).head <;> simp [hd]
  · unfold Tree.SetIndex
    cases hd : ((New h).run ops).head <;> simp [hd]

/-! ## C7: no proof before the target index is reached -/

theorem pushLoop_snd_nil (h : Hash) (ci pi : Nat) :
    ∀ (rest : List subTree) (head : subTree), (pushLoop h ci pi head rest []).2 = [] := by
  intro rest
  induction rest with
  | nil => intro head; rfl
  | cons next rest ih =>
    intro head
    simp only [pushLoop]
    by_cases hh : head.height = next.height
    · rw [if_pos hh]
      have : ¬ ((head.height : Int) = ((([] : List Bytes).length : Nat) : Int) - 1) := by
        simp only [List.length_nil]; omega
      rw [if_neg this]
      exact ih _
    · rw [if_neg hh]

/-- While fewer leaves than `proofIndex` have been pushed, pushing keeps the proof set empty
and counts the leaves. -/
theorem pushAll_before_target (segments : List Bytes) :
    ∀ (t : Tree), t.proofSet = [] → t.currentIndex + segments.length ≤ t.proofIndex →
      t.proofIndex < 2 ^ 64 →
      (t.pushAll segments).proofSet = [] ∧
        (t.pushAll segments).currentIndex = t.currentIndex + segments.length ∧
        (t.pushAll segments).proofIndex = t.proofIndex := by
  induction segments with
  | nil => intro t hps _ _; exact ⟨hps, rfl, rfl⟩
  | cons d ds ih =>
    intro t hps hle hlt
    simp only [List.length_cons] at hle
    have hne : t.currentIndex ≠ t.proofIndex := by omega
    have h1 : (t.Push d).proofSet = [] := by
      simp only [Tree.Push, if_neg hne, hps]
      exact pushLoop_snd_nil _ _ _ _ _
    have h2 : (t.Push d).currentIndex = t.currentIndex + 1 := by
      simp only [Tree.Push]
      exact add64_of_lt (by omega)
    have h3 : (t.Push d).proofIndex = t.proofIndex := rfl
    obtain ⟨a, b, c⟩ := ih (t.Push d) h1 (by rw [h2, h3]; omega) (by rw [h3]; exact hlt)
    refine ⟨a, ?_, ?_⟩
    · show ((t.Push d).pushAll ds).currentIndex = _
      rw [b, h2, List.length_cons]; omega
    · show ((t.Push d).pushAll ds).proofIndex = _
      rw [c, h3]

theorem Prove_of_proofSet_nil (t : Tree) (hps : t.proofSet = []) :
    t.Prove = ⟨t.Root, [], t.proofIndex, t.currentIndex⟩ := by
  unfold Tree.Prove
  cases hd : t.head with
  | nil => rfl
  | cons a l => simp [hps]

/-- C7: with target index `t` and `N` pushed segments, `N = 0` or `N <= t`, `Prove()`
returns the empty path together with `Root()`, `t` and `N` (it is a total function: there
is no failure). -/
theorem Prove_unavailable (h : Hash) (t : Nat) (segments : List Bytes) (ht : t < 2 ^ 64)
    (hN : segments.length = 0 ∨ segments.length ≤ t) :
    (((New h).SetIndex t).tree.pushAll segments).Prove =
      ⟨(((New h).SetIndex t).tree.pushAll segments).Root, [], t, segments.length⟩ := by
  have hle : segments.length ≤ t := by rcases hN with h0 | h1 <;> omega
  obtain ⟨a, b, c⟩ := pushAll_before_target segments ((New h).SetIndex t).tree rfl
    (by show 0 + segments.length ≤ t; omega) ht
  rw [Prove_of_proofSet_nil _ a, b, c]
  show _ = (⟨_, [], t, segments.length⟩ : Proof)
  congr 1
  show 0 + segments.length = segments.length
  omega

theorem Prove_unavailable_witness :
    (5 : Nat) < 2 ^ 64 ∧ (([[1], [2, 3]] : List Bytes).length = 0 ∨
        ([[1], [2, 3]] : List Bytes).length ≤ 5) ∧
      (((New demoHash).SetIndex 5).tree.pushAll [[1], [2, 3]]).Prove =
        ⟨(((New demoHash).SetIndex 5).tree.pushAll [[1], [2, 3]]).Root, [], 5, 2⟩ :=
  ⟨by decide, Or.inr (by decide),
    Prove_unavailable demoHash 5 [[1], [2, 3]] (by decide) (Or.inr (by decide))⟩

/-! ## C8: the four-leaf scenario -/

/-- C8, as the code has it: with `SetIndex(1)` and the segments `0x41, 0x42, 0x43, 0x44`
pushed into a tree made by `New`, the path of `Prove()` has exactly the 3 entries
`[0x42, H(0x00||0x41), H(0x01||H(0x00||0x43)||H(0x00||0x44))]`: the first entry is the
target segment itself, as `Push` staged it, not its leaf digest. -/
theorem Prove_four_leaves (h : Hash) :
    (((New h).SetIndex 1).tree.pushAll [[0x41], [0x42], [0x43], [0x44]]).Prove.proofSet
      = [[0x42], leafSum h [0x41], nodeSum h (leafSum h [0x43]) (leafSum h [0x44])] := by
  simp [Tree.pushAll, Tree.Push, Tree.SetIndex, New, pushLoop, Tree.Prove, proveLoop,
    joinSubTrees, add64, U64, shl64, mul64]

/-- C8 as stated fails: with the two-byte digest `demoHash` the path returned for the
four-leaf scenario is not `[H(0x00||0x42), H(0x00||0x41), H(0x01||...)]`. -/
theorem Prove_four_leaves_first_entry_not_digest :
    (((New demoHash).SetIndex 1).tree.pushAll [[0x41], [0x42], [0x43], [0x44]]).Prove.proofSet
      ≠ [leafSum demoHash [0x42], leafSum demoHash [0x41],
          nodeSum demoHash (leafSum demoHash [0x43]) (leafSum demoHash [0x44])] := by
  decide

/-! ## C9: `CachedTree.SetIndex` -/

/-- C9 (fails on the code): on a new `CachedTree` of cached node height 64, `SetIndex(i)`
does not succeed with inner index 0: `1 << ct.cachedNodeHeight` is 0 in `uint64` and the
division `i / 0` panics. -/
theorem CachedTree_SetIndex_panics_at_height_64 (h : Hash) (i : Nat) :
    (NewCachedTree h 64).SetIndex i = none := by
  simp [CachedTree.SetIndex, NewCachedTree, shl64, U64]

/-- Below height 64 `CachedTree.SetIndex` does what C9 says: before any `Push` it succeeds,
stores `trueProofIndex = i` and gives the inner tree the index `i / 2^h`; once the forest is
non-empty it returns an error and changes nothing. -/
theorem CachedTree_SetIndex_below_64 (ct : CachedTree) (i : Nat)
    (hh : ct.cachedNodeHeight < 64) :
    (ct.head = [] → ct.SetIndex i = some
      { tree := { ct with trueProofIndex := i,
                          toTree := { ct.toTree with proofIndex := i / 2 ^ ct.cachedNodeHeight } },
        err := false }) ∧
    (ct.head ≠ [] → ct.SetIndex i = some { tree := ct, err := true }) := by
  constructor
  · intro hnil
    have hs : shl64 1 ct.cachedNodeHeight = 2 ^ ct.cachedNodeHeight := shl64_one_lt hh
    have hpos : 0 < 2 ^ ct.cachedNodeHeight := Nat.pow_pos (by decide)
    simp only [CachedTree.SetIndex, hnil, hs, Tree.SetIndex]
    rw [if_neg (by omega)]
  · intro hne
    unfold CachedTree.SetIndex
    cases hd : ct.head with
    | nil => exact absurd hd hne
    | cons a l => rfl

/-! ## C10: stream ingestion -/

theorem ReadAll_eq_pushAll (maxAlloc s : Nat) (hs : 1 ≤ s) (hmax : s ≤ maxAlloc) :
    ∀ (fuel : Nat) (d : Bytes) (t : Tree), d.length < fuel →
      t.ReadAll maxAlloc d (s : Int) fuel =
        ReadAllResult.done (t.pushAll (segmentsOf s fuel d)) := by
  intro fuel
  induction fuel with
  | zero => intro d t hlt; omega
  | succ fuel ih =>
    intro d t hlt
    have hnn : ¬ ((s : Int) < 0 ∨ (maxAlloc : Int) < (s : Int)) := by omega
    simp only [Tree.ReadAll, if_neg hnn, Int.toNat_ofNat, readFull, segmentsOf]
    have hs0 : ¬ (s = 0) := by omega
    rw [if_neg hs0]
    by_cases hd : d.length = 0
    · simp only [hd, if_true]
      rfl
    · simp only [hd, if_false]
      by_cases hshort : d.length < s
      · simp only [hshort, if_true]
        have htake : d.take s = d := List.take_of_length_le (by omega)
        have hdrop : d.drop s = [] := List.drop_of_length_le (by omega)
        rw [htake, hdrop]
        have := ih [] (t.Push d) (by simp; omega)
        rw [this]
        cases fuel <;> simp [segmentsOf, Tree.pushAll]
      · simp only [hshort, if_false]
        have := ih (d.drop s) (t.Push (d.take s)) (by simp; omega)
        rw [this]
        simp [Tree.pushAll]

theorem segmentsOf_fuel (s : Nat) (hs : 1 ≤ s) :
    ∀ (fuel fuel1 : Nat) (d : Bytes), d.length < fuel → d.length < fuel1 →
      segmentsOf s fuel d = segmentsOf s fuel1 d := by
  intro fuel
  induction fuel with
  | zero => intro fuel1 d hlt; omega
  | succ fuel ih =>
    intro fuel1 d hlt hlt1
    cases fuel1 with
    | zero => omega
    | succ fuel1 =>
      simp only [segmentsOf]
      by_cases hd : d.length = 0
      · simp only [hd, if_true]
      · simp only [hd, if_false]
        rw [ih fuel1 (d.drop s) (by simp; omega) (by simp; omega)]

theorem segmentsOf_flatten (s : Nat) (hs : 1 ≤ s) :
    ∀ (fuel : Nat) (d : Bytes), d.length < fuel → (segmentsOf s fuel d).flatten = d := by
  intro fuel
  induction fuel with
  | zero => intro d hlt; omega
  | succ fuel ih =>
    intro d hlt
    simp only [segmentsOf]
    by_cases hd : d.length = 0
    · simp only [hd, if_true]
      simp [List.length_eq_zero.1 hd]
    · simp only [hd, if_false, List.flatten_cons]
      rw [ih (d.drop s) (by simp; omega), List.take_append_drop]

theorem segmentsOf_length (s : Nat) (hs : 1 ≤ s) :
    ∀ (fuel : Nat) (d : Bytes), d.length < fuel →
      (segmentsOf s fuel d).length = (d.length + s - 1) / s := by
  intro fuel
  induction fuel with
  | zero => intro d hlt; omega
  | succ fuel ih =>
    intro d hlt
    simp only [segmentsOf]
    by_cases hd : d.length = 0
    · simp only [hd, if_true, List.length_nil]
      rw [Nat.div_eq_of_lt (by omega)]
    · simp only [hd, if_false, List.length_cons]
      rw [ih (d.drop s) (by simp; omega), List.length_drop]
      by_cases hshort : d.length < s
      · have h1 : d.length - s + s - 1 = s - 1 := by omega
        rw [h1, Nat.div_eq_of_lt (by omega)]
        have h2 : (d.length + s - 1) / s = 1 := by
          apply Nat.div_eq_of_lt_le <;> omega
        rw [h2]
      · have h1 : d.length + s - 1 = (d.length - s + s - 1) + s := by omega
        rw [h1, Nat.add_div_right _ (by omega)]

theorem segmentsOf_sizes (s : Nat) (hs : 1 ≤ s) :
    ∀ (fuel : Nat) (d : Bytes), d.length < fuel →
      (∀ seg ∈ (segmentsOf s fuel d).dropLast, seg.length = s) ∧
        (∀ seg ∈ segmentsOf s fuel d, 1 ≤ seg.length ∧ seg.length ≤ s) := by
  intro fuel
  induction fuel with
  | zero => intro d hlt; omega
  | succ fuel ih =>
    intro d hlt
    simp only [segmentsOf]
    by_cases hd : d.length = 0
    · simp [hd]
    · simp only [hd, if_false]
      obtain ⟨ih1, ih2⟩ := ih (d.drop s) (by simp; omega)
      constructor
      · intro seg hseg
        cases hrest : segmentsOf s fuel (d.drop s) with
        | nil => rw [hrest] at hseg; simp at hseg
        | cons a l =>
          rw [hrest, List.dropLast_cons₂] at hseg
          rcases List.mem_cons.1 hseg with h1 | h1
          · subst h1
            rw [List.length_take]
            have : (d.drop s).length ≠ 0 := by
              intro h0
              cases fuel with
              | zero => simp [segmentsOf] at hrest
              | succ f => simp [segmentsOf, h0] at hrest
            rw [List.length_drop] at this
            omega
          · exact ih1 seg (by rw [hrest]; exact h1)
      · intro seg hseg
        rcases List.mem_cons.1 hseg with h1 | h1
        · subst h1
          rw [List.length_take]
          omega
        · exact ih2 seg h1

/-- C10, for a segment size `s >= 1` that `make` can allocate (`s <= maxAlloc`): on a source
holding the bytes `d`, `ReadAll(d, s)` returns `nil` within `len(d) + 1` iterations, having
pushed a sequence of segments whose concatenation is `d`, every one of `s` bytes except
possibly the last, which holds between 1 and `s` bytes; their number is `ceil(len(d)/s)`,
and an empty source pushes nothing. -/
theorem ReadAll_pushes_segments (t : Tree) (maxAlloc : Nat) (d : Bytes) (s : Nat) (hs : 1 ≤ s)
    (hmax : s ≤ maxAlloc) :
    ∃ segments : List Bytes,
      (∀ fuel, d.length < fuel →
        t.ReadAll maxAlloc d (s : Int) fuel = ReadAllResult.done (t.pushAll segments)) ∧
      segments.flatten = d ∧
      (∀ seg ∈ segments.dropLast, seg.length = s) ∧
      (∀ seg ∈ segments, 1 ≤ seg.length ∧ seg.length ≤ s) ∧
      segments.length = (d.length + s - 1) / s ∧
      (d = [] → segments = []) := by
  refine ⟨segmentsOf s (d.length + 1) d, ?_, segmentsOf_flatten s hs _ d (by omega),
    (segmentsOf_sizes s hs _ d (by omega)).1, (segmentsOf_sizes s hs _ d (by omega)).2,
    segmentsOf_length s hs _ d (by omega), ?_⟩
  · intro fuel hf
    rw [ReadAll_eq_pushAll maxAlloc s hs hmax fuel d t hf,
      segmentsOf_fuel s hs fuel (d.length + 1) d hf (by omega)]
  · intro hd; subst hd; rfl

theorem ReadAll_pushes_segments_witness :
    1 ≤ 2 ∧ 2 ≤ 2 ^ 48 ∧ ∃ segments : List Bytes,
      (∀ fuel, ([1, 2, 3, 4, 5] : Bytes).length < fuel →
        (New demoHash).ReadAll (2 ^ 48) [1, 2, 3, 4, 5] ((2 : Nat) : Int) fuel =
          ReadAllResult.done ((New demoHash).pushAll segments)) ∧
      segments.flatten = [1, 2, 3, 4, 5] ∧
      (∀ seg ∈ segments.dropLast, seg.length = 2) ∧
      (∀ seg ∈ segments, 1 ≤ seg.length ∧ seg.length ≤ 2) ∧
      segments.length = (([1, 2, 3, 4, 5] : Bytes).length + 2 - 1) / 2 ∧
      (([1, 2, 3, 4, 5] : Bytes) = [] → segments = []) :=
  ⟨by decide, by decide,
    ReadAll_pushes_segments (New demoHash) (2 ^ 48) [1, 2, 3, 4, 5] 2 (by decide) (by decide)⟩

theorem ReadAll_zero_size_never_done (maxAlloc : Nat) :
    ∀ (fuel : Nat) (t t1 : Tree) (d : Bytes),
      t.ReadAll maxAlloc d 0 fuel ≠ ReadAllResult.done t1 := by
  intro fuel
  induction fuel with
  | zero => intro t t1 d hc; simp [Tree.ReadAll] at hc
  | succ fuel ih =>
    intro t t1 d
    have hnn : ¬ ((0 : Int) < 0 ∨ (maxAlloc : Int) < 0) := by omega
    simp only [Tree.ReadAll, readFull, if_neg hnn]
    simp only [Int.toNat_zero, if_true]
    exact ih _ _ _

/-- C10 as stated fails for the segment size 0: `io.ReadFull` fills an empty buffer without
reading and without error, so `ReadAll` keeps pushing empty segments and never returns,
however many iterations it is given and whatever the allocation limit; here on the empty
source. -/
theorem ReadAll_zero_size_diverges :
    ¬ ∃ maxAlloc fuel t1,
      (New demoHash).ReadAll maxAlloc [] 0 fuel = ReadAllResult.done t1 := by
  rintro ⟨maxAlloc, fuel, t1, h⟩
  exact ReadAll_zero_size_never_done maxAlloc fuel _ _ _ h

/-- A negative segment size makes `make([]byte, segmentSize)` panic at the first iteration. -/
theorem ReadAll_negative_size_panics (t : Tree) (maxAlloc : Nat) (d : Bytes) (s : Int)
    (hs : s < 0) (fuel : Nat) :
    t.ReadAll maxAlloc d s (fuel + 1) = ReadAllResult.panic := by
  simp [Tree.ReadAll, hs]

/-- A segment size above the allocation limit makes `make([]byte, segmentSize)` panic at the
first iteration, whatever the source holds. -/
theorem ReadAll_oversize_panics (t : Tree) (maxAlloc : Nat) (d : Bytes) (s : Int)
    (hs : (maxAlloc : Int) < s) (fuel : Nat) :
    t.ReadAll maxAlloc d s (fuel + 1) = ReadAllResult.panic := by
  simp [Tree.ReadAll, hs]

/-- The segment size `1 << 62` on a source of three bytes, with the allocation limit `2^48`
of linux/amd64: `ReadAll` panics, it pushes nothing. -/
theorem ReadAll_size_two_pow_62_panics (fuel : Nat) :
    (New demoHash).ReadAll (2 ^ 48) [1, 2, 3] (2 ^ 62) (fuel + 1) = ReadAllResult.panic :=
  ReadAll_oversize_panics _ _ _ _ (by decide) fuel

/-! ## Leaves under a chain of subtrees -/

theorem leavesOf_nil : leavesOf [] = 0 := rfl

theorem leavesOf_cons (a : subTree) (F : List subTree) :
    leavesOf (a :: F) = 2 ^ a.height + leavesOf F := by
  simp [leavesOf]

theorem leavesOf_append (F G : List subTree) : leavesOf (F ++ G) = leavesOf F + leavesOf G := by
  simp [leavesOf]

theorem two_pow_pos (j : Nat) : 0 < 2 ^ j := Nat.pow_pos (by decide)

theorem two_pow_succ (j : Nat) : 2 ^ (j + 1) = 2 ^ j + 2 ^ j := by
  rw [Nat.pow_succ]; omega

theorem two_pow_le_of_lt {a b : Nat} (hab : a < b) : 2 ^ a + 2 ^ a ≤ 2 ^ b := by
  rw [← two_pow_succ]
  exact Nat.pow_le_pow_right (by decide) hab

theorem lt_of_two_pow_lt {a b : Nat} (hab : 2 ^ a < 2 ^ b) : a < b :=
  (Nat.pow_lt_pow_iff_right (by decide)).1 hab

/-- Every subtree of height at least `j` contributes a multiple of `2^j` leaves. -/
theorem dvd_leavesOf (j : Nat) :
    ∀ (F : List subTree), (∀ e ∈ F, j ≤ e.height) → 2 ^ j ∣ leavesOf F := by
  intro F
  induction F with
  | nil => intro _; exact Nat.dvd_zero _
  | cons a F ih =>
    intro hF
    rw [leavesOf_cons]
    exact Nat.dvd_add (Nat.pow_dvd_pow 2 (hF a (List.mem_cons_self _ _)))
      (ih (fun e he => hF e (List.mem_cons_of_mem _ he)))

theorem leavesOf_cons_bound (j : Nat) :
    ∀ (F : List subTree) (a : subTree), Increasing (a :: F) → (∀ e ∈ a :: F, e.height < j) →
      leavesOf (a :: F) + 2 ^ a.height ≤ 2 ^ j := by
  intro F
  induction F with
  | nil =>
    intro a _ hlt
    rw [leavesOf_cons, leavesOf_nil]
    have := two_pow_le_of_lt (hlt a (List.mem_cons_self _ _))
    omega
  | cons b F ih =>
    intro a hinc hlt
    have hab : a.height < b.height := (List.pairwise_cons.1 hinc).1 b (List.mem_cons_self _ _)
    have h1 := ih b (List.pairwise_cons.1 hinc).2 (fun e he => hlt e (List.mem_cons_of_mem _ he))
    have h2 := two_pow_le_of_lt hab
    rw [leavesOf_cons] at h1 ⊢
    rw [leavesOf_cons]
    omega

/-- Distinct heights below `j` hold fewer than `2^j` leaves together. -/
theorem leavesOf_lt (j : Nat) (F : List subTree) (hinc : Increasing F)
    (hlt : ∀ e ∈ F, e.height < j) : leavesOf F < 2 ^ j := by
  cases F with
  | nil => exact two_pow_pos j
  | cons a F =>
    have := leavesOf_cons_bound j F a hinc hlt
    have := two_pow_pos a.height
    omega

theorem roundDown_eq {p s k : Nat} (hp : 0 < p) (hd : p ∣ s) (hsk : s ≤ k) (hks : k < s + p) :
    k / p * p = s := by
  have h1 := le_roundDown hp hd hsk
  have h2 := roundDown_add_le hp (Nat.dvd_add hd (Nat.dvd_refl p)) hks
  omega

theorem Increasing_tail {a : subTree} {F : List subTree} (h : Increasing (a :: F)) :
    Increasing F := (List.pairwise_cons.1 h).2

theorem Increasing_head_lt {a : subTree} {F : List subTree} (h : Increasing (a :: F)) :
    ∀ e ∈ F, a.height < e.height := (List.pairwise_cons.1 h).1

/-! ## The climb of the verifier -/

theorem climb_append (h : Hash) (k : Nat) :
    ∀ (sibs : List Bytes) (height : Nat) (sum p : Bytes),
      climb h k (sibs ++ [p]) height sum =
        climbStep h k (height + sibs.length) (climb h k sibs height sum) p := by
  intro sibs
  induction sibs with
  | nil => intro height sum p; rfl
  | cons q sibs ih =>
    intro height sum p
    have hstep : climb h k (q :: sibs ++ [p]) height sum =
        climb h k (sibs ++ [p]) (height + 1) (climbStep h k height sum q) := rfl
    have hstep1 : climb h k (q :: sibs) height sum =
        climb h k sibs (height + 1) (climbStep h k height sum q) := rfl
    have hlen : height + (q :: sibs).length = height + 1 + sibs.length := by
      simp only [List.length_cons]; omega
    rw [hstep, hstep1, hlen, ih]

/-! ## The invariant of `Push` -/

theorem pushLoop_cons_eq (h : Hash) (ci pi : Nat) (head next : subTree) (rest : List subTree)
    (ps : List Bytes) (hh : head.height = next.height) :
    pushLoop h ci pi head (next :: rest) ps =
      pushLoop h ci pi (joinSubTrees h next head) rest
        (if (head.height : Int) = (ps.length : Int) - 1 then
          (if pi < mul64 (ci / shl64 1 head.height) (shl64 1 head.height) then ps ++ [head.sum]
            else ps ++ [next.sum])
          else ps) := by
  rw [pushLoop, if_pos hh]

theorem pushLoop_cons_ne (h : Hash) (ci pi : Nat) (head next : subTree) (rest : List subTree)
    (ps : List Bytes) (hh : head.height ≠ next.height) :
    pushLoop h ci pi head (next :: rest) ps = (head :: next :: rest, ps) := by
  rw [pushLoop, if_neg hh]

/-- The midpoint computed by `Push` when two subtrees of height `c` are merged while leaf
`n` is pushed: the first leaf of the newer one. -/
theorem push_mid (n c r : Nat) (hn : n + 1 < 2 ^ 64) (hcount : 2 ^ c + (2 ^ c + r) = n + 1)
    (hd : 2 ^ c ∣ r) :
    mul64 (n / shl64 1 c) (shl64 1 c) = 2 ^ c + r := by
  have hpos := two_pow_pos c
  have hc : c < 64 := lt_of_two_pow_lt (by omega)
  rw [shl64_one_lt hc]
  have hle := roundDown_le n (2 ^ c)
  rw [mul64_of_lt (by omega)]
  exact roundDown_eq hpos (Nat.dvd_add (Nat.dvd_refl _) hd) (by omega) (by omega)

theorem climbStep_upper (h : Hash) (k c s : Nat) (sum p : Bytes) (hd : 2 ^ (c + 1) ∣ s)
    (hlo : 2 ^ c + s ≤ k) (hhi : k < 2 ^ c + s + 2 ^ c) :
    climbStep h k (c + 1) sum p = nodeSum h p sum := by
  unfold climbStep
  have h2 := two_pow_succ c
  rw [roundDown_eq (two_pow_pos _) hd (by omega) (by omega)]
  rw [if_neg (by simp only [Nat.add_sub_cancel]; omega)]

theorem climbStep_lower (h : Hash) (k c s : Nat) (sum p : Bytes) (hd : 2 ^ (c + 1) ∣ s)
    (hlo : s ≤ k) (hhi : k < s + 2 ^ c) :
    climbStep h k (c + 1) sum p = nodeSum h sum p := by
  unfold climbStep
  have h2 := two_pow_succ c
  rw [roundDown_eq (two_pow_pos _) hd (by omega) (by omega)]
  rw [if_pos (by simp only [Nat.add_sub_cancel]; omega)]

/-- One merge step of the loop of `Push` keeps the loop invariant. -/
theorem LoopInv_merge (h : Hash) (lf : Bytes → Bytes) (k n : Nat) (hn : n + 1 < 2 ^ 64)
    (cur nxt : subTree) (rest : List subTree) (ps : List Bytes)
    (hI : LoopInv h lf k n cur (nxt :: rest) ps) (hh : cur.height = nxt.height) :
    LoopInv h lf k n (joinSubTrees h nxt cur) rest
      (if (cur.height : Int) = (ps.length : Int) - 1 then
        (if k < mul64 (n / shl64 1 cur.height) (shl64 1 cur.height) then ps ++ [cur.sum]
          else ps ++ [nxt.sum])
        else ps) := by
  have hcount : 2 ^ cur.height + (2 ^ cur.height + leavesOf rest) = n + 1 := by
    have := hI.count
    rw [leavesOf_cons, ← hh] at this
    exact this
  have hrest : ∀ e ∈ rest, cur.height + 1 ≤ e.height := by
    intro e he
    have := Increasing_head_lt hI.inc e he
    omega
  have hd1 : 2 ^ (cur.height + 1) ∣ leavesOf rest := dvd_leavesOf _ rest hrest
  have hd0 : 2 ^ cur.height ∣ leavesOf rest :=
    dvd_leavesOf _ rest (fun e he => by have := hrest e he; omega)
  have hmid := push_mid n cur.height (leavesOf rest) hn hcount hd0
  have h2 := two_pow_succ cur.height
  refine ⟨Increasing_tail hI.inc, ?_, ?_, ?_, ?_⟩
  · intro e he
    have := hrest e he
    simpa [joinSubTrees, ← hh] using this
  · simp only [joinSubTrees, ← hh]
    omega
  · intro hk
    obtain ⟨newer, E, older, p0, sibs, hF, hps, hlen, hlo, hhi, hsum⟩ := hI.track hk
    cases newer with
    | nil =>
      simp only [List.nil_append, List.cons.injEq] at hF
      obtain ⟨hE, hold⟩ := hF
      subst hE
      subst hold
      have hcond : (cur.height : Int) = (ps.length : Int) - 1 := by
        rw [hps, List.length_cons, hlen]; omega
      rw [leavesOf_cons, ← hh] at hlo hhi
      rw [if_pos hcond, hmid, if_neg (by omega)]
      refine ⟨[], joinSubTrees h nxt cur, rest, p0, sibs ++ [nxt.sum], rfl, by rw [hps]; rfl,
        by simp [joinSubTrees, hlen, ← hh], by omega,
        by simp only [joinSubTrees, ← hh]; omega, ?_⟩
      rw [climb_append, ← hsum, hlen, Nat.add_comm 1 cur.height]
      rw [climbStep_upper h k cur.height (leavesOf rest) _ _ hd1 (by omega) (by omega)]
      rfl
    | cons a newer =>
      cases newer with
      | nil =>
        simp only [List.cons_append, List.nil_append, List.cons.injEq] at hF
        obtain ⟨ha, hE, hold⟩ := hF
        subst ha
        subst hE
        subst hold
        have hcond : (cur.height : Int) = (ps.length : Int) - 1 := by
          rw [hps, List.length_cons, hlen, hh]; omega
        rw [← hh] at hhi hlen
        rw [if_pos hcond, hmid, if_pos (by omega)]
        refine ⟨[], joinSubTrees h nxt cur, rest, p0, sibs ++ [cur.sum], rfl,
          by rw [hps]; rfl, by simp [joinSubTrees, hlen, ← hh], by omega,
          by simp only [joinSubTrees, ← hh]; omega, ?_⟩
        rw [climb_append, ← hsum, hlen, Nat.add_comm 1 cur.height]
        rw [climbStep_lower h k cur.height (leavesOf rest) _ _ hd1 (by omega) (by omega)]
        rfl
      | cons b newer =>
        simp only [List.cons_append, List.cons.injEq] at hF
        obtain ⟨ha, hb, hrestEq⟩ := hF
        subst ha
        subst hb
        have hEmem : E ∈ rest := by rw [hrestEq]; simp
        have hElt := hrest E hEmem
        have hcond : ¬ ((cur.height : Int) = (ps.length : Int) - 1) := by
          rw [hps, List.length_cons, hlen]; omega
        rw [if_neg hcond]
        exact ⟨joinSubTrees h nxt cur :: newer, E, older, p0, sibs,
          by rw [hrestEq]; rfl, hps, hlen, hlo, hhi, hsum⟩
  · intro hk
    have hps := hI.empty hk
    have hcond : ¬ ((cur.height : Int) = (ps.length : Int) - 1) := by
      rw [hps, List.length_nil]; omega
    rw [if_neg hcond]
    exact hps

theorem pushLoop_inv (h : Hash) (lf : Bytes → Bytes) (k n : Nat) (hn : n + 1 < 2 ^ 64) :
    ∀ (rest : List subTree) (cur : subTree) (ps : List Bytes), LoopInv h lf k n cur rest ps →
      Inv h lf k (n + 1) (pushLoop h n k cur rest ps).1 (pushLoop h n k cur rest ps).2 := by
  intro rest
  induction rest with
  | nil =>
    intro cur ps hI
    refine ⟨List.pairwise_singleton _ _, ?_, fun hk => hI.track (by omega),
      fun hk => hI.empty (by omega)⟩
    have := hI.count
    simp only [pushLoop, leavesOf_cons, leavesOf_nil] at this ⊢
    exact this
  | cons nxt rest ih =>
    intro cur ps hI
    by_cases hh : cur.height = nxt.height
    · rw [pushLoop_cons_eq h n k cur nxt rest ps hh]
      exact ih _ _ (LoopInv_merge h lf k n hn cur nxt rest ps hI hh)
    · rw [pushLoop_cons_ne h n k cur nxt rest ps hh]
      refine ⟨?_, ?_, fun hk => hI.track (by omega), fun hk => hI.empty (by omega)⟩
      · refine List.pairwise_cons.2 ⟨?_, hI.inc⟩
        intro e he
        have hle := hI.low e he
        rcases List.mem_cons.1 he with h1 | h1
        · subst h1; omega
        · have := Increasing_head_lt hI.inc e h1
          have := hI.low nxt (List.mem_cons_self _ _)
          omega
      · have := hI.count
        rw [leavesOf_cons] at this ⊢
        exact this

theorem Push_fields (t : Tree) (data : Bytes) :
    (t.Push data).hash = t.hash ∧ (t.Push data).proofIndex = t.proofIndex ∧
      (t.Push data).cachedTree = t.cachedTree := ⟨rfl, rfl, rfl⟩

theorem pushAll_fields (segments : List Bytes) :
    ∀ (t : Tree), (t.pushAll segments).hash = t.hash ∧
      (t.pushAll segments).proofIndex = t.proofIndex ∧
      (t.pushAll segments).cachedTree = t.cachedTree := by
  induction segments with
  | nil => intro t; exact ⟨rfl, rfl, rfl⟩
  | cons d ds ih => intro t; exact ih (t.Push d)

theorem pushAll_cons (t : Tree) (d : Bytes) (ds : List Bytes) :
    t.pushAll (d :: ds) = (t.Push d).pushAll ds := rfl

theorem pushAll_append (t : Tree) (xs ys : List Bytes) :
    t.pushAll (xs ++ ys) = (t.pushAll xs).pushAll ys := by
  simp [Tree.pushAll, List.foldl_append]

theorem Push_TreeInv (t : Tree) (n : Nat) (data : Bytes) (hI : TreeInv t n)
    (hn : n + 1 < 2 ^ 64) : TreeInv (t.Push data) (n + 1) := by
  obtain ⟨hinv, hidx⟩ := hI
  constructor
  · show Inv t.hash t.leafOf t.proofIndex (n + 1)
      (pushLoop t.hash t.currentIndex t.proofIndex ⟨0, t.leafOf data⟩ t.head
        (if t.currentIndex = t.proofIndex then t.proofSet ++ [data] else t.proofSet)).1
      (pushLoop t.hash t.currentIndex t.proofIndex ⟨0, t.leafOf data⟩ t.head
        (if t.currentIndex = t.proofIndex then t.proofSet ++ [data] else t.proofSet)).2
    rw [hidx]
    apply pushLoop_inv _ _ _ _ hn
    refine ⟨hinv.inc, fun e _ => Nat.zero_le _, ?_, ?_, ?_⟩
    · show 2 ^ 0 + leavesOf t.head = n + 1
      rw [hinv.count]; omega
    · intro hk
      by_cases hkn : n = t.proofIndex
      · rw [if_pos hkn, hinv.empty (by omega)]
        exact ⟨[], ⟨0, t.leafOf data⟩, t.head, data, [], rfl, rfl, rfl,
          by rw [hinv.count]; omega, by rw [hinv.count]; show t.proofIndex < n + 1; omega, rfl⟩
      · rw [if_neg hkn]
        obtain ⟨newer, E, older, p0, sibs, hF, hps, hlen, hlo, hhi, hsum⟩ :=
          hinv.track (by omega)
        exact ⟨⟨0, t.leafOf data⟩ :: newer, E, older, p0, sibs, by rw [hF]; rfl, hps, hlen,
          hlo, hhi, hsum⟩
    · intro hk
      rw [if_neg (by omega)]
      exact hinv.empty (by omega)
  · show add64 t.currentIndex 1 = n + 1
    rw [hidx]
    exact add64_of_lt hn

theorem pushAll_TreeInv (segments : List Bytes) :
    ∀ (t : Tree) (n : Nat), TreeInv t n → n + segments.length < 2 ^ 64 →
      TreeInv (t.pushAll segments) (n + segments.length) := by
  induction segments with
  | nil => intro t n hI _; exact hI
  | cons d ds ih =>
    intro t n hI hn
    simp only [List.length_cons] at hn
    have := ih (t.Push d) (n + 1) (Push_TreeInv t n d hI (by omega)) (by omega)
    rw [pushAll_cons, List.length_cons]
    have he : n + (ds.length + 1) = n + 1 + ds.length := by omega
    rw [he]
    exact this

theorem TreeInv_init (t : Tree) (hh : t.head = []) (hps : t.proofSet = [])
    (hci : t.currentIndex = 0) : TreeInv t 0 := by
  refine ⟨⟨?_, ?_, ?_, ?_⟩, hci⟩
  · rw [hh]; exact List.Pairwise.nil
  · rw [hh]; rfl
  · intro hk; omega
  · intro _; exact hps

/-! ## What `Root` and `Prove` return -/

theorem rootLoop_append (h : Hash) :
    ∀ (A B : List subTree) (cur : subTree),
      rootLoop h cur (A ++ B) = rootLoop h (rootLoop h cur A) B := by
  intro A
  induction A with
  | nil => intro B cur; rfl
  | cons a A ih => intro B cur; exact ih B _

theorem rootLoop_sum (h : Hash) :
    ∀ (L : List subTree) (cur : subTree),
      (rootLoop h cur L).sum = verifyTail h (L.map subTree.sum) cur.sum := by
  intro L
  induction L with
  | nil => intro cur; rfl
  | cons a L ih => intro cur; exact ih _

/-- The first loop of `Prove` folds the subtrees lower than the one that holds the target
and stops in front of it. -/
theorem proveLoop_newer (h : Hash) (len : Nat) (E : subTree) (older : List subTree)
    (hE : ¬ ((E.height : Int) < (len : Int) - 1)) :
    ∀ (nw : List subTree) (cur : subTree), (∀ e ∈ nw, (e.height : Int) < (len : Int) - 1) →
      proveLoop h len cur (nw ++ E :: older) = (rootLoop h cur nw, E :: older) := by
  intro nw
  induction nw with
  | nil =>
    intro cur _
    simp only [List.nil_append, proveLoop, rootLoop]
    rw [if_neg hE]
  | cons a nw ih =>
    intro cur hlt
    simp only [List.cons_append, proveLoop, rootLoop]
    rw [if_pos (hlt a (List.mem_cons_self _ _))]
    exact ih _ (fun e he => hlt e (List.mem_cons_of_mem _ he))

theorem proveLoop_stop (h : Hash) (len : Nat) (cur : subTree) (rest : List subTree)
    (hrest : ∀ e ∈ rest, ¬ ((e.height : Int) < (len : Int) - 1)) :
    proveLoop h len cur rest = (cur, rest) := by
  cases rest with
  | nil => rfl
  | cons a rest =>
    simp only [proveLoop]
    rw [if_neg (hrest a (List.mem_cons_self _ _))]

theorem Increasing_append_lt {newer older : List subTree} {E : subTree}
    (h : Increasing (newer ++ E :: older)) :
    (∀ e ∈ newer, e.height < E.height) ∧ (∀ e ∈ older, E.height < e.height) ∧
      Increasing newer := by
  have h1 := List.pairwise_append.1 h
  refine ⟨fun e he => h1.2.2 e he E (List.mem_cons_self _ _), ?_, h1.1⟩
  exact Increasing_head_lt h1.2.1

/-- The path `Prove` hands out when the proof set follows the target: the proof set, then
the fold of the lower subtrees if there are any, then the digests of the higher ones. -/
theorem Prove_proofSet_of_Tracks (t : Tree) (newer older : List subTree) (E : subTree)
    (hF : t.head = newer ++ E :: older) (hinc : Increasing t.head)
    (hlen : t.proofSet.length = E.height + 1) :
    t.Prove.proofSet = t.proofSet ++
      (match newer with
        | [] => []
        | hd :: nw => [(rootLoop t.hash hd nw).sum]) ++ older.map subTree.sum := by
  rw [hF] at hinc
  obtain ⟨hnew, hold, _⟩ := Increasing_append_lt hinc
  have hne : ¬ (t.proofSet.length = 0) := by omega
  have hEstop : ¬ ((E.height : Int) < (t.proofSet.length : Int) - 1) := by omega
  cases newer with
  | nil =>
    simp only [List.nil_append] at hF
    simp only [Tree.Prove, hF, if_neg hne]
    rw [proveLoop_stop t.hash _ E older (fun e he => by have := hold e he; omega)]
    cases older with
    | nil => simp
    | cons o os =>
      have ho := hold o (List.mem_cons_self _ _)
      have : ¬ ((o.height : Int) = (t.proofSet.length : Int) - 1) := by omega
      simp only [if_neg this]
      simp
  | cons hd nw =>
    simp only [List.cons_append] at hF
    simp only [Tree.Prove, hF, if_neg hne]
    rw [proveLoop_newer t.hash _ E older hEstop nw hd
      (fun e he => by have := hnew e (List.mem_cons_of_mem _ he); omega)]
    have : (E.height : Int) = (t.proofSet.length : Int) - 1 := by omega
    simp only [if_pos this]

theorem Root_of_Tracks (t : Tree) (newer older : List subTree) (E : subTree)
    (hF : t.head = newer ++ E :: older) :
    t.Root = some (verifyTail t.hash (older.map subTree.sum)
      (match newer with
        | [] => E.sum
        | hd :: nw => nodeSum t.hash E.sum (rootLoop t.hash hd nw).sum)) := by
  cases newer with
  | nil =>
    simp only [List.nil_append] at hF
    simp only [Tree.Root, hF]
    rw [rootLoop_sum]
  | cons hd nw =>
    simp only [List.cons_append] at hF
    simp only [Tree.Root, hF]
    rw [rootLoop_append, rootLoop_sum]
    rfl

/-! ## C1: the verifier on the path of `Prove` -/

/-- The loop of `VerifyProof` climbs the complete subtree that holds the target (height
`j`, first leaf `s`), consuming one path entry for each level, and stops above it. -/
theorem verifyLoop_climb (h : Hash) (k n j s : Nat) (extra : List Bytes) (hn : n < 2 ^ 63)
    (hd : 2 ^ (j + 1) ∣ s) (hlo : s ≤ k) (hhi : k < s + 2 ^ j) (hin : s + 2 ^ j ≤ n)
    (hout : n < s + 2 ^ (j + 1)) :
    ∀ (sibs : List Bytes) (lvl : Nat) (sum : Bytes) (se : Nat), 1 ≤ lvl →
      lvl + sibs.length = j + 1 →
      verifyLoop h k n (sibs ++ extra) lvl sum se =
        LoopExit.brk (j + 1) (climb h k sibs lvl sum)
          (if sibs = [] then se else s + 2 ^ j - 1) extra := by
  have hj : j < 63 := lt_of_two_pow_lt (by have := two_pow_pos j; omega)
  have hpj := two_pow_pos j
  have h2j := two_pow_succ j
  have h63 : (2 : Nat) ^ (j + 1) ≤ 2 ^ 63 := Nat.pow_le_pow_right (by decide) (by omega)
  intro sibs
  induction sibs with
  | nil =>
    intro lvl sum se _ hl
    simp only [List.length_nil, Nat.add_zero] at hl
    subst hl
    rw [List.nil_append, verifyLoop, shl64_one_lt (by omega)]
    have hstart : k / 2 ^ (j + 1) * 2 ^ (j + 1) = s :=
      roundDown_eq (two_pow_pos _) hd hlo (by omega)
    rw [if_neg (by have := two_pow_pos (j + 1); omega)]
    simp only []
    rw [mul64_of_lt (by rw [hstart]; omega), hstart, add64_of_lt (by omega),
      sub64_of_le (by omega) (by omega), if_pos (by omega)]
    rfl
  | cons p sibs ih =>
    intro lvl sum se hl1 hl
    simp only [List.length_cons] at hl
    have hlj : lvl ≤ j := by omega
    have hpl := two_pow_pos lvl
    have hdl : 2 ^ lvl ∣ s := Nat.dvd_trans (Nat.pow_dvd_pow 2 (by omega)) hd
    have hdj : 2 ^ lvl ∣ s + 2 ^ j := Nat.dvd_add hdl (Nat.pow_dvd_pow 2 hlj)
    have hge := le_roundDown hpl hdl hlo
    have hle := roundDown_le k (2 ^ lvl)
    have hup := roundDown_add_le hpl hdj hhi
    rw [List.cons_append, verifyLoop, shl64_one_lt (by omega), shl64_one_lt (by omega)]
    rw [if_neg (by omega)]
    simp only []
    rw [mul64_of_lt (by omega), add64_of_lt (by omega), sub64_of_le (by omega) (by omega),
      sub64_of_le (by omega) hle, if_neg (by omega)]
    have hstep : (if k - k / 2 ^ lvl * 2 ^ lvl < 2 ^ (lvl - 1) then nodeSum h sum p
        else nodeSum h p sum) = climbStep h k lvl sum p := rfl
    rw [hstep, ih (lvl + 1) _ _ (by omega) (by omega)]
    have hclimb : climb h k (p :: sibs) lvl sum = climb h k sibs (lvl + 1)
        (climbStep h k lvl sum p) := rfl
    rw [hclimb, if_neg (List.cons_ne_nil _ _)]
    by_cases hs : sibs = []
    · subst hs
      simp only [List.length_nil] at hl
      have hlvl : lvl = j := by omega
      subst hlvl
      have hstart : k / 2 ^ lvl * 2 ^ lvl = s :=
        roundDown_eq hpl hdl hlo hhi
      rw [if_pos rfl, hstart]
    · rw [if_neg hs]

/-- A tree that holds `n < 2^63` leaves, the target among them, hands out a proof that
`VerifyProof` accepts. -/
theorem VerifyProof_Prove_of_TreeInv (t : Tree) (n : Nat) (hI : TreeInv t n)
    (hc : t.cachedTree = false) (hk : t.proofIndex < n) (hn : n < 2 ^ 63) :
    VerifyProof t.hash t.Prove.merkleRoot t.Prove.proofSet t.proofIndex n = some true := by
  obtain ⟨hinv, hidx⟩ := hI
  obtain ⟨newer, E, older, p0, sibs, hF, hps, hlen, hlo, hhi, hsum⟩ := hinv.track hk
  have hinc := hinv.inc
  have hroot : t.Prove.merkleRoot = t.Root := by
    unfold Tree.Prove
    cases hd : t.head with
    | nil => rfl
    | cons a l => simp only []; split <;> rfl
  have hlenps : t.proofSet.length = E.height + 1 := by rw [hps, List.length_cons, hlen]
  rw [hroot, Root_of_Tracks t newer older E hF,
    Prove_proofSet_of_Tracks t newer older E hF hinc hlenps, hps]
  have hinc2 := hinc
  rw [hF] at hinc2
  obtain ⟨hnew, hold, hincn⟩ := Increasing_append_lt hinc2
  have hcount := hinv.count
  rw [hF, leavesOf_append, leavesOf_cons] at hcount
  have hnewlt : leavesOf newer < 2 ^ E.height := leavesOf_lt _ newer hincn hnew
  have hd : 2 ^ (E.height + 1) ∣ leavesOf older :=
    dvd_leavesOf _ older (fun e he => by have := hold e he; omega)
  have h2 := two_pow_succ E.height
  have hleaf : t.leafOf p0 = leafSum t.hash p0 := by simp [Tree.leafOf, hc]
  rw [hleaf] at hsum
  unfold VerifyProof
  simp only []
  rw [if_neg (by omega)]
  simp only [List.cons_append, List.append_assoc]
  rw [verifyLoop_climb t.hash t.proofIndex n E.height (leavesOf older) _ hn hd hlo hhi
    (by omega) (by omega) sibs 1 _ _ (le_refl 1) (by omega)]
  simp only []
  have hse : (if sibs = [] then t.proofIndex else leavesOf older + 2 ^ E.height - 1) =
      leavesOf older + 2 ^ E.height - 1 := by
    by_cases hs : sibs = []
    · rw [if_pos hs]
      subst hs
      simp only [List.length_nil] at hlen
      rw [← hlen] at hhi ⊢
      simp only [Nat.pow_zero] at hhi ⊢
      omega
    · rw [if_neg hs]
  rw [hse, sub64_of_le (by omega) (by omega), ← hsum]
  cases newer with
  | nil =>
    rw [leavesOf_nil] at hcount
    rw [if_neg (by simp only [ne_eq, not_not]; omega)]
    simp
  | cons hd1 nw =>
    rw [leavesOf_cons] at hcount
    have := two_pow_pos hd1.height
    rw [if_pos (by simp only [ne_eq]; omega)]
    simp

/-- C1: for every digest, every sequence of `N >= 1` segments (`N < 2^63`, so that the
64-bit arithmetic of the verifier is exact) and every `k < N`, a tree made by `New` with
`SetIndex(k)` before the first `Push` and the `N` segments pushed in order returns from
`Prove()` a tuple `(root, path, k, N)` that `VerifyProof` accepts. -/
theorem Prove_VerifyProof_round_trip (h : Hash) (segments : List Bytes) (k : Nat)
    (hN : 1 ≤ segments.length) (hk : k < segments.length) (hlt : segments.length < 2 ^ 63) :
    (((New h).SetIndex k).tree.pushAll segments).Prove.proofIndex = k ∧
    (((New h).SetIndex k).tree.pushAll segments).Prove.numLeaves = segments.length ∧
    VerifyProof h (((New h).SetIndex k).tree.pushAll segments).Prove.merkleRoot
      (((New h).SetIndex k).tree.pushAll segments).Prove.proofSet
      (((New h).SetIndex k).tree.pushAll segments).Prove.proofIndex
      (((New h).SetIndex k).tree.pushAll segments).Prove.numLeaves = some true := by
  have h0 : TreeInv ((New h).SetIndex k).tree 0 := TreeInv_init _ rfl rfl rfl
  have hI := pushAll_TreeInv segments _ 0 h0 (by omega)
  rw [Nat.zero_add] at hI
  obtain ⟨hhash, hpi, hct⟩ := pushAll_fields segments ((New h).SetIndex k).tree
  have hpi2 : (((New h).SetIndex k).tree.pushAll segments).proofIndex = k := hpi
  have hhash2 : (((New h).SetIndex k).tree.pushAll segments).hash = h := hhash
  have hfields : ∀ t : Tree, t.Prove.proofIndex = t.proofIndex ∧
      t.Prove.numLeaves = t.currentIndex := by
    intro t
    unfold Tree.Prove
    cases hd : t.head with
    | nil => exact ⟨rfl, rfl⟩
    | cons a l => simp only []; split <;> exact ⟨rfl, rfl⟩
  have hv := VerifyProof_Prove_of_TreeInv _ _ hI hct (by rw [hpi2]; exact hk) hlt
  rw [hhash2, hpi2] at hv
  rw [(hfields _).1, (hfields _).2, hI.idx, hpi2]
  exact ⟨rfl, rfl, hv⟩

theorem Prove_VerifyProof_round_trip_witness :
    1 ≤ ([[1], [2, 3], [4], [], [5, 6]] : List Bytes).length ∧
    3 < ([[1], [2, 3], [4], [], [5, 6]] : List Bytes).length ∧
    ([[1], [2, 3], [4], [], [5, 6]] : List Bytes).length < 2 ^ 63 ∧
    ((((New demoHash).SetIndex 3).tree.pushAll [[1], [2, 3], [4], [], [5, 6]]).Prove.proofIndex = 3 ∧
    (((New demoHash).SetIndex 3).tree.pushAll [[1], [2, 3], [4], [], [5, 6]]).Prove.numLeaves =
      ([[1], [2, 3], [4], [], [5, 6]] : List Bytes).length ∧
    VerifyProof demoHash
      (((New demoHash).SetIndex 3).tree.pushAll [[1], [2, 3], [4], [], [5, 6]]).Prove.merkleRoot
      (((New demoHash).SetIndex 3).tree.pushAll [[1], [2, 3], [4], [], [5, 6]]).Prove.proofSet
      (((New demoHash).SetIndex 3).tree.pushAll [[1], [2, 3], [4], [], [5, 6]]).Prove.proofIndex
      (((New demoHash).SetIndex 3).tree.pushAll [[1], [2, 3], [4], [], [5, 6]]).Prove.numLeaves
        = some true) :=
  ⟨by decide, by decide, by decide,
    Prove_VerifyProof_round_trip demoHash [[1], [2, 3], [4], [], [5, 6]] 3
      (by decide) (by decide) (by decide)⟩

/-! ## C2: pushing a block of `2^h` leaves, and the cached tree -/

/-- The merge loop run on a chain `A ++ G` first merges within `A`; when that leaves one
subtree, it goes on into `G`. -/
theorem pushLoop_append_single (h : Hash) (ci pi : Nat) (G : List subTree) :
    ∀ (A : List subTree) (cur x : subTree) (ps : List Bytes),
      (pushLoop h ci pi cur A ps).1 = [x] →
      pushLoop h ci pi cur (A ++ G) ps = pushLoop h ci pi x G (pushLoop h ci pi cur A ps).2 := by
  intro A
  induction A with
  | nil =>
    intro cur x ps hx
    simp only [pushLoop, List.cons.injEq, and_true] at hx
    subst hx
    rfl
  | cons nxt A ih =>
    intro cur x ps hx
    by_cases hh : cur.height = nxt.height
    · rw [pushLoop_cons_eq h ci pi cur nxt A ps hh] at hx ⊢
      rw [List.cons_append, pushLoop_cons_eq h ci pi cur nxt (A ++ G) ps hh]
      exact ih _ _ _ hx
    · rw [pushLoop_cons_ne h ci pi cur nxt A ps hh] at hx
      simp at hx

/-- When merging within `A` leaves two subtrees or more, the rest of the chain is untouched. -/
theorem pushLoop_append_many (h : Hash) (ci pi : Nat) (G : List subTree) :
    ∀ (A : List subTree) (cur : subTree) (ps : List Bytes),
      2 ≤ (pushLoop h ci pi cur A ps).1.length →
      pushLoop h ci pi cur (A ++ G) ps =
        ((pushLoop h ci pi cur A ps).1 ++ G, (pushLoop h ci pi cur A ps).2) := by
  intro A
  induction A with
  | nil =>
    intro cur ps hx
    simp [pushLoop] at hx
  | cons nxt A ih =>
    intro cur ps hx
    by_cases hh : cur.height = nxt.height
    · rw [pushLoop_cons_eq h ci pi cur nxt A ps hh] at hx ⊢
      rw [List.cons_append, pushLoop_cons_eq h ci pi cur nxt (A ++ G) ps hh]
      exact ih _ _ hx
    · rw [pushLoop_cons_ne h ci pi cur nxt A ps hh, List.cons_append,
        pushLoop_cons_ne h ci pi cur nxt (A ++ G) ps hh]
      rfl

theorem pushLoop_stop (h : Hash) (ci pi : Nat) (cur : subTree) (G : List subTree)
    (ps : List Bytes) (hG : ∀ e ∈ G, cur.height < e.height) :
    pushLoop h ci pi cur G ps = (cur :: G, ps) := by
  cases G with
  | nil => rfl
  | cons g G =>
    have := hG g (List.mem_cons_self _ _)
    exact pushLoop_cons_ne h ci pi cur g G ps (by omega)

/-- The merge loop leaves the proof set alone when no subtree it can merge is at the
height the proof set has reached. -/
theorem pushLoop_snd_same (h : Hash) (ci pi : Nat) :
    ∀ (A : List subTree) (cur : subTree) (ps : List Bytes),
      (∀ e ∈ A, (e.height : Int) ≠ (ps.length : Int) - 1) →
      (pushLoop h ci pi cur A ps).2 = ps := by
  intro A
  induction A with
  | nil => intro cur ps _; rfl
  | cons nxt A ih =>
    intro cur ps hA
    by_cases hh : cur.height = nxt.height
    · rw [pushLoop_cons_eq h ci pi cur nxt A ps hh]
      have := hA nxt (List.mem_cons_self _ _)
      rw [if_neg (by omega)]
      exact ih _ _ (fun e he => hA e (List.mem_cons_of_mem _ he))
    · rw [pushLoop_cons_ne h ci pi cur nxt A ps hh]

theorem roundDown_add {p off : Nat} (m : Nat) (hp : 0 < p) (hd : p ∣ off) :
    (off + m) / p * p = off + m / p * p := by
  obtain ⟨d, rfl⟩ := hd
  rw [Nat.mul_add_div hp, Nat.add_mul, Nat.mul_comm d p]

/-- Shifting both the index of the pushed leaf and the target by a multiple of `2^ht`
does not change the merges below height `ht`. -/
theorem pushLoop_shift (h : Hash) (ht off m r : Nat) (hht : ht < 64) (hoff : 2 ^ ht ∣ off)
    (hlt : off + m < 2 ^ 64) :
    ∀ (A : List subTree) (cur : subTree) (ps : List Bytes), (∀ e ∈ A, e.height < ht) →
      pushLoop h (off + m) (off + r) cur A ps = pushLoop h m r cur A ps := by
  intro A
  induction A with
  | nil => intro cur ps _; rfl
  | cons nxt A ih =>
    intro cur ps hA
    by_cases hh : cur.height = nxt.height
    · rw [pushLoop_cons_eq h _ _ cur nxt A ps hh, pushLoop_cons_eq h _ _ cur nxt A ps hh]
      have hlt1 : cur.height < ht := by rw [hh]; exact hA nxt (List.mem_cons_self _ _)
      have hpos := two_pow_pos cur.height
      have hd : 2 ^ cur.height ∣ off := Nat.dvd_trans (Nat.pow_dvd_pow 2 (by omega)) hoff
      have h1 := roundDown_le (off + m) (2 ^ cur.height)
      have h2 := roundDown_le m (2 ^ cur.height)
      rw [shl64_one_lt (by omega), mul64_of_lt (by omega), mul64_of_lt (by omega),
        roundDown_add m hpos hd]
      simp only [Nat.add_lt_add_iff_left]
      exact ih _ _ (fun e he => hA e (List.mem_cons_of_mem _ he))
    · rw [pushLoop_cons_ne h _ _ cur nxt A ps hh, pushLoop_cons_ne h _ _ cur nxt A ps hh]

theorem two_pow_le_leavesOf (F : List subTree) : ∀ e ∈ F, 2 ^ e.height ≤ leavesOf F := by
  induction F with
  | nil => intro e he; simp at he
  | cons a F ih =>
    intro e he
    rw [leavesOf_cons]
    rcases List.mem_cons.1 he with h1 | h1
    · subst h1; omega
    · exact le_trans (ih e h1) (Nat.le_add_left _ _)

theorem height_lt_of_leavesOf_lt (F : List subTree) (ht : Nat) (hlt : leavesOf F < 2 ^ ht) :
    ∀ e ∈ F, e.height < ht := by
  intro e he
  have := two_pow_le_leavesOf F e he
  exact lt_of_two_pow_lt (by omega)

/-- A forest with increasing heights that holds exactly `2^ht` leaves is one subtree of
height `ht`. -/
theorem singleton_of_leavesOf_eq (F : List subTree) (ht : Nat) (hinc : Increasing F)
    (hcount : leavesOf F = 2 ^ ht) : ∃ R, F = [⟨ht, R⟩] := by
  cases F with
  | nil => rw [leavesOf_nil] at hcount; have := two_pow_pos ht; omega
  | cons a F =>
    rw [leavesOf_cons] at hcount
    have hpa := two_pow_pos a.height
    by_cases hlt : a.height < ht
    · exfalso
      have hd1 : 2 ^ (a.height + 1) ∣ leavesOf F :=
        dvd_leavesOf _ F (fun e he => by have := Increasing_head_lt hinc e he; omega)
      have hd2 : 2 ^ (a.height + 1) ∣ 2 ^ ht := Nat.pow_dvd_pow 2 (by omega)
      have hd3 : 2 ^ (a.height + 1) ∣ 2 ^ a.height := by
        have : 2 ^ a.height = 2 ^ ht - leavesOf F := by omega
        rw [this]
        exact Nat.dvd_sub' hd2 hd1
      have := Nat.le_of_dvd hpa hd3
      have := two_pow_succ a.height
      omega
    · have hge : 2 ^ ht ≤ 2 ^ a.height := Nat.pow_le_pow_right (by decide) (by omega)
      have h0 : leavesOf F = 0 := by omega
      have hF : F = [] := by
        cases F with
        | nil => rfl
        | cons b F => rw [leavesOf_cons] at h0; have := two_pow_pos b.height; omega
      have hpow : 2 ^ a.height = 2 ^ ht := by omega
      have hah : a.height = ht := Nat.pow_right_injective (le_refl 2) hpow
      subst hF
      cases a with
      | mk ah asum =>
        simp only at hah
        subst hah
        exact ⟨asum, rfl⟩

theorem pushLoop_fst_eq_Push_head (t : Tree) (d : Bytes) (ci pi : Nat) (ps : List Bytes) :
    (pushLoop t.hash ci pi ⟨0, t.leafOf d⟩ t.head ps).1 = (t.Push d).head :=
  pushLoop_fst_indep _ _ _ _ _ _ _ _ _

/-- One leaf of a block: the merge loop of `T`, run on the part of its forest that belongs
to the block, gives the forest of `B` and the proof set linked to that of `B`. -/
theorem block_push_core (h : Hash) (ht off i rB : Nat) (G : List subTree) (P : List Bytes)
    (m : Nat) (T B : Tree) (d : Bytes) (hht : ht < 64) (hoff : 2 ^ ht ∣ off)
    (hbound : off + 2 ^ ht < 2 ^ 64) (hP : P = [] ∨ ht + 1 ≤ P.length)
    (hR : BlockRel h ht off i rB G P m T B) (hm : m + 1 ≤ 2 ^ ht) :
    ∃ psIn, ((i = off + rB ∧ psIn = (B.Push d).proofSet) ∨
        ((∀ j, j < 2 ^ ht → i ≠ off + j) ∧ psIn = P)) ∧
      pushLoop h (off + m) i ⟨0, leafSum h d⟩ B.head
        (if off + m = i then T.proofSet ++ [d] else T.proofSet) = ((B.Push d).head, psIn) := by
  have hBlt : ∀ e ∈ B.head, e.height < ht :=
    height_lt_of_leavesOf_lt _ _ (by rw [hR.binv.inv.count]; omega)
  have hleaf : B.leafOf d = leafSum h d := by simp [Tree.leafOf, hR.bct, hR.bhash]
  have hfst : ∀ ci pi ps, (pushLoop h ci pi ⟨0, leafSum h d⟩ B.head ps).1 = (B.Push d).head := by
    intro ci pi ps
    have := pushLoop_fst_eq_Push_head B d ci pi ps
    rw [hleaf, hR.bhash] at this
    exact this
  rcases hR.ps with ⟨hi, hps⟩ | ⟨hi, hps⟩
  · refine ⟨(B.Push d).proofSet, Or.inl ⟨hi, rfl⟩, ?_⟩
    rw [hi, pushLoop_shift h ht off m rB hht hoff (by omega) B.head _ _ hBlt, hps]
    have hps0 : (if off + m = off + rB then B.proofSet ++ [d] else B.proofSet) =
        (if B.currentIndex = B.proofIndex then B.proofSet ++ [d] else B.proofSet) := by
      rw [hR.binv.idx, hR.bpi]
      by_cases hmr : m = rB
      · rw [if_pos (by omega), if_pos hmr]
      · rw [if_neg (by omega), if_neg hmr]
    rw [hps0]
    have hB : B.Push d = { B with
        head := (pushLoop B.hash B.currentIndex B.proofIndex ⟨0, B.leafOf d⟩ B.head
          (if B.currentIndex = B.proofIndex then B.proofSet ++ [d] else B.proofSet)).1,
        proofSet := (pushLoop B.hash B.currentIndex B.proofIndex ⟨0, B.leafOf d⟩ B.head
          (if B.currentIndex = B.proofIndex then B.proofSet ++ [d] else B.proofSet)).2,
        currentIndex := add64 B.currentIndex 1 } := rfl
    rw [hB, hleaf, hR.bhash, hR.binv.idx, hR.bpi]
  · refine ⟨P, Or.inr ⟨hi, rfl⟩, ?_⟩
    have hne : ¬ (off + m = i) := fun he => hi m (by omega) he.symm
    rw [if_neg hne, hps]
    apply Prod.ext
    · exact hfst _ _ _
    · apply pushLoop_snd_same
      intro e he
      have := hBlt e he
      rcases hP with h0 | h1
      · rw [h0, List.length_nil]; omega
      · omega

theorem Tree_leafOf_flat (t : Tree) (d : Bytes) (hc : t.cachedTree = false) :
    t.leafOf d = leafSum t.hash d := by simp [Tree.leafOf, hc]

theorem Push_eq (t : Tree) (d : Bytes) :
    t.Push d = { t with
      head := (pushLoop t.hash t.currentIndex t.proofIndex ⟨0, t.leafOf d⟩ t.head
        (if t.currentIndex = t.proofIndex then t.proofSet ++ [d] else t.proofSet)).1,
      proofSet := (pushLoop t.hash t.currentIndex t.proofIndex ⟨0, t.leafOf d⟩ t.head
        (if t.currentIndex = t.proofIndex then t.proofSet ++ [d] else t.proofSet)).2,
      currentIndex := add64 t.currentIndex 1 } := rfl

theorem length_cases (F : List subTree) (hne : F ≠ []) : (∃ x, F = [x]) ∨ 2 ≤ F.length := by
  cases F with
  | nil => exact absurd rfl hne
  | cons a F =>
    cases F with
    | nil => exact Or.inl ⟨a, rfl⟩
    | cons b F => right; simp

/-- A leaf of a block that is not its last: the link between the two trees is kept. -/
theorem block_push_step (h : Hash) (ht off i rB : Nat) (G : List subTree) (P : List Bytes)
    (m : Nat) (T B : Tree) (d : Bytes) (hht : ht < 64) (hoff : 2 ^ ht ∣ off)
    (hbound : off + 2 ^ ht < 2 ^ 64) (hP : P = [] ∨ ht + 1 ≤ P.length)
    (hG : ∀ e ∈ G, ht ≤ e.height)
    (hR : BlockRel h ht off i rB G P m T B) (hm : m + 1 < 2 ^ ht) :
    BlockRel h ht off i rB G P (m + 1) (T.Push d) (B.Push d) := by
  obtain ⟨psIn, hlink, hcore⟩ :=
    block_push_core h ht off i rB G P m T B d hht hoff hbound hP hR (by omega)
  have hBI : TreeInv (B.Push d) (m + 1) := Push_TreeInv B m d hR.binv (by omega)
  have hloop : pushLoop h (off + m) i ⟨0, leafSum h d⟩ (B.head ++ G)
      (if off + m = i then T.proofSet ++ [d] else T.proofSet) =
        ((B.Push d).head ++ G, psIn) := by
    have hfst := congrArg Prod.fst hcore
    have hsnd := congrArg Prod.snd hcore
    simp only at hfst hsnd
    rcases length_cases _ (Push_head_ne_nil B d) with ⟨x, hx⟩ | h2
    · rw [pushLoop_append_single h _ _ G B.head _ x _ (by rw [hfst, hx]), hsnd, hx]
      have hxlt : x.height < ht := by
        apply height_lt_of_leavesOf_lt (B.Push d).head ht
          (by rw [hBI.inv.count]; exact hm) x
        rw [hx]; exact List.mem_singleton.2 rfl
      rw [pushLoop_stop h _ _ x G psIn (fun e he => by have := hG e he; omega)]
      rfl
    · rw [pushLoop_append_many h _ _ G B.head _ _ (by rw [hfst]; exact h2), hfst, hsnd]
  have hT : T.Push d = { T with
      head := (B.Push d).head ++ G,
      proofSet := psIn,
      currentIndex := off + m + 1 } := by
    rw [Push_eq, Tree_leafOf_flat T d hR.tct, hR.thash, hR.tidx, hR.tpi, hR.head, hloop,
      add64_of_lt (by omega)]
  rw [hT]
  refine ⟨rfl, rfl, hR.thash, hR.bhash, hR.tct, hR.bct, hR.tpi, hR.bpi, hBI, ?_⟩
  rcases hlink with ⟨h1, h2⟩ | ⟨h1, h2⟩
  · exact Or.inl ⟨h1, h2⟩
  · exact Or.inr ⟨h1, h2⟩

/-- The last leaf of a block: the block has become one subtree of height `ht`, which the
merge loop then carries into the forest that was there before the block. -/
theorem block_push_last (h : Hash) (ht off i rB : Nat) (G : List subTree) (P : List Bytes)
    (m : Nat) (T B : Tree) (d : Bytes) (hht : ht < 64) (hoff : 2 ^ ht ∣ off)
    (hbound : off + 2 ^ ht < 2 ^ 64) (hP : P = [] ∨ ht + 1 ≤ P.length)
    (hR : BlockRel h ht off i rB G P m T B) (hm : m + 1 = 2 ^ ht) :
    ∃ R psIn, (B.Push d).head = [⟨ht, R⟩] ∧
      ((i = off + rB ∧ psIn = (B.Push d).proofSet) ∨
        ((∀ j, j < 2 ^ ht → i ≠ off + j) ∧ psIn = P)) ∧
      T.Push d = { T with
        head := (pushLoop h (off + 2 ^ ht - 1) i ⟨ht, R⟩ G psIn).1,
        proofSet := (pushLoop h (off + 2 ^ ht - 1) i ⟨ht, R⟩ G psIn).2,
        currentIndex := off + 2 ^ ht } := by
  obtain ⟨psIn, hlink, hcore⟩ :=
    block_push_core h ht off i rB G P m T B d hht hoff hbound hP hR (by omega)
  have hBI : TreeInv (B.Push d) (m + 1) := Push_TreeInv B m d hR.binv (by omega)
  obtain ⟨R, hR1⟩ := singleton_of_leavesOf_eq (B.Push d).head ht hBI.inv.inc
    (by rw [hBI.inv.count]; exact hm)
  refine ⟨R, psIn, hR1, hlink, ?_⟩
  have hfst := congrArg Prod.fst hcore
  have hsnd := congrArg Prod.snd hcore
  simp only at hfst hsnd
  have hloop : pushLoop h (off + m) i ⟨0, leafSum h d⟩ (B.head ++ G)
      (if off + m = i then T.proofSet ++ [d] else T.proofSet) =
        pushLoop h (off + m) i ⟨ht, R⟩ G psIn := by
    rw [pushLoop_append_single h _ _ G B.head _ ⟨ht, R⟩ _ (by rw [hfst, hR1]), hsnd]
  have hidx : off + 2 ^ ht - 1 = off + m := by omega
  rw [Push_eq, Tree_leafOf_flat T d hR.tct, hR.thash, hR.tidx, hR.tpi, hR.head, hloop,
    add64_of_lt (by omega), hidx]
  have : off + m + 1 = off + 2 ^ ht := by omega
  rw [this]

/-- A whole block of `2^ht` leaves pushed onto a forest `G` of subtrees of height `ht` or
more: the effect is that of pushing one subtree of height `ht`, whose digest is the root of
the block, with the proof set the block has built (target inside) or the one that was there
(target outside). -/
theorem block_pushAll (h : Hash) (ht off i rB : Nat) (G : List subTree) (P : List Bytes)
    (hht : ht < 64) (hoff : 2 ^ ht ∣ off) (hbound : off + 2 ^ ht < 2 ^ 64)
    (hP : P = [] ∨ ht + 1 ≤ P.length) (hG : ∀ e ∈ G, ht ≤ e.height) :
    ∀ (ds : List Bytes) (m : Nat) (T B : Tree), BlockRel h ht off i rB G P m T B →
      m + ds.length = 2 ^ ht → ds ≠ [] →
      ∃ R psIn, (B.pushAll ds).head = [⟨ht, R⟩] ∧
        ((i = off + rB ∧ psIn = (B.pushAll ds).proofSet) ∨
          ((∀ j, j < 2 ^ ht → i ≠ off + j) ∧ psIn = P)) ∧
        (T.pushAll ds).head = (pushLoop h (off + 2 ^ ht - 1) i ⟨ht, R⟩ G psIn).1 ∧
        (T.pushAll ds).proofSet = (pushLoop h (off + 2 ^ ht - 1) i ⟨ht, R⟩ G psIn).2 ∧
        (T.pushAll ds).currentIndex = off + 2 ^ ht := by
  intro ds
  induction ds with
  | nil => intro m T B _ _ hne; exact absurd rfl hne
  | cons d ds ih =>
    intro m T B hR hlen _
    simp only [List.length_cons] at hlen
    cases ds with
    | nil =>
      simp only [List.length_nil] at hlen
      obtain ⟨R, psIn, h1, h2, h3⟩ :=
        block_push_last h ht off i rB G P m T B d hht hoff hbound hP hR (by omega)
      refine ⟨R, psIn, h1, h2, ?_, ?_, ?_⟩
      · show (T.Push d).head = _
        rw [h3]
      · show (T.Push d).proofSet = _
        rw [h3]
      · show (T.Push d).currentIndex = _
        rw [h3]
    | cons d1 ds =>
      simp only [List.length_cons] at hlen
      have hstep := block_push_step h ht off i rB G P m T B d hht hoff hbound hP hG hR
        (by omega)
      exact ih (m + 1) (T.Push d) (B.Push d) hstep (by simp only [List.length_cons]; omega)
        (List.cons_ne_nil _ _)

/-! ## C2: a forest over cached nodes, seen over raw leaves -/

theorem join_lift (h : Hash) (ht : Nat) (a b : subTree) :
    joinSubTrees h (liftTree ht a) (liftTree ht b) = liftTree ht (joinSubTrees h a b) := by
  simp only [joinSubTrees, liftTree, subTree.mk.injEq, and_true]
  omega

theorem liftTree_height_eq (ht : Nat) (a b : subTree) :
    ((liftTree ht a).height = (liftTree ht b).height) ↔ a.height = b.height := by
  simp only [liftTree]
  omega

theorem pushLoop_fst_lift (h : Hash) (ht ci pi ci1 pi1 : Nat) :
    ∀ (G : List subTree) (cur : subTree) (ps ps1 : List Bytes),
      (pushLoop h ci pi (liftTree ht cur) (G.map (liftTree ht)) ps).1 =
        (pushLoop h ci1 pi1 cur G ps1).1.map (liftTree ht) := by
  intro G
  induction G with
  | nil => intro cur ps ps1; rfl
  | cons nxt G ih =>
    intro cur ps ps1
    by_cases hh : cur.height = nxt.height
    · rw [List.map_cons, pushLoop_cons_eq h _ _ _ _ _ _ ((liftTree_height_eq ht cur nxt).2 hh),
        pushLoop_cons_eq h _ _ _ _ _ _ hh, join_lift]
      exact ih _ _ _
    · rw [List.map_cons,
        pushLoop_cons_ne h _ _ _ _ _ _ (fun hc => hh ((liftTree_height_eq ht cur nxt).1 hc)),
        pushLoop_cons_ne h _ _ _ _ _ _ hh]
      rfl

/-- The midpoint of a merge over raw leaves is `2^ht` times the midpoint of the same
merge over cached nodes. -/
theorem mid_lift (ht a c : Nat) (ha : a + ht < 64) (hc : c * 2 ^ ht + 2 ^ ht < 2 ^ 64) :
    mul64 ((c * 2 ^ ht + 2 ^ ht - 1) / shl64 1 (a + ht)) (shl64 1 (a + ht)) =
      mul64 (c / shl64 1 a) (shl64 1 a) * 2 ^ ht := by
  have hH := two_pow_pos ht
  have hA := two_pow_pos a
  have hcH : c ≤ c * 2 ^ ht := Nat.le_mul_of_pos_right c hH
  rw [shl64_one_lt ha, shl64_one_lt (by omega)]
  have hle := roundDown_le c (2 ^ a)
  have hle2 : c / 2 ^ a * 2 ^ a * 2 ^ ht ≤ c * 2 ^ ht := Nat.mul_le_mul_right _ hle
  have hdiv : (c * 2 ^ ht + 2 ^ ht - 1) / 2 ^ ht = c :=
    Nat.div_eq_of_lt_le (by omega) (by rw [Nat.succ_mul]; omega)
  have hpow : 2 ^ (a + ht) = 2 ^ ht * 2 ^ a := by rw [Nat.pow_add, Nat.mul_comm]
  have hq : (c * 2 ^ ht + 2 ^ ht - 1) / 2 ^ (a + ht) = c / 2 ^ a := by
    rw [hpow, ← Nat.div_div_eq_div_mul, hdiv]
  have hprod : c / 2 ^ a * 2 ^ (a + ht) = c / 2 ^ a * 2 ^ a * 2 ^ ht := by
    rw [Nat.pow_add, Nat.mul_assoc]
  rw [hq, mul64_of_lt (by rw [hprod]; omega), mul64_of_lt (by omega), hprod]

theorem pushLoop_snd_lift (h : Hash) (ht c i : Nat) (intra : List Bytes) (p : Bytes)
    (hintra : intra.length = ht + 1) (hc : c * 2 ^ ht + 2 ^ ht < 2 ^ 64) :
    ∀ (G : List subTree) (cur : subTree) (tail : List Bytes),
      (∀ e ∈ G, e.height + ht < 64) →
      ∃ tail1, (pushLoop h c (i / 2 ^ ht) cur G (p :: tail)).2 = p :: tail1 ∧
        (pushLoop h (c * 2 ^ ht + 2 ^ ht - 1) i (liftTree ht cur) (G.map (liftTree ht))
          (intra ++ tail)).2 = intra ++ tail1 := by
  intro G
  induction G with
  | nil => intro cur tail _; exact ⟨tail, rfl, rfl⟩
  | cons nxt G ih =>
    intro cur tail hG
    by_cases hh : cur.height = nxt.height
    · rw [List.map_cons, pushLoop_cons_eq h _ _ _ _ _ _ ((liftTree_height_eq ht cur nxt).2 hh),
        pushLoop_cons_eq h _ _ _ _ _ _ hh, join_lift]
      have hG1 : ∀ e ∈ G, e.height + ht < 64 := fun e he => hG e (List.mem_cons_of_mem _ he)
      have ha : cur.height + ht < 64 := by rw [hh]; exact hG nxt (List.mem_cons_self _ _)
      by_cases hcond : (cur.height : Int) = ((p :: tail).length : Int) - 1
      · have hcondT : ((liftTree ht cur).height : Int) = ((intra ++ tail).length : Int) - 1 := by
          simp only [liftTree, List.length_append, List.length_cons, hintra] at hcond ⊢
          omega
        rw [if_pos hcond, if_pos hcondT]
        have hmid := mid_lift ht cur.height c ha hc
        have hlift : (liftTree ht cur).height = cur.height + ht := rfl
        rw [hlift, hmid]
        by_cases hlt : i / 2 ^ ht < mul64 (c / shl64 1 cur.height) (shl64 1 cur.height)
        · rw [if_pos hlt, if_pos ((Nat.div_lt_iff_lt_mul (two_pow_pos ht)).1 hlt)]
          obtain ⟨t1, h1, h2⟩ := ih (joinSubTrees h nxt cur) (tail ++ [cur.sum]) hG1
          refine ⟨t1, h1, ?_⟩
          rw [List.append_assoc]
          exact h2
        · rw [if_neg hlt, if_neg (fun hc2 => hlt ((Nat.div_lt_iff_lt_mul (two_pow_pos ht)).2 hc2))]
          obtain ⟨t1, h1, h2⟩ := ih (joinSubTrees h nxt cur) (tail ++ [nxt.sum]) hG1
          refine ⟨t1, h1, ?_⟩
          rw [List.append_assoc]
          exact h2
      · have hcondT : ¬ (((liftTree ht cur).height : Int) = ((intra ++ tail).length : Int) - 1) := by
          simp only [liftTree, List.length_append, List.length_cons, hintra] at hcond ⊢
          omega
        rw [if_neg hcond, if_neg hcondT]
        exact ih _ _ hG1
    · rw [List.map_cons,
        pushLoop_cons_ne h _ _ _ _ _ _ (fun hc => hh ((liftTree_height_eq ht cur nxt).1 hc)),
        pushLoop_cons_ne h _ _ _ _ _ _ hh]
      exact ⟨tail, rfl, rfl⟩

theorem rootLoop_lift (h : Hash) (ht : Nat) :
    ∀ (L : List subTree) (cur : subTree),
      rootLoop h (liftTree ht cur) (L.map (liftTree ht)) = liftTree ht (rootLoop h cur L) := by
  intro L
  induction L with
  | nil => intro cur; rfl
  | cons a L ih =>
    intro cur
    simp only [List.map_cons, rootLoop]
    rw [join_lift]
    exact ih _

theorem proveLoop_lift (h : Hash) (ht len : Nat) :
    ∀ (L : List subTree) (cur : subTree),
      proveLoop h (len + ht) (liftTree ht cur) (L.map (liftTree ht)) =
        (liftTree ht (proveLoop h len cur L).1, (proveLoop h len cur L).2.map (liftTree ht)) := by
  intro L
  induction L with
  | nil => intro cur; rfl
  | cons a L ih =>
    intro cur
    simp only [List.map_cons, proveLoop]
    by_cases hlt : (a.height : Int) < (len : Int) - 1
    · have hltT : ((liftTree ht a).height : Int) < ((len + ht : Nat) : Int) - 1 := by
        simp only [liftTree]; omega
      rw [if_pos hlt, if_pos hltT, join_lift]
      exact ih _
    · have hltT : ¬ (((liftTree ht a).height : Int) < ((len + ht : Nat) : Int) - 1) := by
        simp only [liftTree]; omega
      rw [if_neg hlt, if_neg hltT]
      rfl

theorem Prove_merkleRoot (t : Tree) : t.Prove.merkleRoot = t.Root := by
  unfold Tree.Prove
  cases hd : t.head with
  | nil => rfl
  | cons a l => simp only []; split <;> rfl

theorem Prove_proofIndex (t : Tree) : t.Prove.proofIndex = t.proofIndex := by
  unfold Tree.Prove
  cases hd : t.head with
  | nil => rfl
  | cons a l => simp only []; split <;> rfl

theorem Prove_numLeaves (t : Tree) : t.Prove.numLeaves = t.currentIndex := by
  unfold Tree.Prove
  cases hd : t.head with
  | nil => rfl
  | cons a l => simp only []; split <;> rfl

theorem Prove_proofSet_single (t : Tree) (x : subTree) (hx : t.head = [x]) :
    t.Prove.proofSet = t.proofSet := by
  simp only [Tree.Prove, hx, proveLoop]
  by_cases h0 : t.proofSet.length = 0
  · rw [if_pos h0]
    exact (List.length_eq_zero.1 h0).symm
  · rw [if_neg h0]

theorem map_sum_lift (ht : Nat) (L : List subTree) :
    (L.map (liftTree ht)).map subTree.sum = L.map subTree.sum := by
  induction L with
  | nil => rfl
  | cons a L ih => simp only [List.map_cons, ih]; rfl

/-- On the flat tree `Prove` gives the path inside the block followed by the path of the
inner tree of the cached tree without its first entry, and the same root. -/
theorem Prove_lift (ht : Nat) (intra : List Bytes) (p : Bytes) (tail : List Bytes) (T C : Tree)
    (hintra : intra.length = ht + 1) (hhead : T.head = C.head.map (liftTree ht))
    (hhash : T.hash = C.hash) (hne : C.head ≠ []) (hC : C.proofSet = p :: tail)
    (hT : T.proofSet = intra ++ tail) :
    T.Prove.merkleRoot = C.Prove.merkleRoot ∧ 1 ≤ C.Prove.proofSet.length ∧
      T.Prove.proofSet = intra ++ C.Prove.proofSet.tail := by
  cases hd : C.head with
  | nil => exact absurd hd hne
  | cons a L =>
    rw [hd, List.map_cons] at hhead
    refine ⟨?_, ?_, ?_⟩
    · rw [Prove_merkleRoot, Prove_merkleRoot]
      simp only [Tree.Root, hhead, hd, hhash, rootLoop_lift]
      rfl
    · simp only [Tree.Prove, hd, hC, List.length_cons]
      rw [if_neg (by omega)]
      split <;> [skip; split] <;> simp
    · have hlenT : T.proofSet.length = C.proofSet.length + ht := by
        rw [hT, hC, List.length_append, List.length_cons, hintra]; omega
      have hCne : ¬ (C.proofSet.length = 0) := by rw [hC, List.length_cons]; omega
      have hTne : ¬ (T.proofSet.length = 0) := by omega
      simp only [Tree.Prove, hhead, hd, if_neg hCne, if_neg hTne]
      rw [hlenT, hhash, proveLoop_lift]
      simp only []
      cases hr : (proveLoop C.hash C.proofSet.length a L).2 with
      | nil =>
        simp only [List.map_nil]
        rw [hT, hC]
        rfl
      | cons nxt rest1 =>
        simp only [List.map_cons]
        by_cases hcond : (nxt.height : Int) = (C.proofSet.length : Int) - 1
        · have hcondT : ((liftTree ht nxt).height : Int) =
              ((C.proofSet.length + ht : Nat) : Int) - 1 := by
            simp only [liftTree]; omega
          rw [if_pos hcond, if_pos hcondT, map_sum_lift, hT, hC]
          simp [liftTree]
        · have hcondT : ¬ (((liftTree ht nxt).height : Int) =
              ((C.proofSet.length + ht : Nat) : Int) - 1) := by
            simp only [liftTree]; omega
          rw [if_neg hcond, if_neg hcondT, map_sum_lift, hT, hC]
          simp [liftTree]

/-! ## C2: one block into the flat tree, its root into the cached tree -/

theorem div_eq_of_block (c H j : Nat) (hj : j < H) : (c * H + j) / H = c :=
  Nat.div_eq_of_lt_le (by omega) (by rw [Nat.succ_mul]; omega)

theorem CachedRel_step (h : Hash) (ht i : Nat) (intra : List Bytes) (c : Nat) (T C : Tree)
    (b : List Bytes) (hintra : intra.length = ht + 1) (hR : CachedRel h ht i intra c T C)
    (hb : b.length = 2 ^ ht) (hq : c = i / 2 ^ ht → blockProof h (i % 2 ^ ht) b = intra)
    (hsz : (c + 1) * 2 ^ ht < 2 ^ 63) :
    CachedRel h ht i intra (c + 1) (T.pushAll b) (C.Push (blockRoot h b)) := by
  have hH := two_pow_pos ht
  have hsz1 : c * 2 ^ ht + 2 ^ ht < 2 ^ 63 := by rw [Nat.succ_mul] at hsz; exact hsz
  have hht : ht < 64 := by
    have : 2 ^ ht < 2 ^ 64 := by omega
    exact lt_of_two_pow_lt this
  have hG : ∀ e ∈ T.head, ht ≤ e.height := by
    intro e he
    rw [hR.head] at he
    obtain ⟨e0, _, rfl⟩ := List.mem_map.1 he
    simp [liftTree]
  have hP : T.proofSet = [] ∨ ht + 1 ≤ T.proofSet.length := by
    by_cases hcq : c ≤ i / 2 ^ ht
    · exact Or.inl (hR.before hcq).2
    · obtain ⟨p, tail, _, hT⟩ := hR.after (by omega)
      right
      rw [hT, List.length_append, hintra]; omega
  have hmod := Nat.div_add_mod i (2 ^ ht)
  have hB0 : BlockRel h ht (c * 2 ^ ht) i (i % 2 ^ ht) T.head T.proofSet 0 T
      ((New h).SetIndex (i % 2 ^ ht)).tree := by
    refine ⟨rfl, hR.tidx, hR.thash, rfl, hR.tct, rfl, hR.tpi, rfl, TreeInv_init _ rfl rfl rfl, ?_⟩
    by_cases hcq : c = i / 2 ^ ht
    · left
      refine ⟨?_, (hR.before (by omega)).2⟩
      rw [hcq, Nat.mul_comm]
      exact hmod.symm
    · right
      refine ⟨?_, rfl⟩
      intro j hj hij
      apply hcq
      rw [hij, div_eq_of_block c (2 ^ ht) j hj]
  obtain ⟨R, psIn, hBhead, hlink, hThead, hTps, hTidx⟩ :=
    block_pushAll h ht (c * 2 ^ ht) i (i % 2 ^ ht) T.head T.proofSet hht
      (Nat.dvd_mul_left _ _) (by omega) hP hG b 0 T _ hB0 (by omega)
      (by intro hnil; rw [hnil] at hb; simp at hb; omega)
  have hroot : blockRoot h b = R := by
    have hheads := (pushAll_head_indep b (New h) ((New h).SetIndex (i % 2 ^ ht)).tree
      rfl rfl rfl).1
    simp only [blockRoot, Tree.Root, hheads, hBhead, rootLoop, Option.getD_some]
  have hCleaf : C.leafOf R = R := by simp [Tree.leafOf, hR.cct]
  have hlift0 : (⟨ht, R⟩ : subTree) = liftTree ht ⟨0, R⟩ := by simp [liftTree]
  have hCbound : ∀ e ∈ C.head, e.height + ht < 64 := by
    intro e he
    have hmem : liftTree ht e ∈ T.head := by rw [hR.head]; exact List.mem_map_of_mem _ he
    have h1 := two_pow_le_leavesOf T.head _ hmem
    rw [hR.tinv.inv.count] at h1
    have h2 : 2 ^ (e.height + ht) < 2 ^ 64 := by
      have : (liftTree ht e).height = e.height + ht := rfl
      rw [this] at h1
      omega
    exact lt_of_two_pow_lt h2
  have hfields := pushAll_fields b T
  have hinv := pushAll_TreeInv b T (c * 2 ^ ht) hR.tinv (by omega)
  rw [hb] at hinv
  have hidx1 : c * 2 ^ ht + 2 ^ ht = (c + 1) * 2 ^ ht := by rw [Nat.succ_mul]
  rw [hroot, Push_eq, hCleaf, hR.chash, hR.cidx, hR.cpi]
  have hcle : c ≤ c * 2 ^ ht := Nat.le_mul_of_pos_right c hH
  refine ⟨?_, by rw [hTidx, hidx1], by simp only; rw [add64_of_lt (by omega)],
    by rw [hfields.1, hR.thash], rfl, by rw [hfields.2.2, hR.tct], hR.cct,
    by rw [hfields.2.1, hR.tpi], rfl, ?_, ?_, by rw [← hidx1]; exact hinv⟩
  · rw [hThead, hR.head, hlift0]
    exact pushLoop_fst_lift h ht _ _ _ _ C.head _ _ _
  · intro hle
    have hcq : c < i / 2 ^ ht := by omega
    obtain ⟨hC0, hT0⟩ := hR.before (by omega)
    have hpsIn : psIn = [] := by
      rcases hlink with ⟨hi, _⟩ | ⟨_, hp⟩
      · exfalso
        have := div_eq_of_block c (2 ^ ht) (i % 2 ^ ht) (Nat.mod_lt _ hH)
        rw [← hi] at this
        omega
      · rw [hp, hT0]
    simp only
    rw [hTps, hpsIn, hC0, if_neg (by omega), pushLoop_snd_nil, pushLoop_snd_nil]
    exact ⟨rfl, rfl⟩
  · intro hlt
    simp only
    rw [hTps, hR.head, hlift0]
    by_cases hcq : c = i / 2 ^ ht
    · obtain ⟨hC0, hT0⟩ := hR.before (by omega)
      have hpsIn : psIn = intra := by
        rcases hlink with ⟨_, hp⟩ | ⟨hne, _⟩
        · rw [hp, ← hq hcq, blockProof, Prove_proofSet_single _ _ hBhead]
        · exfalso
          exact hne (i % 2 ^ ht) (Nat.mod_lt _ hH) (by rw [hcq, Nat.mul_comm]; exact hmod.symm)
      rw [hpsIn, hC0, if_pos hcq, List.nil_append]
      obtain ⟨t1, h1, h2⟩ := pushLoop_snd_lift h ht c i intra R hintra (by omega) C.head
        ⟨0, R⟩ [] hCbound
      rw [List.append_nil] at h2
      exact ⟨R, t1, h1, h2⟩
    · obtain ⟨p, tail, hC1, hT1⟩ := hR.after (by omega)
      have hpsIn : psIn = intra ++ tail := by
        rcases hlink with ⟨hi, _⟩ | ⟨_, hp⟩
        · exfalso
          have := div_eq_of_block c (2 ^ ht) (i % 2 ^ ht) (Nat.mod_lt _ hH)
          rw [← hi] at this
          omega
        · rw [hp, hT1]
      rw [hpsIn, hC1, if_neg hcq]
      obtain ⟨t1, h1, h2⟩ := pushLoop_snd_lift h ht c i intra p hintra (by omega) C.head
        ⟨0, R⟩ tail hCbound
      exact ⟨p, t1, h1, h2⟩

/-! ## C2: all the blocks, and the two proofs -/

theorem blocksOf_spec (size : Nat) :
    ∀ (count : Nat) (segments : List Bytes), segments.length = count * size →
      (blocksOf size count segments).length = count ∧
      (∀ b ∈ blocksOf size count segments, b.length = size) ∧
      (blocksOf size count segments).flatten = segments := by
  intro count
  induction count with
  | zero =>
    intro segments hlen
    rw [Nat.zero_mul] at hlen
    rw [List.length_eq_zero.1 hlen]
    exact ⟨rfl, fun b hb => by simp [blocksOf] at hb, rfl⟩
  | succ count ih =>
    intro segments hlen
    rw [Nat.succ_mul] at hlen
    obtain ⟨h1, h2, h3⟩ := ih (segments.drop size) (by rw [List.length_drop]; omega)
    refine ⟨by simp only [blocksOf, List.length_cons, h1], ?_, ?_⟩
    · intro b hb
      simp only [blocksOf, List.mem_cons] at hb
      rcases hb with hb | hb
      · rw [hb, List.length_take]; omega
      · exact h2 b hb
    · simp only [blocksOf, List.flatten_cons, h3, List.take_append_drop]

theorem CachedRel_pushAll (h : Hash) (ht i : Nat) (intra : List Bytes)
    (hintra : intra.length = ht + 1) :
    ∀ (blocks : List (List Bytes)) (c : Nat) (T C : Tree), CachedRel h ht i intra c T C →
      (∀ b ∈ blocks, b.length = 2 ^ ht) → (c + blocks.length) * 2 ^ ht < 2 ^ 63 →
      (∀ j b, blocks[j]? = some b → c + j = i / 2 ^ ht → blockProof h (i % 2 ^ ht) b = intra) →
      CachedRel h ht i intra (c + blocks.length) (T.pushAll blocks.flatten)
        (C.pushAll (blocks.map (blockRoot h))) := by
  intro blocks
  induction blocks with
  | nil => intro c T C hR _ _ _; exact hR
  | cons b bs ih =>
    intro c T C hR hlen hsz hq
    simp only [List.length_cons] at hsz
    have hle : (c + 1) * 2 ^ ht ≤ (c + (bs.length + 1)) * 2 ^ ht :=
      Nat.mul_le_mul_right _ (by omega)
    have hstep := CachedRel_step h ht i intra c T C b hintra hR
      (hlen b (List.mem_cons_self _ _)) (fun hc => hq 0 b (by simp) (by omega)) (by omega)
    have := ih (c + 1) (T.pushAll b) (C.Push (blockRoot h b)) hstep
      (fun b1 hb1 => hlen b1 (List.mem_cons_of_mem _ hb1))
      (by have : c + 1 + bs.length = c + (bs.length + 1) := by omega
          rw [this]; exact hsz)
      (fun j b1 hj hc => hq (j + 1) b1 (by simpa using hj) (by omega))
    rw [List.flatten_cons, pushAll_append, List.map_cons, pushAll_cons, List.length_cons]
    have he : c + (bs.length + 1) = c + 1 + bs.length := by omega
    rw [he]
    exact this

theorem blockProof_length (h : Hash) (ht r : Nat) (b : List Bytes) (hb : b.length = 2 ^ ht)
    (hr : r < 2 ^ ht) (hlt : 2 ^ ht < 2 ^ 64) : (blockProof h r b).length = ht + 1 := by
  have hI := pushAll_TreeInv b ((New h).SetIndex r).tree 0 (TreeInv_init _ rfl rfl rfl)
    (by omega)
  rw [Nat.zero_add, hb] at hI
  obtain ⟨R, hR⟩ := singleton_of_leavesOf_eq _ ht hI.inv.inc hI.inv.count
  have hpi : (((New h).SetIndex r).tree.pushAll b).proofIndex = r :=
    (pushAll_fields b ((New h).SetIndex r).tree).2.1
  obtain ⟨newer, E, older, p0, sibs, hF, hps, hlen, _, _, _⟩ :=
    hI.inv.track (by rw [hpi]; exact hr)
  rw [blockProof, Prove_proofSet_single _ _ hR, hps, List.length_cons, hlen]
  rw [hR] at hF
  cases newer with
  | nil =>
    simp only [List.nil_append, List.cons.injEq] at hF
    rw [← hF.1]
  | cons a newer =>
    exfalso
    have := congrArg List.length hF
    simp at this

theorem CachedTree_pushAll_toTree (roots : List Bytes) :
    ∀ (ct : CachedTree), (ct.pushAll roots).toTree = ct.toTree.pushAll roots ∧
      (ct.pushAll roots).cachedNodeHeight = ct.cachedNodeHeight ∧
      (ct.pushAll roots).trueProofIndex = ct.trueProofIndex := by
  induction roots with
  | nil => intro ct; exact ⟨rfl, rfl, rfl⟩
  | cons r rs ih => intro ct; exact ih (ct.Push r)

/-- C2: for every digest, node height `ht`, `M >= 1` blocks of `2^ht` segments each
(`M * 2^ht < 2^63`) and raw index `i < M * 2^ht`: the cached tree made by
`NewCachedTree(hash, ht)`, `SetIndex(i)` and `Push` of the `M` roots of the flat trees over
the blocks, asked to `Prove` with the path that a flat tree over the block holding `i`, with
`SetIndex(i mod 2^ht)`, returns, gives exactly the `(root, path, index, leafCount)` that
`Prove()` gives on one flat tree with `SetIndex(i)` over all the segments; the leaf count is
`M * 2^ht`, and `VerifyProof` accepts the result. -/
theorem CachedTree_Prove_eq_flat_Prove (h : Hash) (ht M i : Nat) (segments : List Bytes)
    (hM : 1 ≤ M) (hlen : segments.length = M * 2 ^ ht) (hi : i < M * 2 ^ ht)
    (hsz : M * 2 ^ ht < 2 ^ 63) :
    ∃ ct : CachedTree,
      (NewCachedTree h ht).SetIndex i = some { tree := ct, err := false } ∧
      (ct.pushAll ((blocksOf (2 ^ ht) M segments).map (blockRoot h))).Prove
          (blockProof h (i % 2 ^ ht) ((blocksOf (2 ^ ht) M segments).getD (i / 2 ^ ht) [])) =
        (((New h).SetIndex i).tree.pushAll segments).Prove ∧
      (((New h).SetIndex i).tree.pushAll segments).Prove.proofIndex = i ∧
      (((New h).SetIndex i).tree.pushAll segments).Prove.numLeaves = M * 2 ^ ht ∧
      VerifyProof h (((New h).SetIndex i).tree.pushAll segments).Prove.merkleRoot
        (((New h).SetIndex i).tree.pushAll segments).Prove.proofSet
        (((New h).SetIndex i).tree.pushAll segments).Prove.proofIndex
        (((New h).SetIndex i).tree.pushAll segments).Prove.numLeaves = some true := by
  have hH := two_pow_pos ht
  have hHle : 2 ^ ht ≤ M * 2 ^ ht := Nat.le_mul_of_pos_left _ (by omega)
  have hht : ht < 64 := lt_of_two_pow_lt (by omega)
  obtain ⟨hbl, hbsz, hbflat⟩ := blocksOf_spec (2 ^ ht) M segments hlen
  have hq : i / 2 ^ ht < M := (Nat.div_lt_iff_lt_mul hH).2 hi
  -- the block that holds the target, and the path inside it
  have hget : ∃ bq, (blocksOf (2 ^ ht) M segments)[i / 2 ^ ht]? = some bq := by
    rw [List.getElem?_eq_getElem (by rw [hbl]; exact hq)]
    exact ⟨_, rfl⟩
  obtain ⟨bq, hbq⟩ := hget
  have hgetD : (blocksOf (2 ^ ht) M segments).getD (i / 2 ^ ht) [] = bq := by
    rw [List.getD_eq_getElem?_getD, hbq]
    rfl
  have hbqmem : bq ∈ blocksOf (2 ^ ht) M segments := List.getElem?_mem hbq
  have hintra := blockProof_length h ht (i % 2 ^ ht) bq (hbsz bq hbqmem) (Nat.mod_lt _ hH)
    (by omega)
  rw [hgetD]
  -- the cached tree after SetIndex
  have hs : shl64 1 ht = 2 ^ ht := shl64_one_lt hht
  refine ⟨{ NewCachedTree h ht with
      trueProofIndex := i,
      toTree := { (NewCachedTree h ht).toTree with proofIndex := i / 2 ^ ht } }, ?_, ?_⟩
  · simp only [CachedTree.SetIndex, NewCachedTree, hs, Tree.SetIndex]
    rw [if_neg (by omega)]
  -- the two trees before the first block
  have hR0 : CachedRel h ht i (blockProof h (i % 2 ^ ht) bq) 0 ((New h).SetIndex i).tree
      { (NewCachedTree h ht).toTree with proofIndex := i / 2 ^ ht } := by
    refine ⟨rfl, by rw [Nat.zero_mul]; rfl, rfl, rfl, rfl, rfl, rfl, rfl, rfl,
      fun _ => ⟨rfl, rfl⟩, fun hc => absurd hc (Nat.not_lt_zero _), ?_⟩
    rw [Nat.zero_mul]
    exact TreeInv_init _ rfl rfl rfl
  have hR := CachedRel_pushAll h ht i _ hintra (blocksOf (2 ^ ht) M segments) 0 _ _ hR0 hbsz
    (by rw [hbl, Nat.zero_add]; exact hsz)
    (fun j b hj hc => by
      rw [Nat.zero_add] at hc
      rw [hc, hbq] at hj
      rw [Option.some.inj hj])
  rw [hbflat, hbl, Nat.zero_add] at hR
  obtain ⟨p, tail, hC, hT⟩ := hR.after hq
  have hCne : (Tree.pushAll { (NewCachedTree h ht).toTree with proofIndex := i / 2 ^ ht }
      ((blocksOf (2 ^ ht) M segments).map (blockRoot h))).head ≠ [] := by
    intro hnil
    have h1 := hR.head
    rw [hnil, List.map_nil] at h1
    have h2 := hR.tinv.inv.count
    rw [h1, leavesOf_nil] at h2
    omega
  obtain ⟨hroot, hpos, hpath⟩ := Prove_lift ht _ p tail _ _ hintra hR.head
    (by rw [hR.thash, hR.chash]) hCne hC hT
  have hv := VerifyProof_Prove_of_TreeInv _ _ hR.tinv hR.tct (by rw [hR.tpi]; exact hi) hsz
  rw [hR.thash, hR.tpi] at hv
  obtain ⟨hto, hcnh, htpi⟩ := CachedTree_pushAll_toTree
    ((blocksOf (2 ^ ht) M segments).map (blockRoot h))
    { NewCachedTree h ht with
      trueProofIndex := i,
      toTree := { (NewCachedTree h ht).toTree with proofIndex := i / 2 ^ ht } }
  refine ⟨?_, by rw [Prove_proofIndex, hR.tpi], by rw [Prove_numLeaves, hR.tidx], ?_⟩
  · simp only [CachedTree.Prove, hto, hcnh, htpi]
    rw [if_neg (Nat.not_lt.2 hpos), hR.cidx]
    have hnum : mul64 (shl64 1 (NewCachedTree h ht).cachedNodeHeight) M = M * 2 ^ ht := by
      show mul64 (shl64 1 ht) M = M * 2 ^ ht
      rw [hs, mul64_of_lt (by rw [Nat.mul_comm]; omega), Nat.mul_comm]
    rw [hnum, ← hroot, ← hpath]
    have heta : ∀ x : Proof, x = ⟨x.merkleRoot, x.proofSet, x.proofIndex, x.numLeaves⟩ :=
      fun x => rfl
    rw [heta (((New h).SetIndex i).tree.pushAll segments).Prove, Prove_proofIndex,
      Prove_numLeaves, hR.tpi, hR.tidx]
  · rw [Prove_proofIndex, Prove_numLeaves, hR.tpi, hR.tidx]
    exact hv

theorem CachedTree_Prove_eq_flat_Prove_witness :
    1 ≤ 3 ∧ ([[1], [2, 3], [4], [], [5, 6], [7]] : List Bytes).length = 3 * 2 ^ 1 ∧
    4 < 3 * 2 ^ 1 ∧ 3 * 2 ^ 1 < 2 ^ 63 ∧
    ∃ ct : CachedTree,
      (NewCachedTree demoHash 1).SetIndex 4 = some { tree := ct, err := false } ∧
      (ct.pushAll ((blocksOf (2 ^ 1) 3 [[1], [2, 3], [4], [], [5, 6], [7]]).map
          (blockRoot demoHash))).Prove
          (blockProof demoHash (4 % 2 ^ 1)
            ((blocksOf (2 ^ 1) 3 [[1], [2, 3], [4], [], [5, 6], [7]]).getD (4 / 2 ^ 1) [])) =
        (((New demoHash).SetIndex 4).tree.pushAll [[1], [2, 3], [4], [], [5, 6], [7]]).Prove ∧
      (((New demoHash).SetIndex 4).tree.pushAll
        [[1], [2, 3], [4], [], [5, 6], [7]]).Prove.proofIndex = 4 ∧
      (((New demoHash).SetIndex 4).tree.pushAll
        [[1], [2, 3], [4], [], [5, 6], [7]]).Prove.numLeaves = 3 * 2 ^ 1 ∧
      VerifyProof demoHash
        (((New demoHash).SetIndex 4).tree.pushAll
          [[1], [2, 3], [4], [], [5, 6], [7]]).Prove.merkleRoot
        (((New demoHash).SetIndex 4).tree.pushAll
          [[1], [2, 3], [4], [], [5, 6], [7]]).Prove.proofSet
        (((New demoHash).SetIndex 4).tree.pushAll
          [[1], [2, 3], [4], [], [5, 6], [7]]).Prove.proofIndex
        (((New demoHash).SetIndex 4).tree.pushAll
          [[1], [2, 3], [4], [], [5, 6], [7]]).Prove.numLeaves = some true :=
  ⟨by decide, by decide, by decide, by decide,
    CachedTree_Prove_eq_flat_Prove demoHash 1 3 4 [[1], [2, 3], [4], [], [5, 6], [7]]
      (by decide) (by decide) (by decide) (by decide)⟩

/-! ## C12: the forest is the binary representation of the leaf count -/

theorem Increasing_concat {F : List subTree} {b : subTree} (h : Increasing (F ++ [b])) :
    Increasing F ∧ ∀ e ∈ F, e.height < b.height := by
  unfold Increasing at h ⊢
  rw [List.pairwise_append] at h
  exact ⟨h.1, fun e he => h.2.2 e he b (List.mem_singleton.mpr rfl)⟩

theorem leavesOf_concat_lt (F : List subTree) (b : subTree) (h : Increasing (F ++ [b])) :
    leavesOf F < 2 ^ b.height := by
  obtain ⟨hinc, hlt⟩ := Increasing_concat h
  exact leavesOf_lt b.height F hinc hlt

/-- The heights of an increasing chain are the positions of the bits of its leaf count. -/
theorem testBit_leavesOf (F : List subTree) (hinc : Increasing F) (j : Nat) :
    (leavesOf F).testBit j = true ↔ ∃ e ∈ F, e.height = j := by
  induction F using List.reverseRecOn with
  | nil => simp [leavesOf_nil]
  | append_singleton F b ih =>
    obtain ⟨hincF, hlt⟩ := Increasing_concat hinc
    have hsmall := leavesOf_concat_lt F b hinc
    have hsum : leavesOf (F ++ [b]) = 2 ^ b.height + leavesOf F := by
      rw [leavesOf_append, leavesOf_cons, leavesOf_nil]; omega
    rw [hsum]
    rcases Nat.lt_trichotomy j b.height with hj | hj | hj
    · rw [Nat.testBit_two_pow_add_gt hj, ih hincF]
      constructor
      · rintro ⟨e, he, hej⟩; exact ⟨e, List.mem_append_left _ he, hej⟩
      · rintro ⟨e, he, hej⟩
        rcases List.mem_append.mp he with he | he
        · exact ⟨e, he, hej⟩
        · rw [List.mem_singleton] at he; subst he; omega
    · subst hj
      rw [Nat.testBit_two_pow_add_eq, Nat.testBit_lt_two_pow hsmall]
      exact ⟨fun _ => ⟨b, List.mem_append_right _ (List.mem_singleton.mpr rfl), rfl⟩,
        fun _ => rfl⟩
    · have hpow : 2 ^ b.height + 2 ^ b.height ≤ 2 ^ j := two_pow_le_of_lt hj
      rw [Nat.testBit_lt_two_pow (by omega)]
      constructor
      · intro hf; exact absurd hf (by simp)
      · rintro ⟨e, he, hej⟩
        rcases List.mem_append.mp he with he | he
        · have := hlt e he; omega
        · rw [List.mem_singleton] at he; subst he; omega

theorem heights_eq_bits (F : List subTree) (hinc : Increasing F) (hn : leavesOf F < 2 ^ 64) :
    F.map subTree.height = (List.range 64).filter (fun j => (leavesOf F).testBit j) := by
  have hs1 : (F.map subTree.height).Sorted (fun a b => a < b) := by
    unfold List.Sorted
    rw [List.pairwise_map]
    exact hinc
  have hs2 : ((List.range 64).filter (fun j => (leavesOf F).testBit j)).Sorted
      (fun a b => a < b) := List.Pairwise.filter _ (List.pairwise_lt_range 64)
  refine List.eq_of_perm_of_sorted ?_ hs1 hs2
  rw [List.perm_ext_iff_of_nodup hs1.nodup hs2.nodup]
  intro a
  rw [List.mem_filter, List.mem_range, List.mem_map, testBit_leavesOf F hinc a]
  constructor
  · rintro ⟨e, he, hea⟩
    refine ⟨?_, e, he, hea⟩
    have := two_pow_le_leavesOf F e he
    rw [hea] at this
    exact lt_of_two_pow_lt (by omega)
  · rintro ⟨_, e, he, hea⟩; exact ⟨e, he, hea⟩

/-- C12 (forest invariant).  After `n < 2^64` calls of `Push` on a new tree, for any hash and
any proof index, `currentIndex` is `n`, the heights of the chain from `head` strictly increase
from the most recently added entry to the oldest, a height is present exactly when the bit at
that position of `n` is 1, no height occurs twice, and the chain has `popcount n` entries. -/
theorem forest_is_binary_counter (h : Hash) (i : Nat) (segments : List Bytes)
    (hn : segments.length < 2 ^ 64) :
    let t := ((New h).SetIndex i).tree.pushAll segments
    t.currentIndex = segments.length ∧
    Increasing t.head ∧
    (∀ j, (∃ e ∈ t.head, e.height = j) ↔ segments.length.testBit j = true) ∧
    (t.head.map subTree.height).Nodup ∧
    t.head.length = popcount segments.length := by
  intro t
  have hI : TreeInv t (0 + segments.length) :=
    pushAll_TreeInv segments _ 0 (TreeInv_init _ rfl rfl rfl) (by omega)
  rw [Nat.zero_add] at hI
  have hinc := hI.inv.inc
  have hcount := hI.inv.count
  have hbits := heights_eq_bits t.head hinc (by rw [hcount]; exact hn)
  refine ⟨hI.idx, hinc, ?_, ?_, ?_⟩
  · intro j
    rw [← hcount]
    exact (testBit_leavesOf t.head hinc j).symm
  · have : (t.head.map subTree.height).Sorted (fun a b => a < b) := by
      unfold List.Sorted
      rw [List.pairwise_map]
      exact hinc
    exact this.nodup
  · have := congrArg List.length hbits
    rw [List.length_map, hcount] at this
    exact this

theorem forest_is_binary_counter_witness :
    (([[1], [2], [3], [4], [5]] : List Bytes).length < 2 ^ 64) ∧
    (let t := ((New demoHash).SetIndex 2).tree.pushAll [[1], [2], [3], [4], [5]]
     t.currentIndex = ([[1], [2], [3], [4], [5]] : List Bytes).length ∧
     Increasing t.head ∧
     (∀ j, (∃ e ∈ t.head, e.height = j) ↔
       ([[1], [2], [3], [4], [5]] : List Bytes).length.testBit j = true) ∧
     (t.head.map subTree.height).Nodup ∧
     t.head.length = popcount ([[1], [2], [3], [4], [5]] : List Bytes).length) :=
  ⟨by decide, forest_is_binary_counter demoHash 2 [[1], [2], [3], [4], [5]] (by decide)⟩

/-! ## C17: the size of the path of `Prove` -/

theorem pushLoop_snd_prefix (h : Hash) (ci pi : Nat) :
    ∀ (rest : List subTree) (head : subTree) (ps : List Bytes),
      ∃ ext, (pushLoop h ci pi head rest ps).2 = ps ++ ext := by
  intro rest
  induction rest with
  | nil => intro head ps; exact ⟨[], by simp [pushLoop]⟩
  | cons next rest ih =>
    intro head ps
    by_cases hh : head.height = next.height
    · rw [pushLoop_cons_eq h ci pi head next rest ps hh]
      by_cases hc : (head.height : Int) = (ps.length : Int) - 1
      · rw [if_pos hc]
        by_cases hm : pi < mul64 (ci / shl64 1 head.height) (shl64 1 head.height)
        · rw [if_pos hm]
          obtain ⟨ext, he⟩ := ih (joinSubTrees h next head) (ps ++ [head.sum])
          exact ⟨[head.sum] ++ ext, by rw [he, List.append_assoc]⟩
        · rw [if_neg hm]
          obtain ⟨ext, he⟩ := ih (joinSubTrees h next head) (ps ++ [next.sum])
          exact ⟨[next.sum] ++ ext, by rw [he, List.append_assoc]⟩
      · rw [if_neg hc]
        exact ih _ _
    · rw [pushLoop_cons_ne h ci pi head next rest ps hh]
      exact ⟨[], by simp⟩

theorem Push_proofSet_prefix (t : Tree) (d : Bytes) :
    ∃ ext, (t.Push d).proofSet = t.proofSet ++ ext := by
  show ∃ ext, (pushLoop t.hash t.currentIndex t.proofIndex _ t.head
    (if t.currentIndex = t.proofIndex then t.proofSet ++ [d] else t.proofSet)).2 = _
  by_cases hc : t.currentIndex = t.proofIndex
  · rw [if_pos hc]
    obtain ⟨ext, he⟩ := pushLoop_snd_prefix t.hash t.currentIndex t.proofIndex t.head
      ⟨0, if t.cachedTree then d else leafSum t.hash d⟩ (t.proofSet ++ [d])
    exact ⟨[d] ++ ext, by rw [he, List.append_assoc]⟩
  · rw [if_neg hc]
    exact pushLoop_snd_prefix _ _ _ _ _ _

theorem pushAll_proofSet_prefix (segments : List Bytes) :
    ∀ (t : Tree), ∃ ext, (t.pushAll segments).proofSet = t.proofSet ++ ext := by
  induction segments with
  | nil => intro t; exact ⟨[], by simp [Tree.pushAll]⟩
  | cons d ds ih =>
    intro t
    obtain ⟨e1, h1⟩ := Push_proofSet_prefix t d
    obtain ⟨e2, h2⟩ := ih (t.Push d)
    exact ⟨e1 ++ e2, by rw [pushAll_cons, h2, h1, List.append_assoc]⟩

theorem Push_proofSet_at_target (t : Tree) (d : Bytes) (hci : t.currentIndex = t.proofIndex)
    (hps : t.proofSet = []) : ∃ ext, (t.Push d).proofSet = d :: ext := by
  simp only [Tree.Push, if_pos hci, hps]
  obtain ⟨ext, he⟩ := pushLoop_snd_prefix t.hash t.currentIndex t.proofIndex t.head
    ⟨0, if t.cachedTree then d else leafSum t.hash d⟩ ([] ++ [d])
  exact ⟨ext, he⟩

/-- The proof set starts with the segment pushed at the target index. -/
theorem pushAll_proofSet_head (h : Hash) (k : Nat) (pre post : List Bytes) (d : Bytes)
    (hk : pre.length = k) (hn : k + 1 < 2 ^ 64) :
    ∃ ext, (((New h).SetIndex k).tree.pushAll (pre ++ d :: post)).proofSet = d :: ext := by
  have hI : TreeInv (((New h).SetIndex k).tree.pushAll pre) (0 + pre.length) :=
    pushAll_TreeInv pre _ 0 (TreeInv_init _ rfl rfl rfl) (by omega)
  rw [Nat.zero_add, hk] at hI
  have hpi : (((New h).SetIndex k).tree.pushAll pre).proofIndex = k :=
    (pushAll_fields pre _).2.1
  have hps : (((New h).SetIndex k).tree.pushAll pre).proofSet = [] :=
    hI.inv.empty (by rw [hpi])
  have hci := hI.idx
  obtain ⟨e1, h1⟩ := Push_proofSet_at_target (((New h).SetIndex k).tree.pushAll pre) d
    (by rw [hci, hpi]) hps
  obtain ⟨e2, h2⟩ := pushAll_proofSet_prefix post
    ((((New h).SetIndex k).tree.pushAll pre).Push d)
  refine ⟨e1 ++ e2, ?_⟩
  rw [pushAll_append, pushAll_cons, h2, h1]
  rfl

theorem two_pow_length_le (L : List subTree) :
    ∀ (lo : Nat), Increasing L → (∀ e ∈ L, lo < e.height) →
      2 ^ (lo + L.length) ≤ leavesOf L + 2 ^ lo := by
  induction L with
  | nil => intro lo _ _; simp [leavesOf_nil]
  | cons a L ih =>
    intro lo hinc hlo
    have h1 := ih a.height (Increasing_tail hinc) (Increasing_head_lt hinc)
    have h2 : lo + (a :: L).length ≤ a.height + L.length := by
      have := hlo a (List.mem_cons_self _ _)
      simp only [List.length_cons]; omega
    have h3 : 2 ^ (lo + (a :: L).length) ≤ 2 ^ (a.height + L.length) :=
      Nat.pow_le_pow_right (by decide) h2
    rw [leavesOf_cons]
    have := two_pow_pos lo
    omega

theorem le_clog_of_lt (x N : Nat) (hx : 2 ^ (x - 1) < N) : x ≤ Nat.clog 2 N := by
  by_contra hc
  have h1 : Nat.clog 2 N ≤ x - 1 := by omega
  have h2 := (Nat.le_pow_iff_clog_le (by decide : 1 < 2)).2 h1
  omega

/-- C17 (proof size).  For every hash, every sequence of `N` segments with `1 <= N < 2^64`
and every `k < N`, the path returned by `Prove()` after `SetIndex(k)` and the `N` pushes
has at least 1 and at most `1 + ceil(log2 N)` entries, and its first entry is the `k`-th
segment, the value `Push` staged for it. -/
theorem Prove_path_size (h : Hash) (segments : List Bytes) (k : Nat)
    (hk : k < segments.length) (hN : segments.length < 2 ^ 64) :
    let p := (((New h).SetIndex k).tree.pushAll segments).Prove.proofSet
    1 ≤ p.length ∧ p.length ≤ 1 + Nat.clog 2 segments.length ∧ p[0]? = segments[k]? := by
  intro p
  have hI : TreeInv (((New h).SetIndex k).tree.pushAll segments) (0 + segments.length) :=
    pushAll_TreeInv segments _ 0 (TreeInv_init _ rfl rfl rfl) (by omega)
  rw [Nat.zero_add] at hI
  have hpi : (((New h).SetIndex k).tree.pushAll segments).proofIndex = k :=
    (pushAll_fields segments _).2.1
  obtain ⟨newer, E, older, p0, sibs, hF, hps, hlen, hlo, hhi, hsum⟩ :=
    hI.inv.track (by rw [hpi]; exact hk)
  have hinc := hI.inv.inc
  have hcount := hI.inv.count
  have hpath := Prove_proofSet_of_Tracks _ newer older E hF hinc
    (by rw [hps, List.length_cons, hlen])
  have hsplit : segments = segments.take k ++ segments[k] :: segments.drop (k + 1) := by
    rw [← List.drop_eq_getElem_cons hk, List.take_append_drop]
  obtain ⟨ext, hhead⟩ := pushAll_proofSet_head h k (segments.take k) (segments.drop (k + 1))
    segments[k] (by rw [List.length_take]; omega) (by omega)
  rw [← hsplit] at hhead
  have hp0 : p0 = segments[k] := by
    rw [hps] at hhead
    exact (List.cons.inj hhead).1
  rw [hF] at hinc hcount
  obtain ⟨_, hold, _⟩ := Increasing_append_lt hinc
  have hincO : Increasing older := Increasing_tail (List.pairwise_append.1 hinc).2.1
  have hbound := two_pow_length_le older E.height hincO hold
  rw [leavesOf_append, leavesOf_cons] at hcount
  show 1 ≤ (((New h).SetIndex k).tree.pushAll segments).Prove.proofSet.length ∧
    (((New h).SetIndex k).tree.pushAll segments).Prove.proofSet.length ≤
      1 + Nat.clog 2 segments.length ∧
    (((New h).SetIndex k).tree.pushAll segments).Prove.proofSet[0]? = segments[k]?
  rw [hpath, hps]
  refine ⟨by simp, ?_, ?_⟩
  · cases newer with
    | nil =>
      simp only [List.length_append, List.length_cons, List.length_nil, List.length_map, hlen]
      rw [leavesOf_nil] at hcount
      have : E.height + older.length ≤ Nat.clog 2 segments.length := by
        rcases Nat.eq_zero_or_pos (E.height + older.length) with h0 | hpos
        · rw [h0]; exact Nat.zero_le _
        · apply le_clog_of_lt
          have h1 : 2 ^ (E.height + older.length - 1 + 1) =
            2 ^ (E.height + older.length - 1) + 2 ^ (E.height + older.length - 1) :=
            two_pow_succ _
          have h2 : E.height + older.length - 1 + 1 = E.height + older.length := by omega
          rw [h2] at h1
          have := two_pow_pos (E.height + older.length - 1)
          omega
      omega
    | cons hd nw =>
      simp only [List.length_append, List.length_cons, List.length_nil, List.length_map, hlen]
      have hpos : 0 < leavesOf (hd :: nw) := by
        rw [leavesOf_cons]
        have := two_pow_pos hd.height
        omega
      have : E.height + older.length + 1 ≤ Nat.clog 2 segments.length := by
        apply le_clog_of_lt
        have h2 : E.height + older.length + 1 - 1 = E.height + older.length := by omega
        rw [h2]
        omega
      omega
  · rw [hp0, List.getElem?_eq_getElem hk]
    simp

theorem Prove_path_size_witness :
    (2 < ([[1], [2], [3], [4], [5]] : List Bytes).length) ∧
    (([[1], [2], [3], [4], [5]] : List Bytes).length < 2 ^ 64) ∧
    (let p := (((New demoHash).SetIndex 2).tree.pushAll [[1], [2], [3], [4], [5]]).Prove.proofSet
     1 ≤ p.length ∧ p.length ≤ 1 + Nat.clog 2 ([[1], [2], [3], [4], [5]] : List Bytes).length ∧
       p[0]? = ([[1], [2], [3], [4], [5]] : List Bytes)[2]?) :=
  ⟨by decide, by decide,
    Prove_path_size demoHash [[1], [2], [3], [4], [5]] 2 (by decide) (by decide)⟩

/-! ## C13, C14: the sibling staged by a merge of `Push` -/

/-- Every state of `MergeState` is a state of the run of `Push`: the loop continued from it
ends with the chain and the proof set of `t.Push data`. -/
theorem MergeState_run (t : Tree) (data : Bytes) (head : subTree) (rest : List subTree)
    (ps : List Bytes) (hs : MergeState t data head rest ps) :
    pushLoop t.hash t.currentIndex t.proofIndex head rest ps =
      ((t.Push data).head, (t.Push data).proofSet) := by
  induction hs with
  | enter => rfl
  | merge head next rest ps _ hh ih =>
    rw [← ih, pushLoop_cons_eq _ _ _ head next rest ps hh]

theorem LoopInv_enter (t : Tree) (n : Nat) (data : Bytes) (hI : TreeInv t n) :
    LoopInv t.hash t.leafOf t.proofIndex n ⟨0, t.leafOf data⟩ t.head
      (if t.currentIndex = t.proofIndex then t.proofSet ++ [data] else t.proofSet) := by
  obtain ⟨hinv, hidx⟩ := hI
  rw [hidx]
  refine ⟨hinv.inc, fun e _ => Nat.zero_le _, ?_, ?_, ?_⟩
  · show 2 ^ 0 + leavesOf t.head = n + 1
    rw [hinv.count]; omega
  · intro hk
    by_cases hkn : n = t.proofIndex
    · rw [if_pos hkn, hinv.empty (by omega)]
      exact ⟨[], ⟨0, t.leafOf data⟩, t.head, data, [], rfl, rfl, rfl,
        by rw [hinv.count]; omega, by rw [hinv.count]; show t.proofIndex < n + 1; omega, rfl⟩
    · rw [if_neg hkn]
      obtain ⟨newer, E, older, p0, sibs, hF, hps, hlen, hlo, hhi, hsum⟩ :=
        hinv.track (by omega)
      exact ⟨⟨0, t.leafOf data⟩ :: newer, E, older, p0, sibs, by rw [hF]; rfl, hps, hlen,
        hlo, hhi, hsum⟩
  · intro hk
    rw [if_neg (by omega)]
    exact hinv.empty (by omega)

theorem MergeState_LoopInv (t : Tree) (n : Nat) (data : Bytes) (hI : TreeInv t n)
    (hn : n + 1 < 2 ^ 64) (head : subTree) (rest : List subTree) (ps : List Bytes)
    (hs : MergeState t data head rest ps) :
    LoopInv t.hash t.leafOf t.proofIndex n head rest ps := by
  induction hs with
  | enter => exact LoopInv_enter t n data hI
  | merge head next rest ps _ hh ih =>
    have := LoopInv_merge t.hash t.leafOf t.proofIndex n hn head next rest ps ih hh
    rw [hI.idx]
    exact this

/-- In a merge of two subtrees of height `c = len(proofSet) - 1` while leaf `n` is pushed,
the midpoint of `Push` is the first leaf of the newer subtree, the two subtrees hold the
leaves `[mid - 2^c, mid + 2^c)`, the last of them being leaf `n`, and the target lies in
that range. -/
theorem merge_ranges (h : Hash) (lf : Bytes → Bytes) (k n : Nat) (hn : n + 1 < 2 ^ 64)
    (cur nxt : subTree) (rest : List subTree) (ps : List Bytes)
    (hI : LoopInv h lf k n cur (nxt :: rest) ps) (hh : cur.height = nxt.height)
    (hc : (cur.height : Int) = (ps.length : Int) - 1) :
    mul64 (n / shl64 1 cur.height) (shl64 1 cur.height) = leavesOf rest + 2 ^ cur.height ∧
      leavesOf rest + 2 ^ cur.height + 2 ^ cur.height = n + 1 ∧
      leavesOf rest ≤ k ∧ k < leavesOf rest + 2 ^ cur.height + 2 ^ cur.height ∧
      2 ^ (cur.height + 1) ∣ leavesOf rest := by
  have hcount : 2 ^ cur.height + (2 ^ cur.height + leavesOf rest) = n + 1 := by
    have := hI.count
    rw [leavesOf_cons, ← hh] at this
    exact this
  have hrest : ∀ e ∈ rest, cur.height + 1 ≤ e.height := by
    intro e he
    have := Increasing_head_lt hI.inc e he
    omega
  have hd1 : 2 ^ (cur.height + 1) ∣ leavesOf rest := dvd_leavesOf _ rest hrest
  have hd0 : 2 ^ cur.height ∣ leavesOf rest :=
    dvd_leavesOf _ rest (fun e he => by have := hrest e he; omega)
  have hmid := push_mid n cur.height (leavesOf rest) hn hcount hd0
  have hkn : k ≤ n := by
    by_contra hcon
    have := hI.empty (by omega)
    rw [this, List.length_nil] at hc
    omega
  obtain ⟨newer, E, older, p0, sibs, hF, hps, hlen, hlo, hhi, hsum⟩ := hI.track hkn
  refine ⟨by rw [hmid]; omega, by omega, ?_, ?_, hd1⟩
  · cases newer with
    | nil =>
      simp only [List.nil_append, List.cons.injEq] at hF
      obtain ⟨hE, hold⟩ := hF
      subst hE
      subst hold
      rw [leavesOf_cons] at hlo
      have := two_pow_pos nxt.height
      omega
    | cons a newer =>
      cases newer with
      | nil =>
        simp only [List.cons_append, List.nil_append, List.cons.injEq] at hF
        obtain ⟨ha, hE, hold⟩ := hF
        subst hold
        exact hlo
      | cons b newer =>
        simp only [List.cons_append, List.cons.injEq] at hF
        obtain ⟨ha, hb, hrestEq⟩ := hF
        have hEmem : E ∈ rest := by rw [hrestEq]; simp
        have hElt := hrest E hEmem
        rw [hps, List.length_cons, hlen] at hc
        omega
  · omega

/-- C13 (sibling selection in `Push`).  Let leaf number `n` be pushed onto the tree built by
`SetIndex(k)` and `n` pushes, `n + 1 < 2^64`, and let the loop of `Push` merge `head` (the
newer entry) with `next` (the older one), both of height `c = len(proofSet) - 1`.  With
`mid` as `Push` computes it, the older entry holds the leaves `[mid - 2^c, mid)` (those
after the leaves of the rest of the chain), the newer one the leaves `[mid, mid + 2^c)` (up
to leaf `n`), the target `k` lies in exactly one of the two ranges, and the loop goes on
with the digest of the other entry appended to the proof set. -/
theorem Push_appends_other_sibling (h : Hash) (k : Nat) (segments : List Bytes) (data : Bytes)
    (head next : subTree) (rest : List subTree) (ps : List Bytes)
    (hn : segments.length + 1 < 2 ^ 64)
    (hs : MergeState (((New h).SetIndex k).tree.pushAll segments) data head (next :: rest) ps)
    (hh : head.height = next.height)
    (hc : (head.height : Int) = (ps.length : Int) - 1) :
    let t := ((New h).SetIndex k).tree.pushAll segments
    let c := head.height
    let mid := mul64 (t.currentIndex / shl64 1 c) (shl64 1 c)
    t.currentIndex = segments.length ∧ t.proofIndex = k ∧
    2 ^ c ≤ mid ∧ leavesOf rest = mid - 2 ^ c ∧ mid + 2 ^ c = segments.length + 1 ∧
    (((mid - 2 ^ c ≤ k ∧ k < mid) ∧ ¬ (mid ≤ k ∧ k < mid + 2 ^ c) ∧
        pushLoop t.hash t.currentIndex t.proofIndex head (next :: rest) ps =
          pushLoop t.hash t.currentIndex t.proofIndex (joinSubTrees t.hash next head) rest
            (ps ++ [head.sum])) ∨
      ((mid ≤ k ∧ k < mid + 2 ^ c) ∧ ¬ (mid - 2 ^ c ≤ k ∧ k < mid) ∧
        pushLoop t.hash t.currentIndex t.proofIndex head (next :: rest) ps =
          pushLoop t.hash t.currentIndex t.proofIndex (joinSubTrees t.hash next head) rest
            (ps ++ [next.sum]))) := by
  intro t c mid
  have hT : TreeInv t (0 + segments.length) :=
    pushAll_TreeInv segments _ 0 (TreeInv_init _ rfl rfl rfl) (by omega)
  rw [Nat.zero_add] at hT
  have hpi : t.proofIndex = k := (pushAll_fields segments _).2.1
  have hI := MergeState_LoopInv t segments.length data hT hn head (next :: rest) ps hs
  obtain ⟨hmid, hend, hlo, hhi, _⟩ :=
    merge_ranges t.hash t.leafOf t.proofIndex segments.length hn head next rest ps hI hh hc
  have hmid1 : mid = leavesOf rest + 2 ^ c := by
    show mul64 (t.currentIndex / shl64 1 head.height) (shl64 1 head.height) = _
    rw [hT.idx]
    exact hmid
  have hstep := pushLoop_cons_eq t.hash t.currentIndex t.proofIndex head next rest ps hh
  rw [if_pos hc] at hstep
  rw [hpi] at hlo hhi
  refine ⟨hT.idx, hpi, by omega, by omega, by rw [hmid1]; exact hend, ?_⟩
  by_cases hk : k < mid
  · left
    refine ⟨⟨by omega, hk⟩, by omega, ?_⟩
    rw [hstep, if_pos (by rw [hpi]; exact hk)]
  · right
    refine ⟨⟨by omega, by rw [hmid1]; exact hhi⟩, by omega, ?_⟩
    rw [hstep, if_neg (by rw [hpi]; exact hk)]

theorem Push_appends_other_sibling_witness :
    (([[1]] : List Bytes).length + 1 < 2 ^ 64) ∧
    MergeState (((New demoHash).SetIndex 0).tree.pushAll [[1]]) [2]
      ⟨0, leafSum demoHash [2]⟩ [⟨0, leafSum demoHash [1]⟩] [[1]] ∧
    (let t := ((New demoHash).SetIndex 0).tree.pushAll [[1]]
     let c := (⟨0, leafSum demoHash [2]⟩ : subTree).height
     let mid := mul64 (t.currentIndex / shl64 1 c) (shl64 1 c)
     t.currentIndex = ([[1]] : List Bytes).length ∧ t.proofIndex = 0 ∧
     2 ^ c ≤ mid ∧ leavesOf [] = mid - 2 ^ c ∧ mid + 2 ^ c = ([[1]] : List Bytes).length + 1 ∧
     (((mid - 2 ^ c ≤ 0 ∧ 0 < mid) ∧ ¬ (mid ≤ 0 ∧ 0 < mid + 2 ^ c) ∧
        pushLoop t.hash t.currentIndex t.proofIndex ⟨0, leafSum demoHash [2]⟩
            [⟨0, leafSum demoHash [1]⟩] [[1]] =
          pushLoop t.hash t.currentIndex t.proofIndex
            (joinSubTrees t.hash ⟨0, leafSum demoHash [1]⟩ ⟨0, leafSum demoHash [2]⟩) []
            ([[1]] ++ [leafSum demoHash [2]])) ∨
      ((mid ≤ 0 ∧ 0 < mid + 2 ^ c) ∧ ¬ (mid - 2 ^ c ≤ 0 ∧ 0 < mid) ∧
        pushLoop t.hash t.currentIndex t.proofIndex ⟨0, leafSum demoHash [2]⟩
            [⟨0, leafSum demoHash [1]⟩] [[1]] =
          pushLoop t.hash t.currentIndex t.proofIndex
            (joinSubTrees t.hash ⟨0, leafSum demoHash [1]⟩ ⟨0, leafSum demoHash [2]⟩) []
            ([[1]] ++ [leafSum demoHash [1]])))) :=
  ⟨by decide, MergeState.enter,
    Push_appends_other_sibling demoHash 0 [[1]] [2] ⟨0, leafSum demoHash [2]⟩
      ⟨0, leafSum demoHash [1]⟩ [] [[1]] (by decide) MergeState.enter rfl (by decide)⟩

/-- C14 (midpoint rule in `Push`), as the code has it.  Let leaf number `n` be pushed onto
the tree built by `SetIndex(k)` and `n` pushes, `n + 1 < 2^64`, and let the loop of `Push`
merge `head` (the newer entry) with `next` (the older one), both of height
`c = len(proofSet) - 1`.  With `subtreeSize = 2^(c+1)` and `mid` equal to `n` rounded down to
a multiple of `subtreeSize` plus `subtreeSize / 2`, `mid` is the value `Push` computes, and
the digest appended to the proof set is that of the newer entry `head` if `k < mid` and that
of the older entry `head.next` otherwise. -/
theorem Push_midpoint_rule (h : Hash) (k : Nat) (segments : List Bytes) (data : Bytes)
    (head next : subTree) (rest : List subTree) (ps : List Bytes)
    (hn : segments.length + 1 < 2 ^ 64)
    (hs : MergeState (((New h).SetIndex k).tree.pushAll segments) data head (next :: rest) ps)
    (hh : head.height = next.height)
    (hc : (head.height : Int) = (ps.length : Int) - 1) :
    let t := ((New h).SetIndex k).tree.pushAll segments
    let subtreeSize := 2 ^ (head.height + 1)
    let mid := segments.length / subtreeSize * subtreeSize + subtreeSize / 2
    mid = mul64 (t.currentIndex / shl64 1 head.height) (shl64 1 head.height) ∧
    (k < mid →
      pushLoop t.hash t.currentIndex t.proofIndex head (next :: rest) ps =
        pushLoop t.hash t.currentIndex t.proofIndex (joinSubTrees t.hash next head) rest
          (ps ++ [head.sum])) ∧
    (¬ k < mid →
      pushLoop t.hash t.currentIndex t.proofIndex head (next :: rest) ps =
        pushLoop t.hash t.currentIndex t.proofIndex (joinSubTrees t.hash next head) rest
          (ps ++ [next.sum])) := by
  intro t subtreeSize mid
  have hT : TreeInv t (0 + segments.length) :=
    pushAll_TreeInv segments _ 0 (TreeInv_init _ rfl rfl rfl) (by omega)
  rw [Nat.zero_add] at hT
  have hpi : t.proofIndex = k := (pushAll_fields segments _).2.1
  have hI := MergeState_LoopInv t segments.length data hT hn head (next :: rest) ps hs
  obtain ⟨hmid, hend, _, _, hd1⟩ :=
    merge_ranges t.hash t.leafOf t.proofIndex segments.length hn head next rest ps hI hh hc
  have h2 := two_pow_succ head.height
  have hpos := two_pow_pos head.height
  have hround : segments.length / 2 ^ (head.height + 1) * 2 ^ (head.height + 1) =
      leavesOf rest := roundDown_eq (two_pow_pos _) hd1 (by omega) (by omega)
  have hhalf : 2 ^ (head.height + 1) / 2 = 2 ^ head.height := by omega
  have hmid1 : mid = mul64 (t.currentIndex / shl64 1 head.height) (shl64 1 head.height) := by
    show segments.length / 2 ^ (head.height + 1) * 2 ^ (head.height + 1) +
      2 ^ (head.height + 1) / 2 = _
    rw [hT.idx, hmid, hround, hhalf]
  have hstep := pushLoop_cons_eq t.hash t.currentIndex t.proofIndex head next rest ps hh
  rw [if_pos hc, ← hmid1] at hstep
  refine ⟨hmid1, fun hk => ?_, fun hk => ?_⟩
  · rw [hstep, if_pos (by rw [hpi]; exact hk)]
  · rw [hstep, if_neg (by rw [hpi]; exact hk)]

theorem Push_midpoint_rule_witness :
    (([[1]] : List Bytes).length + 1 < 2 ^ 64) ∧
    MergeState (((New demoHash).SetIndex 0).tree.pushAll [[1]]) [2]
      ⟨0, leafSum demoHash [2]⟩ [⟨0, leafSum demoHash [1]⟩] [[1]] ∧
    (let t := ((New demoHash).SetIndex 0).tree.pushAll [[1]]
     let subtreeSize := 2 ^ ((⟨0, leafSum demoHash [2]⟩ : subTree).height + 1)
     let mid := ([[1]] : List Bytes).length / subtreeSize * subtreeSize + subtreeSize / 2
     mid = mul64 (t.currentIndex / shl64 1 0) (shl64 1 0) ∧
     (0 < mid →
       pushLoop t.hash t.currentIndex t.proofIndex ⟨0, leafSum demoHash [2]⟩
           [⟨0, leafSum demoHash [1]⟩] [[1]] =
         pushLoop t.hash t.currentIndex t.proofIndex
           (joinSubTrees t.hash ⟨0, leafSum demoHash [1]⟩ ⟨0, leafSum demoHash [2]⟩) []
           ([[1]] ++ [leafSum demoHash [2]])) ∧
     (¬ 0 < mid →
       pushLoop t.hash t.currentIndex t.proofIndex ⟨0, leafSum demoHash [2]⟩
           [⟨0, leafSum demoHash [1]⟩] [[1]] =
         pushLoop t.hash t.currentIndex t.proofIndex
           (joinSubTrees t.hash ⟨0, leafSum demoHash [1]⟩ ⟨0, leafSum demoHash [2]⟩) []
           ([[1]] ++ [leafSum demoHash [1]]))) :=
  ⟨by decide, MergeState.enter,
    Push_midpoint_rule demoHash 0 [[1]] [2] ⟨0, leafSum demoHash [2]⟩
      ⟨0, leafSum demoHash [1]⟩ [] [[1]] (by decide) MergeState.enter rfl (by decide)⟩

/-- C14, counterexample to the rule as claimed.  With target index 0, when the second
segment is pushed the loop of `Push` merges the two leaves (height `0 = len(proofSet) - 1`),
`mid = 1` and `proofIndex = 0 < mid`; the digest appended to the proof set is that of the
newer leaf `head` (the second segment), not that of the older leaf `head.next` (the first
segment). -/
theorem Push_midpoint_appends_newer_below_mid :
    MergeState (((New demoHash).SetIndex 0).tree.pushAll [[1]]) [2]
      ⟨0, leafSum demoHash [2]⟩ [⟨0, leafSum demoHash [1]⟩] [[1]] ∧
    (((0 : Nat) : Int) = (([[1]] : List Bytes).length : Int) - 1) ∧
    (((New demoHash).SetIndex 0).tree.pushAll [[1]]).proofIndex <
      1 / 2 ^ (0 + 1) * 2 ^ (0 + 1) + 2 ^ (0 + 1) / 2 ∧
    ((((New demoHash).SetIndex 0).tree.pushAll [[1]]).Push [2]).proofSet =
      [[1]] ++ [leafSum demoHash [2]] ∧
    ((((New demoHash).SetIndex 0).tree.pushAll [[1]]).Push [2]).proofSet ≠
      [[1]] ++ [leafSum demoHash [1]] :=
  ⟨MergeState.enter, by decide, by decide, by decide, by decide⟩

/-! ## C15: `Root` is the reference Merkle tree hash -/

theorem log2_eq_of_bounds (m j : Nat) (hlo : 2 ^ j ≤ m) (hhi : m < 2 ^ (j + 1)) :
    Nat.log2 m = j := by
  rw [Nat.log2_eq_log_two]
  exact Nat.log_eq_of_pow_le_of_lt_pow hlo hhi

theorem splitPoint_lt (n : Nat) (hn : 2 ≤ n) : splitPoint n < n := by
  unfold splitPoint
  have := Nat.log2_self_le (n := n - 1) (by omega)
  omega

theorem splitPoint_ge (n : Nat) (hn : 2 ≤ n) : n ≤ 2 * splitPoint n := by
  unfold splitPoint
  have := Nat.lt_log2_self (n := n - 1)
  have := two_pow_succ (Nat.log2 (n - 1))
  omega

theorem splitPoint_add (j b : Nat) (hb : 1 ≤ b) (hb2 : b ≤ 2 ^ j) :
    splitPoint (2 ^ j + b) = 2 ^ j := by
  unfold splitPoint
  have := two_pow_succ j
  rw [log2_eq_of_bounds (2 ^ j + b - 1) j (by omega) (by omega)]

theorem MTH_single (h : Hash) (x : Bytes) : MTH h [x] = leafSum h x := by
  rw [MTH]

theorem MTH_split (h : Hash) (l : List Bytes) (hl : 2 ≤ l.length) :
    MTH h l = nodeSum h (MTH h (l.take (splitPoint l.length)))
      (MTH h (l.drop (splitPoint l.length))) := by
  match l, hl with
  | x :: y :: rest, _ =>
    rw [MTH]
    rfl

/-- A block of `2^j` leaves followed by at most `2^j` leaves hashes as a node over the two. -/
theorem MTH_append (h : Hash) (j : Nat) (a b : List Bytes) (ha : a.length = 2 ^ j)
    (hb : 1 ≤ b.length) (hb2 : b.length ≤ 2 ^ j) :
    MTH h (a ++ b) = nodeSum h (MTH h a) (MTH h b) := by
  have hpos := two_pow_pos j
  rw [MTH_split h (a ++ b) (by rw [List.length_append]; omega)]
  rw [List.length_append, ha, splitPoint_add j b.length hb hb2, ← ha, List.take_left,
    List.drop_left]

theorem pushLoop_covers (h : Hash) (ci pi : Nat) :
    ∀ (rest : List subTree) (cur : subTree) (ps : List Bytes) (l blk : List Bytes),
      Covers h l rest → Increasing rest → (∀ e ∈ rest, cur.height ≤ e.height) →
      blk.length = 2 ^ cur.height → cur.sum = MTH h blk →
      Covers h (l ++ blk) (pushLoop h ci pi cur rest ps).1 ∧
        Increasing (pushLoop h ci pi cur rest ps).1 := by
  intro rest
  induction rest with
  | nil =>
    intro cur ps l blk hc _ _ hlen hsum
    exact ⟨⟨l, blk, rfl, hc, hlen, hsum⟩, List.pairwise_singleton _ _⟩
  | cons nxt rest ih =>
    intro cur ps l blk hc hinc hlow hlen hsum
    by_cases hh : cur.height = nxt.height
    · rw [pushLoop_cons_eq h ci pi cur nxt rest ps hh]
      obtain ⟨l1, blkn, hl, hc1, hlenn, hsumn⟩ := hc
      have hpos := two_pow_pos cur.height
      have := ih (joinSubTrees h nxt cur)
        (if (cur.height : Int) = (ps.length : Int) - 1 then
          (if pi < mul64 (ci / shl64 1 cur.height) (shl64 1 cur.height) then ps ++ [cur.sum]
            else ps ++ [nxt.sum])
          else ps) l1 (blkn ++ blk) hc1 (Increasing_tail hinc)
        (fun e he => by
          have := Increasing_head_lt hinc e he
          show nxt.height + 1 ≤ e.height
          omega)
        (by
          show (blkn ++ blk).length = 2 ^ (nxt.height + 1)
          rw [List.length_append, hlenn, hlen, hh, two_pow_succ])
        (by
          show nodeSum h nxt.sum cur.sum = _
          rw [hsumn, hsum]
          exact (MTH_append h nxt.height blkn blk hlenn (by omega) (by rw [hlen, hh])).symm)
      rw [hl, List.append_assoc]
      exact this
    · rw [pushLoop_cons_ne h ci pi cur nxt rest ps hh]
      refine ⟨⟨l, blk, rfl, hc, hlen, hsum⟩, ?_⟩
      refine List.pairwise_cons.2 ⟨?_, hinc⟩
      intro e he
      have hle := hlow nxt (List.mem_cons_self _ _)
      rcases List.mem_cons.1 he with h1 | h1
      · subst h1; omega
      · have := Increasing_head_lt hinc e h1
        omega

theorem Push_covers (t : Tree) (d : Bytes) (l : List Bytes) (hc : Covers t.hash l t.head)
    (hinc : Increasing t.head) (hflat : t.cachedTree = false) :
    Covers t.hash (l ++ [d]) (t.Push d).head ∧ Increasing (t.Push d).head := by
  have := pushLoop_covers t.hash t.currentIndex t.proofIndex t.head
    ⟨0, if t.cachedTree then d else leafSum t.hash d⟩
    (if t.currentIndex = t.proofIndex then t.proofSet ++ [d] else t.proofSet) l [d] hc hinc
    (fun e _ => Nat.zero_le _) rfl (by rw [hflat, MTH_single]; rfl)
  exact this

theorem pushAll_covers (segments : List Bytes) :
    ∀ (t : Tree) (l : List Bytes), Covers t.hash l t.head → Increasing t.head →
      t.cachedTree = false →
      Covers t.hash (l ++ segments) (t.pushAll segments).head ∧
        Increasing (t.pushAll segments).head := by
  induction segments with
  | nil => intro t l hc hinc _; rw [List.append_nil]; exact ⟨hc, hinc⟩
  | cons d ds ih =>
    intro t l hc hinc hflat
    obtain ⟨h1, h2⟩ := Push_covers t d l hc hinc hflat
    have := ih (t.Push d) (l ++ [d]) h1 h2 hflat
    rw [List.append_assoc] at this
    exact this

theorem rootLoop_MTH (h : Hash) :
    ∀ (rest : List subTree) (cur : subTree) (B l : List Bytes), Covers h l rest →
      Increasing rest → cur.sum = MTH h B → 1 ≤ B.length →
      (∀ e ∈ rest, B.length ≤ 2 ^ e.height) →
      (rootLoop h cur rest).sum = MTH h (l ++ B) := by
  intro rest
  induction rest with
  | nil =>
    intro cur B l hc _ hsum _ _
    have hl : l = [] := hc
    rw [hl]
    exact hsum
  | cons nxt rest ih =>
    intro cur B l hc hinc hsum hB hle
    obtain ⟨l1, blkn, hl, hc1, hlenn, hsumn⟩ := hc
    have hBn := hle nxt (List.mem_cons_self _ _)
    have := ih (joinSubTrees h nxt cur) (blkn ++ B) l1 hc1 (Increasing_tail hinc)
      (by
        show nodeSum h nxt.sum cur.sum = _
        rw [hsumn, hsum]
        exact (MTH_append h nxt.height blkn B hlenn hB hBn).symm)
      (by rw [List.length_append]; omega)
      (fun e he => by
        have h1 := Increasing_head_lt hinc e he
        have h2 := two_pow_le_of_lt h1
        rw [List.length_append, hlenn]
        omega)
    rw [hl, List.append_assoc]
    exact this

/-- The root of a chain that covers `l` is the reference hash of `l`. -/
theorem Root_of_Covers (t : Tree) (l : List Bytes) (hc : Covers t.hash l t.head)
    (hinc : Increasing t.head) (hl : l ≠ []) : t.Root = some (MTH t.hash l) := by
  unfold Tree.Root
  cases hF : t.head with
  | nil =>
    rw [hF] at hc
    exact absurd hc hl
  | cons cur rest =>
    rw [hF] at hc hinc
    obtain ⟨l1, blk, hl1, hc1, hlen, hsum⟩ := hc
    have hpos := two_pow_pos cur.height
    have := rootLoop_MTH t.hash rest cur blk l1 hc1 (Increasing_tail hinc) hsum (by omega)
      (fun e he => by
        have h1 := Increasing_head_lt hinc e he
        have h2 := two_pow_le_of_lt h1
        omega)
    show some (rootLoop t.hash cur rest).sum = _
    rw [this, hl1]

/-- The root of the tree built from the non-empty sequence `l` is `MTH l`, whatever the
proof index. -/
theorem Root_pushAll_eq_MTH (h : Hash) (i : Nat) (l : List Bytes) (hl : l ≠ []) :
    (((New h).SetIndex i).tree.pushAll l).Root = some (MTH h l) := by
  have hhash : (((New h).SetIndex i).tree.pushAll l).hash = h := (pushAll_fields l _).1
  obtain ⟨hc, hinc⟩ := pushAll_covers l ((New h).SetIndex i).tree [] rfl List.Pairwise.nil rfl
  rw [List.nil_append] at hc
  have := Root_of_Covers (((New h).SetIndex i).tree.pushAll l) l
    (by rw [hhash]; exact hc) hinc hl
  rw [hhash] at this
  exact this

/-- C15 (Root equals the reference Merkle tree hash).  For every hash and every non-empty
sequence of segments pushed into a tree created with `New`, `Root()` is `MTH` of the
sequence; for the empty sequence `Root()` is nil.  Here `MTH [x] = H(0x00 || x)` and, for
a sequence `l` of two segments or more, `MTH l = H(0x01 || MTH l[0:k] || MTH l[k:])` where
`k` is a power of two with `k < len(l) <= 2k`, that is the largest power of two strictly
less than `len(l)`. -/
theorem Root_eq_reference_hash (h : Hash) (x : Bytes) (xs : List Bytes) :
    ((New h).pushAll (x :: xs)).Root = some (MTH h (x :: xs)) ∧
    ((New h).pushAll []).Root = none ∧
    MTH h [x] = h ([0] ++ x) ∧
    (∀ l : List Bytes, 2 ≤ l.length →
      ∃ j, 2 ^ j < l.length ∧ l.length ≤ 2 * 2 ^ j ∧
        MTH h l = h ([1] ++ MTH h (l.take (2 ^ j)) ++ MTH h (l.drop (2 ^ j)))) := by
  refine ⟨?_, rfl, ?_, ?_⟩
  · exact Root_pushAll_eq_MTH h 0 (x :: xs) (List.cons_ne_nil _ _)
  · rw [MTH_single]
    simp [leafSum, sum]
  · intro l hl
    refine ⟨Nat.log2 (l.length - 1), splitPoint_lt l.length hl, splitPoint_ge l.length hl, ?_⟩
    rw [MTH_split h l hl]
    simp [nodeSum, sum, splitPoint]

/-! ## C16: soundness of `VerifyProof` -/

/-- The end of the block of `2^lvl` leaves that holds `k`, as `VerifyProof` computes it on
`uint64`, is exact up to height 63. -/
theorem loop_end_exact (k lvl : Nat) (hk : k < 2 ^ 64) (hl : lvl < 64) :
    sub64 (add64 (mul64 (k / 2 ^ lvl) (2 ^ lvl)) (2 ^ lvl)) 1 =
      k / 2 ^ lvl * 2 ^ lvl + 2 ^ lvl - 1 := by
  have hpos := two_pow_pos lvl
  have hle := roundDown_le k (2 ^ lvl)
  have hsplit : (2 : Nat) ^ 64 = 2 ^ (64 - lvl) * 2 ^ lvl := by
    rw [← Nat.pow_add]; congr 1; omega
  have hq : k / 2 ^ lvl < 2 ^ (64 - lvl) := by
    rw [Nat.div_lt_iff_lt_mul hpos, ← hsplit]; exact hk
  have hbound : k / 2 ^ lvl * 2 ^ lvl + 2 ^ lvl ≤ 2 ^ 64 := by
    have : (k / 2 ^ lvl + 1) * 2 ^ lvl ≤ 2 ^ (64 - lvl) * 2 ^ lvl :=
      Nat.mul_le_mul_right _ hq
    rw [← hsplit, Nat.add_mul, Nat.one_mul] at this
    exact this
  rw [mul64_of_lt (by omega)]
  unfold add64 sub64
  rw [U64_eq]
  rcases Nat.lt_or_ge (k / 2 ^ lvl * 2 ^ lvl + 2 ^ lvl) (2 ^ 64) with hlt | hge
  · rw [Nat.mod_eq_of_lt hlt, Nat.mod_eq_of_lt hlt]
    omega
  · have heq : k / 2 ^ lvl * 2 ^ lvl + 2 ^ lvl = 2 ^ 64 := by omega
    rw [heq]
    omega

/-- A run of the loop of `VerifyProof` that reaches the `break`: it has climbed through the
entries `sibs` of the path, up to the first height `ht` at which the block of `2^ht` leaves
that holds `k` is not filled by the `N` leaves. -/
theorem verifyLoop_brk (h : Hash) (k N : Nat) (hk : k < N) (hN : N < 2 ^ 64) :
    ∀ (rest : List Bytes) (lvl : Nat) (sum : Bytes) (se : Nat) (ht : Nat) (sum1 : Bytes)
      (se1 : Nat) (rest1 : List Bytes), 1 ≤ lvl →
      k / 2 ^ (lvl - 1) * 2 ^ (lvl - 1) + 2 ^ (lvl - 1) ≤ N →
      se = k / 2 ^ (lvl - 1) * 2 ^ (lvl - 1) + 2 ^ (lvl - 1) - 1 →
      verifyLoop h k N rest lvl sum se = LoopExit.brk ht sum1 se1 rest1 →
      ∃ sibs, rest = sibs ++ rest1 ∧ ht = lvl + sibs.length ∧
        sum1 = climb h k sibs lvl sum ∧
        k / 2 ^ (ht - 1) * 2 ^ (ht - 1) + 2 ^ (ht - 1) ≤ N ∧
        N < k / 2 ^ ht * 2 ^ ht + 2 ^ ht ∧
        se1 = k / 2 ^ (ht - 1) * 2 ^ (ht - 1) + 2 ^ (ht - 1) - 1 := by
  intro rest
  induction rest with
  | nil =>
    intro lvl sum se ht sum1 se1 rest1 hl hin hse hv
    rw [verifyLoop] at hv
    by_cases hz : shl64 1 lvl = 0
    · rw [if_pos hz] at hv; cases hv
    · have hl64 : lvl < 64 := by
        by_contra hc
        exact hz (shl64_one_ge (by omega))
      rw [if_neg hz] at hv
      simp only [] at hv
      rw [shl64_one_lt hl64, loop_end_exact k lvl (by omega) hl64] at hv
      have hpos := two_pow_pos lvl
      by_cases hb : k / 2 ^ lvl * 2 ^ lvl + 2 ^ lvl - 1 ≥ N
      · rw [if_pos hb] at hv
        injection hv with e1 e2 e3 e4
        subst e1; subst e2; subst e3; subst e4
        exact ⟨[], rfl, rfl, rfl, hin, by omega, hse⟩
      · rw [if_neg hb] at hv
        cases hv
  | cons p rest ih =>
    intro lvl sum se ht sum1 se1 rest1 hl hin hse hv
    rw [verifyLoop] at hv
    by_cases hz : shl64 1 lvl = 0
    · rw [if_pos hz] at hv; cases hv
    · have hl64 : lvl < 64 := by
        by_contra hc
        exact hz (shl64_one_ge (by omega))
      rw [if_neg hz] at hv
      simp only [] at hv
      rw [shl64_one_lt hl64, loop_end_exact k lvl (by omega) hl64] at hv
      have hpos := two_pow_pos lvl
      have hle := roundDown_le k (2 ^ lvl)
      by_cases hb : k / 2 ^ lvl * 2 ^ lvl + 2 ^ lvl - 1 ≥ N
      · rw [if_pos hb] at hv
        injection hv with e1 e2 e3 e4
        subst e1; subst e2; subst e3; subst e4
        exact ⟨[], rfl, rfl, rfl, hin, by omega, hse⟩
      · rw [if_neg hb] at hv
        rw [mul64_of_lt (by omega), sub64_of_le (by omega) hle,
          shl64_one_lt (by omega : lvl - 1 < 64)] at hv
        have hstep : (if k - k / 2 ^ lvl * 2 ^ lvl < 2 ^ (lvl - 1) then nodeSum h sum p
            else nodeSum h p sum) = climbStep h k lvl sum p := rfl
        rw [hstep] at hv
        obtain ⟨sibs, hrest, hht, hsum, hin1, hout1, hse1⟩ :=
          ih (lvl + 1) _ _ ht sum1 se1 rest1 (by omega)
            (by rw [Nat.add_sub_cancel]; omega) (by rw [Nat.add_sub_cancel]) hv
        refine ⟨p :: sibs, by rw [hrest]; rfl, by rw [hht, List.length_cons]; omega, ?_,
          hin1, hout1, hse1⟩
        rw [hsum]
        rfl

theorem leafSum_isDigest (h : Hash) (x : Bytes) : IsDigest h (leafSum h x) := ⟨_, rfl⟩

theorem nodeSum_isDigest (h : Hash) (a b : Bytes) : IsDigest h (nodeSum h a b) := ⟨_, rfl⟩

theorem MTH_isDigest (h : Hash) (m : List Bytes) (hm : m ≠ []) : IsDigest h (MTH h m) := by
  match m, hm with
  | [x], _ => rw [MTH_single]; exact leafSum_isDigest h x
  | x :: y :: rest, _ =>
    rw [MTH_split h (x :: y :: rest) (by simp)]
    exact nodeSum_isDigest h _ _

theorem climbStep_isDigest (h : Hash) (k lvl : Nat) (sum p : Bytes) :
    IsDigest h (climbStep h k lvl sum p) := by
  unfold climbStep
  split
  · exact nodeSum_isDigest h _ _
  · exact nodeSum_isDigest h _ _

theorem climb_isDigest (h : Hash) (k : Nat) :
    ∀ (sibs : List Bytes) (lvl : Nat) (x : Bytes), IsDigest h x →
      IsDigest h (climb h k sibs lvl x) := by
  intro sibs
  induction sibs with
  | nil => intro lvl x hx; exact hx
  | cons p sibs ih =>
    intro lvl x _
    exact ih (lvl + 1) _ (climbStep_isDigest h k lvl x p)

theorem length_take_splitPoint (m : List Bytes) (hm : 2 ≤ m.length) :
    (m.take (splitPoint m.length)).length = splitPoint m.length := by
  rw [List.length_take]
  have := splitPoint_lt m.length hm
  omega

theorem take_splitPoint_ne_nil (m : List Bytes) (hm : 2 ≤ m.length) :
    m.take (splitPoint m.length) ≠ [] := by
  intro hc
  have h1 := length_take_splitPoint m hm
  rw [hc] at h1
  have : 0 < splitPoint m.length := Nat.pow_pos (by decide)
  simp at h1
  omega

theorem drop_splitPoint_ne_nil (m : List Bytes) (hm : 2 ≤ m.length) :
    m.drop (splitPoint m.length) ≠ [] := by
  intro hc
  have h1 : (m.drop (splitPoint m.length)).length = m.length - splitPoint m.length :=
    List.length_drop _ _
  rw [hc] at h1
  have := splitPoint_lt m.length hm
  simp at h1
  omega

/-- A node digest that is the reference hash of `m`, one of its two operands being a digest,
is the node over the two halves of `m`. -/
theorem node_peel (h : Hash) (hcf : CollisionFree h) (m : List Bytes) (hm : m ≠ [])
    (a b : Bytes) (heq : nodeSum h a b = MTH h m) (hd : IsDigest h a ∨ IsDigest h b) :
    2 ≤ m.length ∧ a = MTH h (m.take (splitPoint m.length)) ∧
      b = MTH h (m.drop (splitPoint m.length)) := by
  have hlen : 2 ≤ m.length := by
    match m, hm with
    | [x], _ =>
      rw [MTH_single] at heq
      exact absurd heq.symm (hcf.disjoint x a b)
    | x :: y :: rest, _ => simp
  refine ⟨hlen, ?_⟩
  rw [MTH_split h m hlen] at heq
  apply hcf.node _ _ _ _ heq
  rcases hd with ha | hb
  · exact Or.inl ⟨ha, MTH_isDigest h _ (take_splitPoint_ne_nil m hlen)⟩
  · exact Or.inr ⟨hb, MTH_isDigest h _ (drop_splitPoint_ne_nil m hlen)⟩

theorem two_pow_le_of_lt_double {j e : Nat} (hlt : 2 ^ j < 2 * 2 ^ e) : 2 ^ j ≤ 2 ^ e := by
  have h1 : 2 ^ j < 2 ^ (e + 1) := by rw [two_pow_succ]; omega
  have h2 : j < e + 1 := (Nat.pow_lt_pow_iff_right (by decide)).1 h1
  exact Nat.pow_le_pow_right (by decide) (by omega)

theorem two_pow_dvd_of_le {j e : Nat} (hle : 2 ^ j ≤ 2 ^ e) : 2 ^ j ∣ 2 ^ e :=
  Nat.pow_dvd_pow 2 ((Nat.pow_le_pow_iff_right (by decide)).1 hle)

/-- A climb through `j` path entries that ends at the reference hash of `m` is no longer
than the depth of the tree over `m`. -/
theorem climb_depth (h : Hash) (hcf : CollisionFree h) (k : Nat) (p0 : Bytes) :
    ∀ (sibs : List Bytes) (m : List Bytes), m ≠ [] →
      climb h k sibs 1 (leafSum h p0) = MTH h m → 2 ^ sibs.length < 2 * m.length := by
  intro sibs
  induction sibs using List.reverseRecOn with
  | nil =>
    intro m hm _
    have : 0 < m.length := List.length_pos.2 hm
    simp only [List.length_nil, Nat.pow_zero]
    omega
  | append_singleton sibs q ih =>
    intro m hm heq
    rw [climb_append] at heq
    have hC := climb_isDigest h k sibs 1 (leafSum h p0) (leafSum_isDigest h p0)
    unfold climbStep at heq
    have hsp : ∀ hl : 2 ≤ m.length, 2 ^ sibs.length < 2 * splitPoint m.length →
        2 ^ (sibs ++ [q]).length < 2 * m.length := by
      intro hl hlt
      have h1 : 2 ^ sibs.length ≤ splitPoint m.length := two_pow_le_of_lt_double hlt
      have h2 := splitPoint_lt m.length hl
      rw [List.length_append, List.length_singleton, two_pow_succ]
      omega
    split at heq
    · obtain ⟨hl, ha, _⟩ := node_peel h hcf m hm _ _ heq (Or.inl hC)
      have := ih _ (take_splitPoint_ne_nil m hl) ha
      rw [length_take_splitPoint m hl] at this
      exact hsp hl this
    · obtain ⟨hl, _, hb⟩ := node_peel h hcf m hm _ _ heq (Or.inr hC)
      have := ih _ (drop_splitPoint_ne_nil m hl) hb
      rw [List.length_drop] at this
      have h2 := splitPoint_ge m.length hl
      exact hsp hl (by omega)

theorem sub_roundDown (k P : Nat) : k - k / P * P = k % P := by
  rw [Nat.mod_def, Nat.mul_comm]

/-- A climb through `j` path entries that ends at the reference hash of `m`, the length of
`m` being a multiple of `2^j`: `m` has `2^j` leaves and the climb started from the leaf
at the position of `k` in its block. -/
theorem climb_block (h : Hash) (hcf : CollisionFree h) (k : Nat) (p0 : Bytes) :
    ∀ (sibs : List Bytes) (m : List Bytes), m ≠ [] → 2 ^ sibs.length ∣ m.length →
      climb h k sibs 1 (leafSum h p0) = MTH h m →
      m.length = 2 ^ sibs.length ∧ m[k % 2 ^ sibs.length]? = some p0 := by
  intro sibs
  induction sibs using List.reverseRecOn with
  | nil =>
    intro m hm _ heq
    match m, hm with
    | [x], _ =>
      rw [MTH_single] at heq
      have := hcf.leaf _ _ heq
      subst this
      simp [Nat.mod_one]
    | x :: y :: rest, _ =>
      rw [MTH_split h (x :: y :: rest) (by simp)] at heq
      exact absurd heq (hcf.disjoint _ _ _)
  | append_singleton sibs q ih =>
    intro m hm hdvd heq
    rw [climb_append] at heq
    have hC := climb_isDigest h k sibs 1 (leafSum h p0) (leafSum_isDigest h p0)
    rw [List.length_append, List.length_singleton] at hdvd ⊢
    have hpos := two_pow_pos sibs.length
    have h2 := two_pow_succ sibs.length
    have hmpos : 0 < m.length := List.length_pos.2 hm
    have hge : 2 ^ (sibs.length + 1) ≤ m.length := Nat.le_of_dvd hmpos hdvd
    have hl : 2 ≤ m.length := by omega
    have hlt := splitPoint_lt m.length hl
    have hsg := splitPoint_ge m.length hl
    have hspdef : splitPoint m.length = 2 ^ Nat.log2 (m.length - 1) := rfl
    have hjsp : 2 ^ sibs.length ∣ splitPoint m.length := by
      rw [hspdef]
      exact two_pow_dvd_of_le (two_pow_le_of_lt_double (by omega))
    have hjm : 2 ^ sibs.length ∣ m.length :=
      Nat.dvd_trans (Nat.pow_dvd_pow 2 (Nat.le_succ _)) hdvd
    have hmod := @Nat.mod_pow_succ k 2 sibs.length
    have hbit : k / 2 ^ sibs.length % 2 < 2 := Nat.mod_lt _ (by decide)
    have hmodlt : k % 2 ^ sibs.length < 2 ^ sibs.length := Nat.mod_lt _ hpos
    unfold climbStep at heq
    rw [sub_roundDown, Nat.add_comm 1 sibs.length, Nat.add_sub_cancel] at heq
    split at heq
    · rename_i hcond
      obtain ⟨_, ha, _⟩ := node_peel h hcf m hm _ _ heq (Or.inl hC)
      obtain ⟨hlen, hidx⟩ := ih _ (take_splitPoint_ne_nil m hl)
        (by rw [length_take_splitPoint m hl]; exact hjsp) ha
      rw [length_take_splitPoint m hl] at hlen
      refine ⟨by omega, ?_⟩
      have hk : k % 2 ^ (sibs.length + 1) = k % 2 ^ sibs.length := by
        rcases Nat.eq_zero_or_pos (k / 2 ^ sibs.length % 2) with h0 | h1
        · rw [hmod, h0]; omega
        · have : k / 2 ^ sibs.length % 2 = 1 := by omega
          rw [hmod, this] at hcond
          omega
      rw [hk, ← hidx, List.getElem?_take_of_lt (by omega)]
    · rename_i hcond
      obtain ⟨_, _, hb⟩ := node_peel h hcf m hm _ _ heq (Or.inr hC)
      obtain ⟨hlen, hidx⟩ := ih _ (drop_splitPoint_ne_nil m hl)
        (by rw [List.length_drop]; exact Nat.dvd_sub' hjm hjsp) hb
      rw [List.length_drop] at hlen
      have hspeq : splitPoint m.length = 2 ^ sibs.length := by
        by_contra hne
        have hdj : 2 ^ (sibs.length + 1) ∣ splitPoint m.length := by
          have hlt2 : 2 ^ sibs.length < 2 ^ Nat.log2 (m.length - 1) := by
            have hle : 2 ^ sibs.length ≤ splitPoint m.length := Nat.le_of_dvd (by omega) hjsp
            have : splitPoint m.length = 2 ^ Nat.log2 (m.length - 1) := rfl
            omega
          exact Nat.pow_dvd_pow 2 ((Nat.pow_lt_pow_iff_right (by decide)).1 hlt2)
        have hd2 : 2 ^ (sibs.length + 1) ∣ m.length - splitPoint m.length :=
          Nat.dvd_sub' hdvd hdj
        rw [hlen] at hd2
        have := Nat.le_of_dvd hpos hd2
        omega
      refine ⟨by omega, ?_⟩
      have hk : k % 2 ^ (sibs.length + 1) = splitPoint m.length + k % 2 ^ sibs.length := by
        rcases Nat.eq_zero_or_pos (k / 2 ^ sibs.length % 2) with h0 | h1
        · rw [hmod, h0] at hcond
          omega
        · have : k / 2 ^ sibs.length % 2 = 1 := by omega
          rw [hmod, this, hspeq]; omega
      rw [hk, ← hidx, List.getElem?_drop]

/-- The last loop of `VerifyProof` ends at the reference hash of `l`: it started from the
reference hash of a suffix of `l`, and the start `a` of that suffix is a multiple of a power
of two that is at least the length of the suffix. -/
theorem verifyTail_peel (h : Hash) (hcf : CollisionFree h) (l : List Bytes) (hl : l ≠ []) :
    ∀ (tail : List Bytes) (X : Bytes), IsDigest h X → verifyTail h tail X = MTH h l →
      ∃ a, a < l.length ∧ (∃ e, l.length - a ≤ 2 ^ e ∧ 2 ^ e ∣ a) ∧ X = MTH h (l.drop a) := by
  intro tail
  induction tail with
  | nil =>
    intro X _ heq
    exact ⟨0, List.length_pos.2 hl, ⟨l.length, by
      have := @Nat.lt_two_pow l.length
      omega, Nat.dvd_zero _⟩, heq⟩
  | cons p tail ih =>
    intro X hX heq
    obtain ⟨a, ha, ⟨e, he1, he2⟩, hnode⟩ := ih (nodeSum h p X) (nodeSum_isDigest h p X) heq
    have hne : l.drop a ≠ [] := by
      intro hc
      have := congrArg List.length hc
      rw [List.length_drop] at this
      simp at this
      omega
    obtain ⟨hl2, _, hb⟩ := node_peel h hcf (l.drop a) hne p X hnode (Or.inr hX)
    rw [List.length_drop] at hl2 hb
    rw [List.drop_drop] at hb
    have hlt := splitPoint_lt (l.length - a) hl2
    have hsg := splitPoint_ge (l.length - a) hl2
    refine ⟨a + splitPoint (l.length - a), by omega,
      ⟨Nat.log2 (l.length - a - 1), ?_, ?_⟩, hb⟩
    · show l.length - (a + splitPoint (l.length - a)) ≤ splitPoint (l.length - a)
      omega
    · have hdvd : 2 ^ Nat.log2 (l.length - a - 1) ∣ 2 ^ e := by
        apply two_pow_dvd_of_le
        show splitPoint (l.length - a) ≤ 2 ^ e
        omega
      exact Nat.dvd_add (Nat.dvd_trans hdvd he2) (Nat.dvd_refl _)

theorem frame_append (x y : Bytes) : frame (x ++ y) = frame x ++ frame y := by
  induction x with
  | nil => rfl
  | cons b x ih => simp [frame, ih]

theorem frame_reverse (x : Bytes) : (frame x).reverse = frame x.reverse := by
  induction x with
  | nil => rfl
  | cons b x ih =>
    rw [List.reverse_cons, frame_append, ← ih]
    simp [frame]

theorem frameHash_reverse (x : Bytes) : (frameHash x).reverse = frameHash x.reverse := by
  simp [frameHash, frame_reverse]

/-- No value of `frameHash` is a proper prefix of another one. -/
theorem frame_prefix_free :
    ∀ (x y u v : Bytes), frame x ++ 1 :: u = frame y ++ 1 :: v → x = y := by
  intro x
  induction x with
  | nil =>
    intro y u v heq
    cases y with
    | nil => rfl
    | cons b y =>
      simp only [frame, List.nil_append, List.cons_append, List.cons.injEq] at heq
      exact absurd heq.1 (by decide)
  | cons a x ih =>
    intro y u v heq
    cases y with
    | nil =>
      simp only [frame, List.nil_append, List.cons_append, List.cons.injEq] at heq
      exact absurd heq.1 (by decide)
    | cons b y =>
      simp only [frame, List.cons_append, List.cons.injEq] at heq
      obtain ⟨_, hab, _, hrest⟩ := heq
      rw [hab, ih y u v hrest]

theorem frameHash_prefix_free (x y u v : Bytes) (heq : frameHash x ++ u = frameHash y ++ v) :
    x = y := by
  simp only [frameHash, List.cons_append, List.append_assoc, List.singleton_append,
    List.cons.injEq, true_and] at heq
  exact frame_prefix_free x y u v heq

theorem frameHash_injective (x y : Bytes) (heq : frameHash x = frameHash y) : x = y :=
  frameHash_prefix_free x y [] [] (by rw [heq])

theorem frameHash_suffix_free (x y u v : Bytes) (heq : u ++ frameHash x = v ++ frameHash y) :
    x = y := by
  have := congrArg List.reverse heq
  rw [List.reverse_append, List.reverse_append, frameHash_reverse, frameHash_reverse] at this
  exact List.reverse_injective (frameHash_prefix_free _ _ _ _ this)

theorem frameHash_collisionFree : CollisionFree frameHash := by
  refine ⟨?_, ?_, ?_⟩
  · intro a b heq
    have := frameHash_injective _ _ heq
    simpa using this
  · intro a b c heq
    have := frameHash_injective _ _ heq
    simp at this
  · intro a b c d heq hd
    have hcat := frameHash_injective _ _ heq
    simp only [List.flatten, List.append_nil, List.singleton_append, List.cons.injEq,
      true_and] at hcat
    rcases hd with ⟨⟨ya, ha⟩, ⟨yc, hc⟩⟩ | ⟨⟨yb, hb⟩, ⟨yd, hd⟩⟩
    · rw [ha, hc] at hcat
      have hy := frameHash_prefix_free _ _ _ _ hcat
      subst hy
      rw [ha, hc]
      exact ⟨rfl, List.append_cancel_left hcat⟩
    · rw [hb, hd] at hcat
      have hy := frameHash_suffix_free _ _ _ _ hcat
      subst hy
      rw [hb, hd]
      exact ⟨List.append_cancel_right hcat, rfl⟩

/-- Injectivity of `nodeSum` on all pairs, as a hypothesis, gives `CollisionFree`. -/
theorem CollisionFree_of_injective (h : Hash)
    (hleaf : ∀ a b, leafSum h a = leafSum h b → a = b)
    (hdis : ∀ a b c, leafSum h a ≠ nodeSum h b c)
    (hnode : ∀ a b c d, nodeSum h a b = nodeSum h c d → a = c ∧ b = d) : CollisionFree h :=
  ⟨hleaf, hdis, fun a b c d heq _ => hnode a b c d heq⟩

/-- No hash makes `nodeSum` injective on all pairs of byte strings: it hashes the
concatenation of its operands. -/
theorem nodeSum_not_injective (h : Hash) :
    ¬ (∀ a b c d, nodeSum h a b = nodeSum h c d → a = c ∧ b = d) := by
  intro hinj
  have := hinj [] [0] [0] [] rfl
  exact absurd this.1 (by decide)

theorem roundDown_add_mod (k P : Nat) : k / P * P + k % P = k := by
  rw [Nat.mul_comm]; exact Nat.div_add_mod k P

/-- Two multiples of `D`, the first below the second, are at least `D` apart. -/
theorem multiple_gap {D x y : Nat} (hx : D ∣ x) (hy : D ∣ y) (hlt : x < y) : x + D ≤ y := by
  obtain ⟨c, rfl⟩ := hx
  obtain ⟨d, rfl⟩ := hy
  have hcd : c < d := Nat.lt_of_mul_lt_mul_left hlt
  calc D * c + D = D * (c + 1) := by rw [Nat.mul_add, Nat.mul_one]
    _ ≤ D * d := Nat.mul_le_mul_left D hcd

theorem multiple_eq {D x y : Nat} (hx : D ∣ x) (hy : D ∣ y) (h1 : x < y + D) (h2 : y < x + D) :
    x = y := by
  rcases Nat.lt_trichotomy x y with hlt | heq | hgt
  · have := multiple_gap hx hy hlt; omega
  · exact heq
  · have := multiple_gap hy hx hgt; omega

/-- The accepting runs of `VerifyProof` against the reference hash of `l`: the first entry
of the path is the leaf of index `k`. -/
theorem VerifyProof_MTH_sound (h : Hash) (hcf : CollisionFree h) (l : List Bytes) (k : Nat)
    (p0 : Bytes) (rest0 : List Bytes) (hk : k < l.length) (hN : l.length < 2 ^ 64)
    (hv : VerifyProof h (some (MTH h l)) (p0 :: rest0) k l.length = some true) :
    l[k]? = some p0 := by
  have hl : l ≠ [] := by
    intro hc; rw [hc] at hk; exact absurd hk (Nat.not_lt_zero _)
  unfold VerifyProof at hv
  simp only [] at hv
  rw [if_neg (by omega)] at hv
  generalize hloop : verifyLoop h k l.length rest0 1 (leafSum h p0) k = r at hv
  cases r with
  | panic => exact absurd hv (by simp)
  | retFalse => exact absurd hv (by simp)
  | brk ht sum se rest1 =>
    obtain ⟨sibs, _, hht, hsum, hin, hout, hse⟩ :=
      verifyLoop_brk h k l.length hk hN rest0 1 (leafSum h p0) k ht sum se rest1
        (Nat.le_refl 1) (by simp; omega) (by simp) hloop
    have hj : ht - 1 = sibs.length := by omega
    have hj1 : ht = sibs.length + 1 := by omega
    rw [hj] at hin hse
    rw [hj1] at hout
    have hpos := two_pow_pos sibs.length
    have h2 := two_pow_succ sibs.length
    have hsdvd : 2 ^ sibs.length ∣ k / 2 ^ sibs.length * 2 ^ sibs.length :=
      Nat.dvd_mul_left _ _
    have hsle := roundDown_le k (2 ^ sibs.length)
    have hmodlt : k % 2 ^ sibs.length < 2 ^ sibs.length := Nat.mod_lt _ hpos
    have hkeq := roundDown_add_mod k (2 ^ sibs.length)
    have hsumD : IsDigest h sum := by
      rw [hsum]; exact climb_isDigest h k sibs 1 _ (leafSum_isDigest h p0)
    simp only [] at hv
    rw [sub64_of_le hN (by omega)] at hv
    by_cases horph : se ≠ l.length - 1
    · rw [if_pos horph] at hv
      cases rest1 with
      | nil => exact absurd hv (by simp)
      | cons q rest2 =>
        simp only [Option.some.injEq, decide_eq_true_eq] at hv
        obtain ⟨a, ha, ⟨e, he1, he2⟩, hnode⟩ :=
          verifyTail_peel h hcf l hl rest2 _ (nodeSum_isDigest h sum q) hv
        have hne : l.drop a ≠ [] := by
          intro hc
          have := congrArg List.length hc
          rw [List.length_drop] at this
          simp at this
          omega
        obtain ⟨hR2, hleft, _⟩ := node_peel h hcf (l.drop a) hne sum q hnode (Or.inl hsumD)
        have hlenT := length_take_splitPoint (l.drop a) hR2
        have hneT := take_splitPoint_ne_nil (l.drop a) hR2
        rw [List.length_drop] at hR2 hlenT hneT hleft
        rw [hsum] at hleft
        have hdepth := climb_depth h hcf k p0 sibs _ hneT hleft
        rw [hlenT] at hdepth
        have hspdef : splitPoint (l.length - a) = 2 ^ Nat.log2 (l.length - a - 1) := rfl
        have hle : 2 ^ sibs.length ≤ splitPoint (l.length - a) := by
          rw [hspdef]; rw [hspdef] at hdepth; exact two_pow_le_of_lt_double hdepth
        have hdv : 2 ^ sibs.length ∣ splitPoint (l.length - a) := by
          rw [hspdef]; rw [hspdef] at hle; exact two_pow_dvd_of_le hle
        obtain ⟨hlen, hidx⟩ := climb_block h hcf k p0 sibs _ hneT
          (by rw [hlenT]; exact hdv) hleft
        rw [hlenT] at hlen
        have hlt := splitPoint_lt (l.length - a) hR2
        have hsg := splitPoint_ge (l.length - a) hR2
        have he : sibs.length < e := by
          apply (Nat.pow_lt_pow_iff_right (by decide : 1 < 2)).1
          omega
        have hda : 2 ^ (sibs.length + 1) ∣ a :=
          Nat.dvd_trans (Nat.pow_dvd_pow 2 he) he2
        have hpos1 := two_pow_pos (sibs.length + 1)
        have hs1dvd : 2 ^ (sibs.length + 1) ∣ k / 2 ^ (sibs.length + 1) * 2 ^ (sibs.length + 1) :=
          Nat.dvd_mul_left _ _
        have hs1le := roundDown_le k (2 ^ (sibs.length + 1))
        have hs1 : k / 2 ^ (sibs.length + 1) * 2 ^ (sibs.length + 1) = a :=
          multiple_eq hs1dvd hda (by omega) (by omega)
        have hs1s : k / 2 ^ (sibs.length + 1) * 2 ^ (sibs.length + 1) ≤
            k / 2 ^ sibs.length * 2 ^ sibs.length :=
          le_roundDown hpos (Nat.dvd_trans (Nat.pow_dvd_pow 2 (Nat.le_succ _)) hs1dvd) hs1le
        have hs : k / 2 ^ sibs.length * 2 ^ sibs.length = a := by
          by_contra hne2
          have hlt2 : a < k / 2 ^ sibs.length * 2 ^ sibs.length := by omega
          have := multiple_gap (Nat.dvd_trans (Nat.pow_dvd_pow 2 (Nat.le_succ _)) hda)
            hsdvd hlt2
          omega
        rw [List.getElem?_take_of_lt (by omega), List.getElem?_drop] at hidx
        rw [← hidx]
        congr 1
        omega
    · rw [if_neg horph] at hv
      simp only [Option.some.injEq, decide_eq_true_eq] at hv
      obtain ⟨a, ha, ⟨e, he1, he2⟩, hX⟩ := verifyTail_peel h hcf l hl rest1 sum hsumD hv
      have hne : l.drop a ≠ [] := by
        intro hc
        have := congrArg List.length hc
        rw [List.length_drop] at this
        simp at this
        omega
      rw [hsum] at hX
      have hdepth := climb_depth h hcf k p0 sibs _ hne hX
      rw [List.length_drop] at hdepth
      have hle : 2 ^ sibs.length ≤ 2 ^ e := two_pow_le_of_lt_double (by omega)
      have hda : 2 ^ sibs.length ∣ a := Nat.dvd_trans (two_pow_dvd_of_le hle) he2
      have hNeq : k / 2 ^ sibs.length * 2 ^ sibs.length + 2 ^ sibs.length = l.length := by
        omega
      have hdN : 2 ^ sibs.length ∣ l.length := by
        rw [← hNeq]; exact Nat.dvd_add hsdvd (Nat.dvd_refl _)
      obtain ⟨hlen, hidx⟩ := climb_block h hcf k p0 sibs _ hne
        (by rw [List.length_drop]; exact Nat.dvd_sub' hdN hda) hX
      rw [List.length_drop] at hlen
      rw [List.getElem?_drop] at hidx
      rw [← hidx]
      congr 1
      omega

/-- Injectivity of the hash alone does not make `VerifyProof` sound: with the identity as
hash, the tree over the segments `0x05`, `0x06` has a root that `VerifyProof` accepts for
index 0 with the empty segment as first entry of the path. -/
theorem VerifyProof_identity_hash_accepts_other_leaf :
    VerifyProof (fun x => x) ((New (fun x => x)).pushAll [[5], [6]]).Root [[], [5, 0, 6]] 0 2 =
      some true := by
  decide

/-- C16 (soundness of verification under a collision-free digest).  For every hash that is
collision free on the inputs of the tree (`leafSum` injective, no leaf digest equal to a
node digest, `nodeSum` injective on the pairs that have a digest on the same side, which
holds in particular when `nodeSum` is injective), every sequence `l` of `N` segments,
`1 <= N < 2^64`, with root `r = Root()` of the tree over `l`, every `k < N` and every path
`p` of any length: if `VerifyProof(hash, r, p, k, N)` is true then `p[0] = l[k]`. -/
theorem VerifyProof_sound (h : Hash) (hcf : CollisionFree h) (l : List Bytes) (k : Nat)
    (p : List Bytes) (hk : k < l.length) (hN : l.length < 2 ^ 64)
    (hv : VerifyProof h ((New h).pushAll l).Root p k l.length = some true) :
    p[0]? = l[k]? := by
  have hl : l ≠ [] := by
    intro hc; rw [hc] at hk; exact absurd hk (Nat.not_lt_zero _)
  have hroot : ((New h).pushAll l).Root = some (MTH h l) := Root_pushAll_eq_MTH h 0 l hl
  rw [hroot] at hv
  cases p with
  | nil =>
    unfold VerifyProof at hv
    simp only [] at hv
    rw [if_neg (by omega)] at hv
    exact absurd hv (by simp)
  | cons p0 rest0 =>
    rw [VerifyProof_MTH_sound h hcf l k p0 rest0 hk hN hv]
    simp

set_option maxRecDepth 100000 in
theorem VerifyProof_sound_witness :
    CollisionFree frameHash ∧
    1 < ([[1], [2], [3]] : List Bytes).length ∧
    ([[1], [2], [3]] : List Bytes).length < 2 ^ 64 ∧
    VerifyProof frameHash ((New frameHash).pushAll [[1], [2], [3]]).Root
      [[2], leafSum frameHash [1], leafSum frameHash [3]] 1
      ([[1], [2], [3]] : List Bytes).length = some true ∧
    ([[2], leafSum frameHash [1], leafSum frameHash [3]] : List Bytes)[0]? =
      ([[1], [2], [3]] : List Bytes)[1]? :=
  ⟨frameHash_collisionFree, by decide, by decide, by decide,
    VerifyProof_sound frameHash frameHash_collisionFree [[1], [2], [3]] 1
      [[2], leafSum frameHash [1], leafSum frameHash [3]] (by decide) (by decide) (by decide)⟩

end Merkletree

namespace Encoding

/-! ## C19: the integer codec -/

theorem toNat_ofNat (n : Nat) : (UInt8.ofNat n).toNat = n % 256 := by
  simp [UInt8.toNat, UInt8.ofNat, Fin.ofNat]

theorem putUint64_eq (v : Nat) :
    putUint64 v = [UInt8.ofNat v, UInt8.ofNat (v / 2 ^ 8), UInt8.ofNat (v / 2 ^ 16),
      UInt8.ofNat (v / 2 ^ 24), UInt8.ofNat (v / 2 ^ 32), UInt8.ofNat (v / 2 ^ 40),
      UInt8.ofNat (v / 2 ^ 48), UInt8.ofNat (v / 2 ^ 56)] := by
  simp [putUint64, List.range, List.range.loop]

theorem getUint64_putUint64 (v : Nat) (hv : v < 2 ^ 64) : getUint64 (putUint64 v) = v := by
  rw [putUint64_eq]
  simp only [getUint64, List.take, List.foldr, toNat_ofNat]
  omega

theorem copy8_of_length_eq (b : Bytes) (hb : b.length = 8) : copy8 b = b := by
  unfold copy8
  rw [List.take_of_length_le (by omega), hb]
  simp

theorem putUint64_length (v : Nat) : (putUint64 v).length = 8 := by
  simp [putUint64]

theorem toInt64_toUint64 (i : Int) (hlo : -2 ^ 63 ≤ i) (hhi : i < 2 ^ 63) :
    toInt64 (toUint64 i) = i := by
  unfold toInt64 toUint64 U64
  have h1 : (0 : Int) ≤ i % ((2 ^ 64 : Nat) : Int) := Int.emod_nonneg _ (by norm_num)
  have h2 : i % ((2 ^ 64 : Nat) : Int) < ((2 ^ 64 : Nat) : Int) := Int.emod_lt_of_pos _ (by norm_num)
  have h3 : (((i % ((2 ^ 64 : Nat) : Int)).toNat : Nat) : Int) = i % ((2 ^ 64 : Nat) : Int) :=
    Int.toNat_of_nonneg h1
  have h4 : (i % ((2 ^ 64 : Nat) : Int)).toNat % 2 ^ 64 = (i % ((2 ^ 64 : Nat) : Int)).toNat := by
    apply Nat.mod_eq_of_lt
    omega
  rw [h4]
  split <;> omega

theorem copy8_short (b : Bytes) (hb : b.length < 8) :
    copy8 b = b ++ List.replicate (8 - b.length) 0 := by
  unfold copy8
  rw [List.take_of_length_le (by omega)]

theorem copy8_long (b : Bytes) (hb : 8 ≤ b.length) : copy8 b = b.take 8 := by
  unfold copy8
  have : (b.take 8).length = 8 := by rw [List.length_take]; omega
  rw [this]
  simp

/-- C19: for every 64-bit unsigned `u`, `EncUint64(u)` is exactly 8 bytes, byte `j` being
`(u >> 8j) & 0xff` (little-endian), and `DecUint64(EncUint64(u)) = u`; for every 64-bit
signed `i`, `DecInt64(EncInt64(i)) = i`; `DecUint64` decodes an input shorter than 8 bytes
as if it were padded with zero bytes, and uses only the first 8 bytes of a longer one. -/
theorem integer_codec_round_trip (u : Nat) (i : Int) (b : Bytes) (hu : u < 2 ^ 64)
    (hlo : -2 ^ 63 ≤ i) (hhi : i < 2 ^ 63) :
    (EncUint64 u).length = 8 ∧
    (∀ j, j < 8 → ((EncUint64 u).getD j 0).toNat = u / 2 ^ (8 * j) % 256) ∧
    DecUint64 (EncUint64 u) = u ∧
    DecInt64 (EncInt64 i) = i ∧
    (b.length < 8 → DecUint64 b = DecUint64 (b ++ List.replicate (8 - b.length) 0)) ∧
    (8 ≤ b.length → DecUint64 b = DecUint64 (b.take 8)) := by
  refine ⟨putUint64_length u, ?_, ?_, ?_, ?_, ?_⟩
  · intro j hj
    unfold EncUint64
    rw [putUint64_eq]
    have hcases : j = 0 ∨ j = 1 ∨ j = 2 ∨ j = 3 ∨ j = 4 ∨ j = 5 ∨ j = 6 ∨ j = 7 := by omega
    rcases hcases with h | h | h | h | h | h | h | h <;> subst h <;>
      simp [List.getD, toNat_ofNat]
  · unfold DecUint64 EncUint64
    rw [copy8_of_length_eq _ (putUint64_length u), getUint64_putUint64 u hu]
  · unfold DecInt64 EncInt64
    have hlt : toUint64 i < 2 ^ 64 := by
      unfold toUint64 U64
      have h2 : i % ((2 ^ 64 : Nat) : Int) < ((2 ^ 64 : Nat) : Int) :=
        Int.emod_lt_of_pos _ (by norm_num)
      have h1 : (0 : Int) ≤ i % ((2 ^ 64 : Nat) : Int) := Int.emod_nonneg _ (by norm_num)
      omega
    rw [copy8_of_length_eq _ (putUint64_length _), getUint64_putUint64 _ hlt,
      toInt64_toUint64 i hlo hhi]
  · intro hb
    unfold DecUint64
    rw [copy8_short b hb, copy8_of_length_eq (b ++ List.replicate (8 - b.length) 0)
      (by rw [List.length_append, List.length_replicate]; omega)]
  · intro hb
    unfold DecUint64
    rw [copy8_long b hb, copy8_of_length_eq (b.take 8) (by rw [List.length_take]; omega)]

theorem integer_codec_round_trip_witness :
    (0x0102030405060708 : Nat) < 2 ^ 64 ∧ -2 ^ 63 ≤ (-2 : Int) ∧ (-2 : Int) < 2 ^ 63 ∧
    ((EncUint64 0x0102030405060708).length = 8 ∧
    (∀ j, j < 8 →
      ((EncUint64 0x0102030405060708).getD j 0).toNat = 0x0102030405060708 / 2 ^ (8 * j) % 256) ∧
    DecUint64 (EncUint64 0x0102030405060708) = 0x0102030405060708 ∧
    DecInt64 (EncInt64 (-2)) = -2 ∧
    (([7, 1] : Bytes).length < 8 →
      DecUint64 [7, 1] = DecUint64 ([7, 1] ++ List.replicate (8 - ([7, 1] : Bytes).length) 0)) ∧
    (8 ≤ ([7, 1] : Bytes).length → DecUint64 [7, 1] = DecUint64 (([7, 1] : Bytes).take 8))) :=
  ⟨by decide, by decide, by decide,
    integer_codec_round_trip 0x0102030405060708 (-2) [7, 1] (by decide) (by decide) (by decide)⟩

/-! ## C11: length prefixes -/

theorem toUint64_natCast (n : Nat) (hn : n < 2 ^ 64) : toUint64 (n : Int) = n := by
  unfold toUint64 U64
  have : ((n : Int) % ((2 ^ 64 : Nat) : Int)) = (n : Int) := Int.emod_eq_of_lt (by omega) (by omega)
  rw [this]
  simp

theorem readFull_append (a r : Bytes) (n : Nat) (ha : a.length = n) (hn : 0 < n) :
    Merkletree.readFull (a ++ r) n = (a, Merkletree.ReadErr.nil, r) := by
  unfold Merkletree.readFull
  rw [if_neg (by omega), if_neg (by rw [List.length_append]; omega),
    if_neg (by rw [List.length_append]; omega)]
  rw [List.take_left' ha, List.drop_left' ha]

theorem ReadPrefix_of_prefix (r pre r1 : Bytes) (maxLen : Nat)
    (h : Merkletree.readFull r 8 = (pre, Merkletree.ReadErr.nil, r1)) :
    ReadPrefix r maxLen =
      if DecUint64 pre > maxLen then
        some { data := none, err := some PrefixErr.exceedsMaxLen, rest := r1 }
      else if DecUint64 pre ≥ 2 ^ 63 then none
      else some ⟨some ((Merkletree.readFull r1 (DecUint64 pre)).1 ++
            List.replicate (DecUint64 pre - (Merkletree.readFull r1 (DecUint64 pre)).1.length) 0),
          ofReadErr (Merkletree.readFull r1 (DecUint64 pre)).2.1,
          (Merkletree.readFull r1 (DecUint64 pre)).2.2⟩ := by
  unfold ReadPrefix
  rw [h]

/-- C11: for every byte string `data` (its length an `int`, below `2^63`) and every
`maxLen`, `WritePrefix(data)` returns no error and writes the 8 bytes `EncUint64(len(data))`,
the little-endian length, followed by `data`; `ReadPrefix` over those bytes, whatever
follows them, returns `data` with no error (leaving what follows) when
`len(data) <= maxLen`, and returns nil data with an error when `len(data) > maxLen`. -/
theorem prefix_round_trip (data extra : Bytes) (maxLen : Nat) (hlen : data.length < 2 ^ 63) :
    WritePrefix [] data = (EncUint64 data.length ++ data, false) ∧
    (data.length ≤ maxLen →
      ReadPrefix ((WritePrefix [] data).1 ++ extra) maxLen =
        some { data := some data, err := none, rest := extra }) ∧
    (maxLen < data.length →
      ∃ e rest, ReadPrefix ((WritePrefix [] data).1 ++ extra) maxLen =
        some { data := none, err := some e, rest := rest }) := by
  have hw : WritePrefix [] data = (EncUint64 data.length ++ data, false) := by
    simp only [WritePrefix, WriteInt, WriteUint64, List.nil_append,
      toUint64_natCast data.length (by omega)]
  have hpre : Merkletree.readFull ((EncUint64 data.length ++ data) ++ extra) 8 =
      (EncUint64 data.length, Merkletree.ReadErr.nil, data ++ extra) := by
    rw [List.append_assoc]
    exact readFull_append _ _ 8 (putUint64_length _) (by decide)
  have hdec : DecUint64 (EncUint64 data.length) = data.length := by
    unfold DecUint64 EncUint64
    rw [copy8_of_length_eq _ (putUint64_length _), getUint64_putUint64 _ (by omega)]
  refine ⟨hw, ?_, ?_⟩
  · intro hle
    rw [hw, ReadPrefix_of_prefix _ _ _ maxLen hpre, hdec]
    rw [if_neg (by omega), if_neg (by omega)]
    by_cases h0 : data.length = 0
    · have hnil : data = [] := List.length_eq_zero.1 h0
      subst hnil
      rfl
    · rw [readFull_append data extra data.length rfl (by omega)]
      simp [ofReadErr]
  · intro hgt
    rw [hw, ReadPrefix_of_prefix _ _ _ maxLen hpre, hdec]
    rw [if_pos (by omega)]
    exact ⟨_, _, rfl⟩

theorem prefix_round_trip_witness :
    ([1, 2, 3] : Bytes).length < 2 ^ 63 ∧
    (WritePrefix [] [1, 2, 3] = (EncUint64 ([1, 2, 3] : Bytes).length ++ [1, 2, 3], false) ∧
    (([1, 2, 3] : Bytes).length ≤ 5 →
      ReadPrefix ((WritePrefix [] [1, 2, 3]).1 ++ [9, 9]) 5 =
        some { data := some [1, 2, 3], err := none, rest := [9, 9] }) ∧
    (5 < ([1, 2, 3] : Bytes).length →
      ∃ e rest, ReadPrefix ((WritePrefix [] [1, 2, 3]).1 ++ [9, 9]) 5 =
        some { data := none, err := some e, rest := rest })) :=
  ⟨by decide, prefix_round_trip [1, 2, 3] [9, 9] 5 (by decide)⟩

/-! ## C18: pointers in `encode` -/

/-- C18 (fails on the code): for a nil pointer `encode` writes the flag byte `0x00` and
then panics: the `Ptr` case ends without a `return` and control reaches the `panic` that
follows the `switch`. -/
theorem encode_nil_pointer_panics (w : Bytes) :
    encode (Value.ptr none) w = (w ++ [0], Outcome.panic) := by
  simp [encode]

/-- The part of C18 that holds: a non-nil pointer is encoded as the byte `0x01` followed by
the encoding of the value it points to, and ends as that encoding ends. -/
theorem encode_pointer (v : Value) (w : Bytes) :
    encode (Value.ptr (some v)) w = encode v (w ++ [1]) := by
  simp [encode]

/-- `Marshal` panics on a struct of supported kinds with a nil pointer field. -/
theorem Marshal_nil_pointer_field_panics :
    Marshal (Value.struct [Value.uint 5, Value.ptr none]) = none := by
  decide

end Encoding

namespace Fastrand

/-! ## C20: `Perm` -/

/-- What `Uint64n(n)` returns is below `n`. -/
theorem Uint64n_lt (n : Nat) :
    ∀ (words : List Nat) (j : Nat) (rest : List Nat),
      Uint64n n words = Draw.value j rest → j < n := by
  intro words
  induction words with
  | nil =>
    intro j rest h
    unfold Uint64n at h
    split at h <;> cases h
  | cons r words ih =>
    intro j rest h
    unfold Uint64n at h
    by_cases h0 : n = 0
    · rw [if_pos h0] at h; cases h
    · rw [if_neg h0] at h
      split at h
      · exact ih j rest h
      · cases h
        exact Nat.mod_lt _ (Nat.pos_of_ne_zero h0)

/-- What `Intn(i + 1)` returns is at most `i`: the contract the draws of `Perm` obey. -/
theorem Intn_succ_le (i : Nat) (words : List Nat) (j : Nat) (rest : List Nat)
    (h : Intn ((i : Int) + 1) words = Draw.value j rest) : j ≤ i := by
  unfold Intn at h
  rw [if_neg (by omega)] at h
  have := Uint64n_lt _ words j rest h
  omega

theorem set_append_perm {α : Type} (a : α) :
    ∀ (pre : List α) (j : Nat) (x : α), pre[j]? = some x →
      List.Perm (pre.set j a ++ [x]) (a :: pre) := by
  intro pre
  induction pre with
  | nil => intro j x h; simp at h
  | cons p ps ih =>
    intro j x h
    cases j with
    | zero =>
      simp only [List.getElem?_cons_zero, Option.some.injEq] at h
      subst h
      simp only [List.set_cons_zero, List.cons_append]
      exact List.Perm.cons a (List.perm_append_singleton p ps)
    | succ j =>
      simp only [List.getElem?_cons_succ] at h
      simp only [List.set_cons_succ, List.cons_append]
      exact (List.Perm.cons p (ih j x h)).trans (List.Perm.swap a p ps)

theorem permLoop_perm (draw : Nat → Nat) (n : Nat) (hdraw : ∀ i, draw i ≤ i) :
    ∀ (k i : Nat) (pre : List Nat), i + k = n → pre.length = i → List.Perm pre (List.range i) →
      ∃ m, permLoop draw k i (pre ++ List.replicate k 0) = some m ∧ m.length = n ∧
        List.Perm m (List.range n) := by
  intro k
  induction k with
  | zero =>
    intro i pre hik hlen hperm
    have : i = n := by omega
    subst this
    exact ⟨pre, by simp [permLoop], hlen, hperm⟩
  | succ k ih =>
    intro i pre hik hlen hperm
    have hrep : List.replicate (k + 1) 0 = 0 :: List.replicate k 0 := rfl
    have hj := hdraw i
    rcases Nat.eq_or_lt_of_le hj with hji | hji
    · -- the draw is `i` itself
      have hget : (pre ++ List.replicate (k + 1) 0)[draw i]? = some 0 := by
        rw [hji, hrep, List.getElem?_append_right (by omega), hlen]
        simp
      have hset : ((pre ++ List.replicate (k + 1) 0).set i 0).set (draw i) i =
          (pre ++ [i]) ++ List.replicate k 0 := by
        rw [hji, hrep, List.set_append_right _ _ (by omega), hlen]
        simp only [Nat.sub_self, List.set_cons_zero]
        rw [List.set_append_right _ _ (by omega), hlen]
        simp
      simp only [permLoop, hget]
      rw [if_pos (by rw [List.length_append, hlen, List.length_replicate]; omega), hset]
      exact ih (i + 1) (pre ++ [i]) (by omega) (by simp [hlen])
        (by rw [List.range_succ]; exact List.Perm.append_right _ hperm)
    · -- the draw is below `i`
      have hltpre : draw i < pre.length := by omega
      obtain ⟨x, hgetpre⟩ : ∃ x, pre[draw i]? = some x :=
        ⟨pre[draw i], List.getElem?_eq_getElem hltpre⟩
      have hget : (pre ++ List.replicate (k + 1) 0)[draw i]? = some x := by
        rw [List.getElem?_append_left hltpre, hgetpre]
      have hsub : i - pre.length = 0 := by omega
      have hset : ((pre ++ List.replicate (k + 1) 0).set i x).set (draw i) i =
          (pre.set (draw i) i ++ [x]) ++ List.replicate k 0 := by
        rw [hrep, List.set_append_right _ _ (by omega), hsub]
        simp only [List.set_cons_zero]
        rw [List.set_append_left _ _ hltpre]
        simp
      simp only [permLoop, hget]
      rw [if_pos (by rw [List.length_append, hlen, List.length_replicate]; omega), hset]
      refine ih (i + 1) _ (by omega) (by simp [hlen]) ?_
      rw [List.range_succ]
      exact (set_append_perm i pre (draw i) _ hgetpre).trans
        ((List.Perm.cons i hperm).trans (List.perm_append_singleton i (List.range i)).symm)

/-- C20: for every `n >= 0` and every sequence of draws in which `Intn(i + 1)` returns
some `j` with `0 <= j <= i` at step `i`, `Perm(n)` returns (no index is out of range) a
slice of length `n` that holds each integer of `[0, n)` exactly once. -/
theorem Perm_is_permutation (n : Nat) (draw : Nat → Nat) (hdraw : ∀ i, draw i ≤ i) :
    ∃ m, Perm n draw = some m ∧ m.length = n ∧ List.Perm m (List.range n) ∧
      m.Nodup ∧ ∀ x, x ∈ m ↔ x < n := by
  have hmain : ∃ m, Perm n draw = some m ∧ m.length = n ∧ List.Perm m (List.range n) := by
    cases n with
    | zero => exact ⟨[], rfl, rfl, List.Perm.refl _⟩
    | succ n =>
      have := permLoop_perm draw (n + 1) hdraw n 1 [0] (by omega) rfl (List.Perm.refl _)
      exact this
  obtain ⟨m, h1, h2, h3⟩ := hmain
  exact ⟨m, h1, h2, h3, h3.nodup_iff.2 (List.nodup_range n),
    fun x => by rw [h3.mem_iff, List.mem_range]⟩

theorem Perm_is_permutation_witness :
    (∀ i, (fun i : Nat => i / 2) i ≤ i) ∧
    ∃ m, Perm 5 (fun i => i / 2) = some m ∧ m.length = 5 ∧ List.Perm m (List.range 5) ∧
      m.Nodup ∧ ∀ x, x ∈ m ↔ x < 5 :=
  ⟨fun i => Nat.div_le_self i 2, Perm_is_permutation 5 (fun i => i / 2)
    (fun i => Nat.div_le_self i 2)⟩

end Fastrand
